import Mathlib

/-!
# localdata-syncer: one-way tree synchronisation

A shallow embedding of `main.go` (functions `lookupFiles`, `deleteRemoteFiles`,
`uploadLocalFiles`) together with the Go standard-library functions the program
calls (`strings.TrimPrefix`, `path.Clean`, `path.Join`, `path.Split`).

Go strings are byte sequences.  They are modelled here as lists of characters;
the only bytes the path functions inspect are `/` and `.`, both single-byte in
UTF-8 and never part of a multi-byte encoding.

The storage client is a parameter: its listing call is a function from a path
to the entries of one directory or an error, and the calls that change the
store (`FSMkdir`, `FSCopy`, `FSRemove`) are recorded as values.  Logging, the
progress counter `lookupProcess` and the loading of the configuration do not
influence any value the functions return and are left out.

The file has two parts: the definitions (the program, the library functions,
and the notions the statements use), then the theorems.
-/

namespace LocaldataSyncer

/-! # Definitions -/

/-- A Go `string`. -/
abbrev Str := List Char

/-! ## `strings` -/

/-- Go `strings.HasPrefix(s, pre)`: `len(s) >= len(pre) && s[:len(pre)] == pre`. -/
def HasPrefix (s pre : Str) : Bool :=
  decide (s.length ≥ pre.length) && decide (s.take pre.length = pre)

/-- Go `strings.TrimPrefix(s, pre)`: `s` without the leading `pre`, or `s` itself
when `s` does not start with `pre`. -/
def TrimPrefix (s pre : Str) : Str :=
  if HasPrefix s pre then s.drop pre.length else s

/-! ## `path` -/

/-- The loop of Go `bytealg.LastIndexByteString`:
`for i := len(s) - 1; i >= 0; i-- { if s[i] == c { return i } }; return -1`.
The argument counts `i + 1`. -/
def lastIndexLoop (s : Str) (c : Char) : Nat → Int
  | 0 => -1
  | i + 1 => if s.get? i = some c then (i : Int) else lastIndexLoop s c i

/-- Go `bytealg.LastIndexByteString(s, c)`. -/
def LastIndexByte (s : Str) (c : Char) : Int :=
  lastIndexLoop s c s.length

/-- Go `path.Split(path)`: `i := LastIndexByte(path, '/'); return path[:i+1], path[i+1:]`. -/
def Split (path : Str) : Str × Str :=
  let i := LastIndexByte path '/'
  (path.take (i + 1).toNat, path.drop (i + 1).toNat)

/-- The inner loop of the `..` case of `path.Clean`:
`out.w--; for out.w > dotdot && out.index(out.w) != '/' { out.w-- }`.
The output buffer is kept reversed (its head is its last byte), so `out.w` is
the length of the list and `out.index(out.w)` after a decrement is the byte just
removed. -/
def backtrack (dotdot : Nat) : Str → Str
  | [] => []
  | c :: out => if out.length > dotdot ∧ c ≠ '/' then backtrack dotdot out else out

/-- The main loop `for r < n { switch { ... } }` of Go `path.Clean`.  The first
argument bounds the number of iterations, the second is `path[r:]`, the third
the output buffer (reversed: the `lazybuf` of the source is modelled by its
logical contents), the fourth is `dotdot`.  Returns the final buffer and
`dotdot`. -/
def cleanLoop (rooted : Bool) : Nat → Str → Str → Nat → Str × Nat
  | 0, _, out, dotdot => (out, dotdot)
  | _ + 1, [], out, dotdot => (out, dotdot)
  | fuel + 1, c :: rest, out, dotdot =>
    if c = '/' then
      -- empty path element
      cleanLoop rooted fuel rest out dotdot
    else if c = '.' ∧ (rest = [] ∨ rest.head? = some '/') then
      -- . element
      cleanLoop rooted fuel rest out dotdot
    else if c = '.' ∧ rest.head? = some '.' ∧
        (rest.tail = [] ∨ rest.tail.head? = some '/') then
      -- .. element: remove to last /
      if out.length > dotdot then
        cleanLoop rooted fuel rest.tail (backtrack dotdot out) dotdot
      else if rooted = false then
        let out1 := if out.length > 0 then '/' :: out else out
        let out2 := '.' :: '.' :: out1
        cleanLoop rooted fuel rest.tail out2 out2.length
      else
        cleanLoop rooted fuel rest.tail out dotdot
    else
      -- real path element: add slash if needed, copy element
      let out1 :=
        if (rooted = true ∧ out.length ≠ 1) ∨ (rooted = false ∧ out.length ≠ 0)
        then '/' :: out else out
      cleanLoop rooted fuel ((c :: rest).dropWhile (fun x => x ≠ '/'))
        (((c :: rest).takeWhile (fun x => x ≠ '/')).reverse ++ out1) dotdot

/-- Go `path.Clean(path)`.  Every iteration of the loop consumes at least one
byte of the path, so `len(path)` iterations reach its end (`cleanLoop_fuel`). -/
def Clean (path : Str) : Str :=
  if path = [] then ['.'] else
  let rooted : Bool := path.head? = some '/'
  let out :=
    if rooted then (cleanLoop true path.length path.tail ['/'] 1).1
    else (cleanLoop false path.length path [] 0).1
  if out.length = 0 then ['.'] else out.reverse

/-- The buffer-building loop of Go `path.Join`:
`for _, e := range elem { if len(buf) > 0 || e != "" { if len(buf) > 0 { buf = append(buf, '/') }; buf = append(buf, e...) } }`. -/
def joinBuf : Str → List Str → Str
  | buf, [] => buf
  | buf, e :: elem =>
    if buf.length > 0 ∨ e ≠ [] then
      joinBuf ((if buf.length > 0 then buf ++ ['/'] else buf) ++ e) elem
    else joinBuf buf elem

/-- Go `path.Join(elem...)`: empty when all elements are empty, otherwise the
non-empty elements separated by `/` and passed through `Clean`.  (Older releases
join `elem[i:]` from the first non-empty element on with `/`; the argument of
`Clean` then differs only by doubled slashes, and is the same for two
elements.) -/
def Join (elem : List Str) : Str :=
  if (elem.map List.length).sum = 0 then [] else Clean (joinBuf [] elem)

/-! ## Data model -/

/-- Modelled from the spec: the record type `FSListContentItem` is declared
outside the listed source; the program reads only its fields `Name` and `IsDir`
(the spec's FileRecord: leaf name, directory flag, metadata not used in
comparisons). -/
structure FSListContentItem where
  Name : Str
  IsDir : Bool
  deriving DecidableEq, Repr

/-- The error value of a failed client call. -/
abbrev Error := String

/-- A Go `map[string]*FSListContentItem`, given by its entries in the order a
`range` loop visits them.  Go leaves that order unspecified, so statements about
a map quantify over every such list with pairwise distinct keys. -/
abbrev FilesMap := List (Str × FSListContentItem)

/-- The keys of a map, in iteration order. -/
def keys (m : FilesMap) : List Str := m.map Prod.fst

/-- Go `_, ok := m[k]`. -/
def hasKey (m : FilesMap) (k : Str) : Bool := decide (k ∈ keys m)

/-- Go `m[k] = v`: overwrite the entry of an existing key, else add one. -/
def setKey : FilesMap → Str → FSListContentItem → FilesMap
  | [], k, v => [(k, v)]
  | e :: m, k, v => if e.1 = k then (k, v) :: m else e :: setKey m k v

/-- Go `for k, v := range subFilesMap { filesMap[k] = v }`. -/
def mergeInto (filesMap subFilesMap : FilesMap) : FilesMap :=
  subFilesMap.foldl (fun acc e => setKey acc e.1 e.2) filesMap

/-- A Go `map[string][]string` (directory to leaf names), by its entries. -/
abbrev Groups := List (Str × List Str)

/-- Go `g[dir]`: the names stored under `dir`, the nil slice when absent. -/
def namesOf : Groups → Str → List Str
  | [], _ => []
  | e :: g, dir => if e.1 = dir then e.2 else namesOf g dir

/-- Go `if g[dir] == nil { g[dir] = []string{} }; g[dir] = append(g[dir], name)`. -/
def appendName : Groups → Str → Str → Groups
  | [], dir, name => [(dir, [name])]
  | e :: g, dir, name => if e.1 = dir then (dir, e.2 ++ [name]) :: g else e :: appendName g dir name

/-! ## Reconciliation (`deleteRemoteFiles`, `uploadLocalFiles`) -/

/-- The value `localFilePath := path.Join(srcDir, strings.TrimPrefix(rp, dstDir))`
of `deleteRemoteFiles` (the spec's `toSource`). -/
def localFilePath (srcDir dstDir rp : Str) : Str :=
  Join [srcDir, TrimPrefix rp dstDir]

/-- The value `pureFilePath := strings.TrimPrefix(rp, srcDir)` of `uploadLocalFiles`. -/
def pureFilePath (srcDir rp : Str) : Str := TrimPrefix rp srcDir

/-- The value `remoteFilePath := path.Join(dstDir, pureFilePath)` of
`uploadLocalFiles` (the spec's `toDestination`). -/
def remoteFilePath (srcDir dstDir rp : Str) : Str :=
  Join [dstDir, pureFilePath srcDir rp]

/-- The first loop of `deleteRemoteFiles`: the map `needDeleteFiles` it builds. -/
def needDeleteFiles (srcDir dstDir : Str) (remoteFilesMap localFilesMap : FilesMap) : Groups :=
  remoteFilesMap.foldl (fun acc e =>
    if hasKey localFilesMap (localFilePath srcDir dstDir e.1) then acc
    else appendName acc (Split e.1).1 (Split e.1).2) []

/-- The first loop of `uploadLocalFiles`: the map `needUploadFiles` it builds. -/
def needUploadFiles (srcDir dstDir : Str) (remoteFilesMap localFilesMap : FilesMap) : Groups :=
  localFilesMap.foldl (fun acc e =>
    if hasKey remoteFilesMap (remoteFilePath srcDir dstDir e.1) then acc
    else appendName acc (Split (pureFilePath srcDir e.1)).1 (Split (pureFilePath srcDir e.1)).2) []

/-- A call on the storage client that changes the store. -/
inductive ClientCall where
  | FSMkdir (dst : Str)
  | FSCopy (src dst : Str) (names : List Str)
  | FSRemove (dir : Str) (names : List Str)
  deriving DecidableEq, Repr

/-- The calls `deleteRemoteFiles` issues: one `FSRemove(dir, names)` per group. -/
def deleteRemoteFiles (srcDir dstDir : Str) (remoteFilesMap localFilesMap : FilesMap) :
    List ClientCall :=
  (needDeleteFiles srcDir dstDir remoteFilesMap localFilesMap).map
    (fun g => ClientCall.FSRemove g.1 g.2)

/-- The calls `uploadLocalFiles` issues: per group `FSMkdir(dst)` and then
`FSCopy(src, dst, names)` with `src := path.Join(srcDir, dir)` and
`dst := path.Join(dstDir, dir)`. -/
def uploadLocalFiles (srcDir dstDir : Str) (remoteFilesMap localFilesMap : FilesMap) :
    List ClientCall :=
  (needUploadFiles srcDir dstDir remoteFilesMap localFilesMap).flatMap
    (fun g => [ClientCall.FSMkdir (Join [dstDir, g.1]),
               ClientCall.FSCopy (Join [srcDir, g.1]) (Join [dstDir, g.1]) g.2])

/-! ## Recursive listing (`lookupFiles`) -/

/-- What a call of `lookupFiles` returns: the Go pair `(filesMap, err)`, and the
`FSList` calls it issued, in order. -/
structure LookupResult where
  filesMap : FilesMap
  err : Option Error
  calls : List Str
  deriving DecidableEq, Repr

/-- The loop `for _, item := range rResp.Data.Content` of `lookupFiles`, with the
recursive call as a parameter (`none`: the recursion bound was reached). -/
def lookupLoop (lookup : Str → Option LookupResult) (dir : Str) :
    List FSListContentItem → FilesMap → List Str → Option LookupResult
  | [], filesMap, calls => some ⟨filesMap, none, calls⟩
  | item :: content, filesMap, calls =>
    if item.IsDir then
      match lookup (Join [dir, item.Name]) with
      | none => none
      | some sub =>
        match sub.err with
        | some err => some ⟨filesMap, some err, calls ++ sub.calls⟩
        | none =>
          lookupLoop lookup dir content (mergeInto filesMap sub.filesMap) (calls ++ sub.calls)
    else
      lookupLoop lookup dir content (setKey filesMap (Join [dir, item.Name]) item) calls

/-- The listing call `alistClient.FSList(dir)`: the entries of one directory, in
order (`rResp.Data.Content`), or an error. -/
abbrev Lister := Str → Except Error (List FSListContentItem)

/-- The function `lookupFiles(dir, alistClient)`; `FSList` is the listing call of
the client and the first argument bounds the recursion depth (`none`: the bound
was reached). -/
def lookupFiles (FSList : Lister) : Nat → Str → Option LookupResult
  | 0, _ => none
  | fuel + 1, dir =>
    match FSList dir with
    | .error err => some ⟨[], some err, [dir]⟩
    | .ok content => lookupLoop (lookupFiles FSList fuel) dir content [] [dir]

/-! ## Groups -/

/-- The number of names listed in all groups. -/
def totalNames (g : Groups) : Nat := (g.map (fun e => e.2.length)).sum

/-- The shape shared by the first loops of `deleteRemoteFiles` and
`uploadLocalFiles`: skip the keys found on the other side, file the others
under the directory part of a split path. -/
def groupLoop (skip : Str → Bool) (pr : Str → Str × Str) (m : FilesMap) (acc : Groups) : Groups :=
  m.foldl (fun acc e => if skip e.1 then acc else appendName acc (pr e.1).1 (pr e.1).2) acc

/-! ## `path.Clean`: the loop, element by element -/

/-- The loop of `path.Clean` run to the end of its input. -/
def cleanRun (rooted : Bool) (rest : Str) (st : Str × Nat) : Str × Nat :=
  cleanLoop rooted rest.length rest st.1 st.2

/-- What the loop does with one path element (the text between two slashes). -/
def elemStep (rooted : Bool) (seg : Str) (st : Str × Nat) : Str × Nat :=
  if seg = [] ∨ seg = ['.'] then st
  else if seg = ['.', '.'] then
    if st.1.length > st.2 then (backtrack st.2 st.1, st.2)
    else if rooted = false then
      ('.' :: '.' :: (if st.1.length > 0 then '/' :: st.1 else st.1),
        ('.' :: '.' :: (if st.1.length > 0 then '/' :: st.1 else st.1)).length)
    else st
  else
    (seg.reverse ++
      (if (rooted = true ∧ st.1.length ≠ 1) ∨ (rooted = false ∧ st.1.length ≠ 0)
       then '/' :: st.1 else st.1), st.2)

/-- A string is at an element boundary: it is empty or starts with a slash. -/
def AtBoundary (rest : Str) : Prop := rest = [] ∨ rest.head? = some '/'

/-- Path elements separated by single slashes. -/
def joinSegs : List Str → Str
  | [] => []
  | [s] => s
  | s :: t :: ts => s ++ '/' :: joinSegs (t :: ts)

/-- The elements of a path: the pieces between its slashes. -/
def segsOf : Str → List Str
  | [] => [[]]
  | c :: s =>
    if c = '/' then [] :: segsOf s
    else match segsOf s with
      | [] => [[c]]
      | h :: t => (c :: h) :: t

/-- The state of the loop of `path.Clean` when it ends on a non-empty path. -/
def cleanState (path : Str) : Str × Nat :=
  if path.head? = some '/' then
    (segsOf path.tail).foldl (fun st seg => elemStep true seg st) (['/'], 1)
  else (segsOf path).foldl (fun st seg => elemStep false seg st) ([], 0)

/-! ## Normal forms of `path.Clean` -/

/-- A name that is one proper path element: non-empty, without a slash, and
neither `.` nor `..`. -/
def ProperName (n : Str) : Prop := n ≠ [] ∧ '/' ∉ n ∧ n ≠ ['.'] ∧ n ≠ ['.', '.']

instance : DecidablePred ProperName := fun n => by
  unfold ProperName; infer_instance

/-- The default case of the switch in `path.Clean`: add a slash if needed, copy
the element. -/
def pushSeg (rooted : Bool) (out n : Str) : Str :=
  n.reverse ++
    (if (rooted = true ∧ out.length ≠ 1) ∨ (rooted = false ∧ out.length ≠ 0)
     then '/' :: out else out)

/-- The `..` case of the switch when the buffer cannot backtrack and the path is
not rooted. -/
def pushDots (out : Str) : Str :=
  '.' :: '.' :: (if out.length > 0 then '/' :: out else out)

/-- The buffer after `k` leading `..` elements of an unrooted path. -/
def dotsBuf : Nat → Str
  | 0 => []
  | k + 1 => pushDots (dotsBuf k)

/-- The buffer below the proper elements: `/` when rooted, else the leading
`..` elements. -/
def baseBuf (rooted : Bool) (k : Nat) : Str := if rooted then ['/'] else dotsBuf k

/-- The states the loop of `path.Clean` can be in: `k` leading `..` elements
(unrooted paths only), then proper elements. -/
def nfState (rooted : Bool) (k : Nat) (segs : List Str) : Str × Nat :=
  (segs.foldl (pushSeg rooted) (baseBuf rooted k), (baseBuf rooted k).length)

/-- The elements and the number of leading `..` after one more element. -/
def absStep (rooted : Bool) (seg : Str) (ks : Nat × List Str) : Nat × List Str :=
  if seg = [] ∨ seg = ['.'] then ks
  else if seg = ['.', '.'] then
    if ks.2 ≠ [] then (ks.1, ks.2.dropLast)
    else if rooted = false then (ks.1 + 1, [])
    else ks
  else (ks.1, ks.2 ++ [seg])

/-! ## Rooted clean paths -/

/-- The rooted path with the given elements: `/e1/e2/.../en`, and `/` for none. -/
def absPath (segs : List Str) : Str := '/' :: joinSegs segs

/-- A clean absolute path: it begins with `/` and equals its own `path.Clean`. -/
def CleanAbs (p : Str) : Prop := p.head? = some '/' ∧ Clean p = p

instance : DecidablePred CleanAbs := fun p => by
  unfold CleanAbs; infer_instance

/-- The elements of a loosely written relative path: every element is empty or
a proper name. -/
def Loose (y : Str) : Prop := ∀ s ∈ segsOf y, s = [] ∨ ProperName s

/-- The non-empty elements of a path. -/
def namesIn (y : Str) : List Str := (segsOf y).filter (fun s => decide (s ≠ []))

/-! ## Prefixes and splits of rooted clean paths -/

/-- The rest of a rooted path below a prefix of its elements: what
`strings.TrimPrefix` leaves. -/
def relTail (a b : List Str) : Str :=
  if b = [] then [] else if a = [] then joinSegs b else '/' :: joinSegs b

/-- The directory part that `path.Split` cuts off `relTail a (names ++ [f])`. -/
def dirPart (a names : List Str) : Str :=
  (if a = [] then [] else ['/']) ++ (if names = [] then [] else joinSegs names ++ ['/'])

/-! ## Unrooted normal forms and idempotence of `path.Clean` -/

/-- The element `..`. -/
def dotdotSeg : Str := ['.', '.']

/-! ## Variadic `path.Join` and clean roots -/

/-- The buffer `path.Join(root, n1, ..., nk)` hands to `path.Clean`. -/
def joinArg (root : Str) (ns : List Str) : Str := joinBuf [] (root :: ns)

/-- A clean path other than `.`, as a root of a listing. -/
def CleanRoot (d : Str) : Prop := Clean d = d ∧ d ≠ ['.']

instance : DecidablePred CleanRoot := fun d => by
  unfold CleanRoot; infer_instance

/-! ## Trees served by the listing call -/

/-- The directory tree that the listing call serves below `dir` is finite.  A
subdirectory is addressed the way `lookupFiles` addresses it, by
`path.Join(dir, item.Name)`. -/
inductive FiniteTree (FSList : Lister) : Str → Prop
  | failed (dir : Str) (err : Error) : FSList dir = .error err → FiniteTree FSList dir
  | listed (dir : Str) (content : List FSListContentItem) : FSList dir = .ok content →
      (∀ item ∈ content, item.IsDir = true → FiniteTree FSList (Join [dir, item.Name])) →
      FiniteTree FSList dir

/-- The tree below `dir` is finite and every listing call in it succeeds. -/
inductive ListedTree (FSList : Lister) : Str → Prop
  | listed (dir : Str) (content : List FSListContentItem) : FSList dir = .ok content →
      (∀ item ∈ content, item.IsDir = true → ListedTree FSList (Join [dir, item.Name])) →
      ListedTree FSList dir

/-- The tree below `dir` is finite, every listing call in it succeeds, and every
entry name is a proper name. -/
inductive GoodTree (FSList : Lister) : Str → Prop
  | listed (dir : Str) (content : List FSListContentItem) : FSList dir = .ok content →
      (∀ item ∈ content, ProperName item.Name) →
      (∀ item ∈ content, item.IsDir = true → GoodTree FSList (Join [dir, item.Name])) →
      GoodTree FSList dir

/-- The keys `lookupFiles` is to produce below `dir`: the joined path of every
non-directory entry, in `dir` itself or below one of its directory entries. -/
inductive FilePath (FSList : Lister) : Str → Str → Prop
  | file (dir : Str) (content : List FSListContentItem) (item : FSListContentItem) :
      FSList dir = .ok content → item ∈ content → item.IsDir = false →
      FilePath FSList dir (Join [dir, item.Name])
  | sub (dir : Str) (content : List FSListContentItem) (item : FSListContentItem) (p : Str) :
      FSList dir = .ok content → item ∈ content → item.IsDir = true →
      FilePath FSList (Join [dir, item.Name]) p → FilePath FSList dir p

/-! ## Results of `lookupFiles` -/

/-- What a successful call of `lookupFiles` on `dir` returns. -/
def ListsFiles (FSList : Lister) (dir : Str) (r : LookupResult) : Prop :=
  r.err = none ∧ (∀ p, p ∈ keys r.filesMap ↔ FilePath FSList dir p)
    ∧ (∀ e ∈ r.filesMap, e.2.IsDir = false) ∧ (keys r.filesMap).Nodup

/-! ## The files of a tree, by chains of nested directory entries -/

/-- The path of the directory reached from `root` through the nested directory
entries `ds`: `root` itself, or `path.Join(root, d1, ..., dk)`. -/
def dirPath (root : Str) (ds : List Str) : Str :=
  if ds = [] then root else Join (root :: ds)

/-- The names `ds` are a chain of nested directory entries below `root`: each
name is a directory entry in the listing of the directory the names before it
lead to. -/
inductive DirChain (FSList : Lister) (root : Str) : List Str → Prop
  | root : DirChain FSList root []
  | down (ds : List Str) (content : List FSListContentItem) (item : FSListContentItem) :
      DirChain FSList root ds → FSList (dirPath root ds) = .ok content → item ∈ content →
      item.IsDir = true → DirChain FSList root (ds ++ [item.Name])

/-- The path `p` is `path.Join(root, d1, ..., dk, f)` for a chain of nested
directory entries `d1..dk` followed by a non-directory entry `f`. -/
def IsFileOf (FSList : Lister) (root p : Str) : Prop :=
  ∃ ds content item, DirChain FSList root ds ∧ FSList (dirPath root ds) = .ok content
    ∧ item ∈ content ∧ item.IsDir = false ∧ p = Join (root :: (ds ++ [item.Name]))

/-! ## Depth-first order and listing failures -/

/-- The entries of one directory in listing order, for the depth-first order:
the order of each directory entry, one after the other. -/
def dfsLoop (dfs : Str → Option (List Str)) (dir : Str) :
    List FSListContentItem → Option (List Str)
  | [] => some []
  | item :: content =>
    if item.IsDir then
      match dfs (Join [dir, item.Name]), dfsLoop dfs dir content with
      | some a, some b => some (a ++ b)
      | _, _ => none
    else dfsLoop dfs dir content

/-- The directories of the tree below `dir` in depth-first order, entries taken
in listing order: `dir`, then the directories below each of its directory
entries.  A directory whose listing fails has no entries.  The first argument
bounds the depth. -/
def dfsOrder (FSList : Lister) : Nat → Str → Option (List Str)
  | 0, _ => none
  | fuel + 1, dir =>
    match FSList dir with
    | .error _ => some [dir]
    | .ok content => (dfsLoop (dfsOrder FSList fuel) dir content).map (fun o => dir :: o)

/-- The error of the listing call for `dir`, if it fails. -/
def listingError (FSList : Lister) (dir : Str) : Option Error :=
  match FSList dir with
  | .error err => some err
  | .ok _ => none

/-- The error of the first failing listing call among `dirs`. -/
def firstError (FSList : Lister) : List Str → Option Error
  | [] => none
  | c :: cs =>
    match listingError FSList c with
    | some err => some err
    | none => firstError FSList cs

/-- The directories up to and including the first one whose listing fails. -/
def untilFirstFailure (FSList : Lister) : List Str → List Str
  | [] => []
  | c :: cs =>
    match listingError FSList c with
    | some _ => [c]
    | none => c :: untilFirstFailure FSList cs

/-- The calls and the error of a call of `lookupFiles`, against the depth-first
order of the tree. -/
def Traces (FSList : Lister) (r : LookupResult) (order : List Str) : Prop :=
  r.calls = untilFirstFailure FSList order ∧ r.err = firstError FSList order

/-! ## Groups as maps -/

/-- The leaf name `n` is listed under the directory `d` in the groups. -/
def Listed (g : Groups) (d n : Str) : Prop := ∃ names, (d, names) ∈ g ∧ n ∈ names

/-! ## Worked scenario data -/

/-- The record of a file with the given leaf name. -/
def fileItem (name : String) : FSListContentItem := ⟨name.toList, false⟩

/-- The record of a directory with the given leaf name. -/
def dirItem (name : String) : FSListContentItem := ⟨name.toList, true⟩

/-- Source root of the worked scenario. -/
def exSrcDir : Str := "/data".toList

/-- Destination root of the worked scenario. -/
def exDstDir : Str := "/remote".toList

/-- Destination tree of the worked scenario. -/
def exRemote : FilesMap :=
  [("/remote/a.txt".toList, fileItem "a.txt"), ("/remote/old.txt".toList, fileItem "old.txt")]

/-- Source tree of the worked scenario. -/
def exLocal : FilesMap :=
  [("/data/a.txt".toList, fileItem "a.txt"), ("/data/sub/b.txt".toList, fileItem "b.txt")]

/-! ## Element boundaries -/

/-- The root is a prefix of `p` that ends at an element boundary: `p` is the
root, or continues with a slash, or the root is `/`. -/
def AtElemBoundary (root p : Str) : Prop :=
  ∃ r, p = root ++ r ∧ (r = [] ∨ r.head? = some '/' ∨ root = ['/'])

/-! ## Scenario data: a destination root that is not clean -/

/-- The listing served for the destination of the C6 counterexample: the
directory `./remote` holds the file `x`. -/
def cexRemoteFS : Lister := fun dir =>
  if dir = "./remote".toList then .ok [fileItem "x"] else .error "no such directory"

/-! ## Scenario data: the source listing -/

/-- The listing served for the source of the worked scenario: `/data` holds the
file `a.txt` and the directory `sub`, which holds the file `b.txt`. -/
def exFS : Lister := fun dir =>
  if dir = "/data".toList then .ok [fileItem "a.txt", dirItem "sub"]
  else if dir = "/data/sub".toList then .ok [fileItem "b.txt"]
  else .error "no such directory"

/-! ## A second run after a successful first run -/

/-- The keys a successful first run removes: `d ++ n` for every name `n` listed
under `d` in the deletion groups (the entries `FSRemove(d, names)` deletes). -/
def removedKeys (del : Groups) : List Str :=
  del.flatMap (fun g => g.2.map (fun n => g.1 ++ n))

/-- The keys a successful first run adds: `path.Join(path.Join(dstDir, d), n)`
for every name `n` listed under `d` in the upload groups (the entries
`FSCopy(src, dst, names)` writes below `dst := path.Join(dstDir, d)`). -/
def addedKeys (dstDir : Str) (up : Groups) : List Str :=
  up.flatMap (fun g => g.2.map (fun n => Join [Join [dstDir, g.1], n]))

/-- The destination tree after a first run in which every remove and copy call
succeeds: the removed keys are gone, the added keys are there. -/
def afterFirstRun (dstDir : Str) (A : FilesMap) (del up : Groups) : FilesMap :=
  A.filter (fun e => decide (e.1 ∉ removedKeys del))
    ++ (addedKeys dstDir up).map (fun k => (k, (⟨(Split k).2, false⟩ : FSListContentItem)))

/-- The listing served for the destination of the worked scenario: `/remote`
holds the files `a.txt` and `old.txt`. -/
def exRemoteFS : Lister := fun dir =>
  if dir = "/remote".toList then .ok [fileItem "a.txt", fileItem "old.txt"]
  else .error "no such directory"

/-- The listing served for the source of the C4 counterexample: the directory
`./data` holds the file `a.txt`. -/
def cexSrcFS : Lister := fun dir =>
  if dir = "./data".toList then .ok [fileItem "a.txt"] else .error "no such directory"

/-- The listing served for the destination of the C4 counterexample: the
directory `/remote` is empty. -/
def cexDstFS : Lister := fun dir =>
  if dir = "/remote".toList then .ok [] else .error "no such directory"

/-! ## Scenario data: failing and single-file listings -/

/-- A listing that fails on the third call, deep in a subtree: `/data` holds the
directories `x` and `y`, `/data/x` holds the file `f` and the directory `deep`,
the listing of `/data/x/deep` fails, and `/data/y` is empty. -/
def failFS : Lister := fun dir =>
  if dir = "/data".toList then .ok [dirItem "x", dirItem "y"]
  else if dir = "/data/x".toList then .ok [fileItem "f", dirItem "deep"]
  else if dir = "/data/y".toList then .ok []
  else .error "listing failed"

/-- A listing that serves one directory holding one file. -/
def oneFileFS (dir name : String) : Lister := fun d =>
  if d = dir.toList then .ok [fileItem name] else .error "no such directory"

/-- Cases of the table `cleantests` of the tests of Go's package `path`: a path
and its cleaned form. -/
def cleantests : List (String × String) :=
  [("", "."), ("abc", "abc"), ("abc/def", "abc/def"), ("a/b/c", "a/b/c"), (".", "."),
   ("..", ".."), ("../..", "../.."), ("../../abc", "../../abc"), ("/abc", "/abc"), ("/", "/"),
   ("abc/", "abc"), ("abc/def/", "abc/def"), ("a/b/c/", "a/b/c"), ("./", "."), ("../", ".."),
   ("../../", "../.."), ("/abc/", "/abc"),
   ("abc//def//ghi", "abc/def/ghi"), ("//abc", "/abc"), ("///abc", "/abc"), ("//abc//", "/abc"),
   ("abc//", "abc"),
   ("abc/./def", "abc/def"), ("/./abc/def", "/abc/def"), ("abc/.", "abc"),
   ("abc/def/ghi/../jkl", "abc/def/jkl"), ("abc/def/../ghi/../jkl", "abc/jkl"),
   ("abc/def/..", "abc"), ("abc/def/../..", "."), ("/abc/def/../..", "/"),
   ("abc/def/../../..", ".."), ("/abc/def/../../..", "/"),
   ("abc/def/../../../ghi/jkl/../../../mno", "../../mno"),
   ("abc/./../def", "def"), ("abc//./../def", "def"), ("abc/../../././../def", "../../def")]

/-- Cases of the table `jointests` of the tests of Go's package `path`: the
elements and their join. -/
def jointests : List (List String × String) :=
  [([], ""), ([""], ""), (["a"], "a"), (["a", "b"], "a/b"), (["a", ""], "a"), (["", "b"], "b"),
   (["/", "a"], "/a"), (["/", ""], "/"), (["a/", "b"], "a/b"), (["a/", ""], "a"), (["", ""], "")]

/-- Cases of the table `splittests` of the tests of Go's package `path`: a
path, its directory part and its file part. -/
def splittests : List (String × String × String) :=
  [("a/b", "a/", "b"), ("a/b/", "a/b/", ""), ("a/", "a/", ""), ("a", "", "a"), ("/", "/", "")]

/-! # Theorems -/

/-! ## Grouping lemmas -/

theorem Split_append (p : Str) : (Split p).1 ++ (Split p).2 = p := by
  simp [Split]

theorem Split_inj {p q : Str} (h : Split p = Split q) : p = q := by
  rw [← Split_append p, ← Split_append q, h]

theorem namesOf_appendName (g : Groups) (d n d' : Str) :
    namesOf (appendName g d n) d' = if d' = d then namesOf g d ++ [n] else namesOf g d' := by
  induction g with
  | nil =>
    by_cases h : d' = d
    · simp [appendName, namesOf, h]
    · have h' : ¬ d = d' := fun e => h e.symm
      simp [appendName, namesOf, h, h']
  | cons e g ih =>
    by_cases he : e.1 = d
    · by_cases h : d' = d
      · simp [appendName, namesOf, he, h]
      · have h' : ¬ d = d' := fun e => h e.symm
        simp [appendName, namesOf, he, h, h']
    · by_cases h : d' = d
      · subst h
        have ih' := ih
        simp only [if_true] at ih'
        simp [appendName, namesOf, he, ih']
      · by_cases hed : e.1 = d'
        · simp [appendName, namesOf, he, h, hed]
        · simp [appendName, namesOf, he, h, hed, ih]

theorem totalNames_appendName (g : Groups) (d n : Str) :
    totalNames (appendName g d n) = totalNames g + 1 := by
  induction g with
  | nil => simp [appendName, totalNames]
  | cons e g ih =>
    by_cases he : e.1 = d
    · simp [appendName, totalNames, he]; omega
    · simp only [totalNames] at ih
      simp [appendName, totalNames, he, ih]; omega

theorem needDeleteFiles_eq (srcDir dstDir : Str) (A B : FilesMap) :
    needDeleteFiles srcDir dstDir A B
      = groupLoop (fun p => hasKey B (localFilePath srcDir dstDir p)) Split A [] := rfl

theorem needUploadFiles_eq (srcDir dstDir : Str) (A B : FilesMap) :
    needUploadFiles srcDir dstDir A B
      = groupLoop (fun q => hasKey A (remoteFilePath srcDir dstDir q))
          (fun q => Split (pureFilePath srcDir q)) B [] := rfl

theorem groupLoop_names (skip : Str → Bool) (pr : Str → Str × Str) (m : FilesMap)
    (acc : Groups) (d : Str) :
    namesOf (groupLoop skip pr m acc) d
      = namesOf acc d ++
        ((keys m).filter (fun p => !skip p && decide ((pr p).1 = d))).map (fun p => (pr p).2) := by
  induction m generalizing acc with
  | nil => simp [groupLoop, keys]
  | cons e m ih =>
    have step : groupLoop skip pr (e :: m) acc
        = groupLoop skip pr m (if skip e.1 then acc else appendName acc (pr e.1).1 (pr e.1).2) := rfl
    rw [step, ih]
    by_cases hs : skip e.1 = true
    · simp [keys, hs]
    · have hs' : skip e.1 = false := by simpa using hs
      by_cases hd : (pr e.1).1 = d
      · simp [keys, hs', hd, namesOf_appendName]
      · have hd' : ¬ d = (pr e.1).1 := fun h => hd h.symm
        simp [keys, hs', hd, hd', namesOf_appendName]

theorem groupLoop_total (skip : Str → Bool) (pr : Str → Str × Str) (m : FilesMap)
    (acc : Groups) :
    totalNames (groupLoop skip pr m acc)
      = totalNames acc + ((keys m).filter (fun p => !skip p)).length := by
  induction m generalizing acc with
  | nil => simp [groupLoop, keys]
  | cons e m ih =>
    have step : groupLoop skip pr (e :: m) acc
        = groupLoop skip pr m (if skip e.1 then acc else appendName acc (pr e.1).1 (pr e.1).2) := rfl
    rw [step, ih]
    by_cases hs : skip e.1 = true
    · simp [keys, hs]
    · have hs' : skip e.1 = false := by simpa using hs
      simp [keys, hs', totalNames_appendName]; omega

theorem groupLoop_mem (skip : Str → Bool) (pr : Str → Str × Str) (m : FilesMap) (d n : Str) :
    n ∈ namesOf (groupLoop skip pr m []) d
      ↔ ∃ p ∈ keys m, pr p = (d, n) ∧ skip p = false := by
  rw [groupLoop_names]
  simp only [namesOf, List.nil_append, List.mem_map, List.mem_filter, Bool.and_eq_true,
    Bool.not_eq_true', decide_eq_true_eq]
  constructor
  · rintro ⟨p, ⟨hp, hs, hd⟩, hn⟩
    exact ⟨p, hp, Prod.ext hd hn, hs⟩
  · rintro ⟨p, hp, hpr, hs⟩
    exact ⟨p, ⟨hp, hs, by rw [hpr]⟩, by rw [hpr]⟩

theorem groupLoop_count (skip : Str → Bool) (pr : Str → Str × Str) (m : FilesMap) (d n : Str) :
    (namesOf (groupLoop skip pr m []) d).count n
      = (keys m).countP (fun p => !skip p && decide (pr p = (d, n))) := by
  rw [groupLoop_names]
  simp only [namesOf, List.nil_append]
  induction keys m with
  | nil => simp
  | cons p ps ih =>
    by_cases hs : skip p = true
    · simp [List.filter_cons, List.countP_cons, hs, ih]
    · have hs' : skip p = false := by simpa using hs
      by_cases hd : (pr p).1 = d
      · by_cases hn : (pr p).2 = n
        · have hpr : pr p = (d, n) := Prod.ext hd hn
          simp [List.filter_cons, List.countP_cons, hs', hd, hn, hpr, ih]
        · have hpr : ¬ pr p = (d, n) := fun h => hn (by rw [h])
          simp [List.filter_cons, List.countP_cons, hs', hd, hn, hpr, ih, List.count_cons]
      · have hpr : ¬ pr p = (d, n) := fun h => hd (by rw [h])
        simp [List.filter_cons, List.countP_cons, hs', hd, hpr, ih]

theorem keys_cons (e : Str × FSListContentItem) (m : FilesMap) :
    keys (e :: m) = e.1 :: keys m := rfl

theorem groupLoop_nil_of_all_skipped (skip : Str → Bool) (pr : Str → Str × Str) (m : FilesMap)
    (acc : Groups) (h : ∀ p ∈ keys m, skip p = true) : groupLoop skip pr m acc = acc := by
  induction m generalizing acc with
  | nil => rfl
  | cons e m ih =>
    have step : groupLoop skip pr (e :: m) acc
        = groupLoop skip pr m (if skip e.1 then acc else appendName acc (pr e.1).1 (pr e.1).2) := rfl
    have he : skip e.1 = true := h e.1 (by rw [keys_cons]; exact List.mem_cons_self _ _)
    rw [step, he]
    exact ih acc (fun p hp => h p (by rw [keys_cons]; exact List.mem_cons_of_mem _ hp))

theorem countP_eq_zero_of_forall (l : List Str) (q : Str → Bool)
    (hq : ∀ x ∈ l, q x = false) : l.countP q = 0 := by
  induction l with
  | nil => rfl
  | cons a l ih =>
    rw [List.countP_cons, ih (fun x hx => hq x (List.mem_cons_of_mem _ hx)),
      hq a (List.mem_cons_self _ _)]
    rfl

theorem countP_eq_one_of_nodup (l : List Str) (hl : l.Nodup) (q : Str → Bool) (p : Str)
    (hp : p ∈ l) (hq : ∀ x ∈ l, q x = true ↔ x = p) : l.countP q = 1 := by
  induction l with
  | nil => exact absurd hp (List.not_mem_nil _)
  | cons a l ih =>
    have hnd := List.nodup_cons.mp hl
    rw [List.countP_cons]
    by_cases hap : a = p
    · have hqa : q a = true := (hq a (List.mem_cons_self _ _)).mpr hap
      have hz : l.countP q = 0 := by
        apply countP_eq_zero_of_forall
        intro x hx
        by_contra hne
        have hxt : q x = true := by simpa using hne
        have hxp : x = p := (hq x (List.mem_cons_of_mem _ hx)).mp hxt
        exact hnd.1 (by rw [hap, ← hxp]; exact hx)
      rw [hz, hqa]; rfl
    · have hpl : p ∈ l := by
        rcases List.mem_cons.mp hp with h | h
        · exact absurd h.symm hap
        · exact h
      have hqa : q a = false := by
        by_contra hne
        have hat : q a = true := by simpa using hne
        exact hap ((hq a (List.mem_cons_self _ _)).mp hat)
      rw [ih hnd.2 hpl (fun x hx => hq x (List.mem_cons_of_mem _ hx)), hqa]; rfl

/-! ## `path.Clean`: the loop, element by element -/

theorem length_dropWhile_le (q : Char → Bool) (l : Str) : (l.dropWhile q).length ≤ l.length := by
  induction l with
  | nil => simp
  | cons a l ih =>
    rw [List.dropWhile_cons]
    split
    · exact Nat.le_succ_of_le ih
    · exact Nat.le_refl _

theorem length_dropWhile_lt (c : Char) (l : Str) (hc : c ≠ '/') :
    ((c :: l).dropWhile (fun x => x ≠ '/')).length ≤ l.length := by
  rw [List.dropWhile_cons]
  simp only [hc, ne_eq, not_false_eq_true, decide_True, if_true]
  exact length_dropWhile_le _ l

/-- The iteration bound does not matter once it covers the input. -/
theorem cleanLoop_fuel (rooted : Bool) : ∀ (f1 f2 : Nat) (rest out : Str) (dotdot : Nat),
    rest.length ≤ f1 → rest.length ≤ f2 →
    cleanLoop rooted f1 rest out dotdot = cleanLoop rooted f2 rest out dotdot := by
  intro f1
  induction f1 with
  | zero =>
    intro f2 rest out dotdot h1 _
    have hr : rest = [] := List.eq_nil_of_length_eq_zero (Nat.le_zero.mp h1)
    subst hr
    cases f2 <;> simp [cleanLoop]
  | succ f1 ih =>
    intro f2 rest out dotdot h1 h2
    cases rest with
    | nil => cases f2 <;> simp [cleanLoop]
    | cons c rest =>
      cases f2 with
      | zero => simp at h2
      | succ f2 =>
        have h1' : rest.length ≤ f1 := by simpa using h1
        have h2' : rest.length ≤ f2 := by simpa using h2
        have ht1 : rest.tail.length ≤ f1 := by
          have := List.length_tail rest; omega
        have ht2 : rest.tail.length ≤ f2 := by
          have := List.length_tail rest; omega
        simp only [cleanLoop]
        by_cases hs : c = '/'
        · rw [if_pos hs, if_pos hs]
          exact ih f2 rest out dotdot h1' h2'
        · have hl := length_dropWhile_lt c rest hs
          rw [if_neg hs, if_neg hs]
          split_ifs
          all_goals first
            | exact ih f2 _ _ _ h1' h2'
            | exact ih f2 _ _ _ ht1 ht2
            | exact ih f2 _ _ _ (by omega) (by omega)

theorem cleanRun_nil (rooted : Bool) (st : Str × Nat) : cleanRun rooted [] st = st := by
  simp [cleanRun, cleanLoop]

theorem cleanLoop_eq_run (rooted : Bool) (fuel : Nat) (rest out : Str) (dotdot : Nat)
    (h : rest.length ≤ fuel) :
    cleanLoop rooted fuel rest out dotdot = cleanRun rooted rest (out, dotdot) :=
  cleanLoop_fuel rooted fuel rest.length rest out dotdot h (Nat.le_refl _)

theorem takeWhile_append_of_all (q : Char → Bool) (a b : Str) (ha : ∀ x ∈ a, q x = true)
    (hb : b = [] ∨ ∃ y t, b = y :: t ∧ q y = false) : (a ++ b).takeWhile q = a := by
  induction a with
  | nil =>
    rcases hb with hb | ⟨y, t, hb, hy⟩
    · subst hb; rfl
    · subst hb; simp [List.takeWhile_cons, hy]
  | cons x a ih =>
    have hx : q x = true := ha x (List.mem_cons_self _ _)
    simp only [List.cons_append, List.takeWhile_cons, hx, if_true]
    rw [ih (fun y hy => ha y (List.mem_cons_of_mem _ hy))]

theorem dropWhile_append_of_all (q : Char → Bool) (a b : Str) (ha : ∀ x ∈ a, q x = true)
    (hb : b = [] ∨ ∃ y t, b = y :: t ∧ q y = false) : (a ++ b).dropWhile q = b := by
  induction a with
  | nil =>
    rcases hb with hb | ⟨y, t, hb, hy⟩
    · subst hb; rfl
    · subst hb; simp [List.dropWhile_cons, hy]
  | cons x a ih =>
    have hx : q x = true := ha x (List.mem_cons_self _ _)
    simp only [List.cons_append, List.dropWhile_cons, hx, if_true]
    rw [ih (fun y hy => ha y (List.mem_cons_of_mem _ hy))]

theorem atBoundary_cons_iff (c : Char) (rest : Str) : AtBoundary (c :: rest) ↔ c = '/' := by
  simp [AtBoundary]

/-- One element, then the rest: the loop consumes a slash-free element that ends
at a boundary by applying `elemStep`. -/
theorem cleanRun_elem (rooted : Bool) (seg rest : Str) (st : Str × Nat)
    (hseg : '/' ∉ seg) (hrest : AtBoundary rest) :
    cleanRun rooted (seg ++ rest) st = cleanRun rooted rest (elemStep rooted seg st) := by
  cases seg with
  | nil => simp [elemStep]
  | cons c s =>
    have hc : c ≠ '/' := fun h => hseg (by rw [h]; exact List.mem_cons_self _ _)
    have hs : '/' ∉ s := fun h => hseg (List.mem_cons_of_mem _ h)
    have hrest' : rest = [] ∨ ∃ y t, rest = y :: t ∧ (fun x => decide (x ≠ '/')) y = false := by
      rcases hrest with h | h
      · exact Or.inl h
      · cases rest with
        | nil => exact Or.inl rfl
        | cons y t =>
          right
          refine ⟨y, t, rfl, ?_⟩
          simp at h
          simp [h]
    have hall : ∀ x ∈ c :: s, (fun x => decide (x ≠ '/')) x = true := by
      intro x hx
      have : x ≠ '/' := fun h => hseg (h ▸ hx)
      simp [this]
    have htw := takeWhile_append_of_all (fun x => decide (x ≠ '/')) (c :: s) rest hall hrest'
    have hdw := dropWhile_append_of_all (fun x => decide (x ≠ '/')) (c :: s) rest hall hrest'
    have hlen : (c :: s ++ rest).length = (s ++ rest).length + 1 := by simp
    obtain ⟨out, dd⟩ := st
    show cleanLoop rooted (c :: s ++ rest).length (c :: s ++ rest) out dd = _
    rw [hlen]
    have hcons : c :: s ++ rest = c :: (s ++ rest) := rfl
    rw [hcons]
    simp only [cleanLoop]
    rw [← hcons, htw, hdw]
    rw [if_neg hc]
    -- the three remaining cases of the switch
    by_cases hdot : c = '.' ∧ (s ++ rest = [] ∨ (s ++ rest).head? = some '/')
    · rw [if_pos hdot]
      have hsnil : s = [] := by
        cases s with
        | nil => rfl
        | cons x s' =>
          exfalso
          rcases hdot.2 with h | h
          · simp at h
          · simp at h
            exact hs (by rw [h]; exact List.mem_cons_self _ _)
      subst hsnil
      rw [hdot.1]
      simp only [List.nil_append]
      rw [cleanLoop_eq_run rooted _ rest out dd (Nat.le_refl _)]
      simp [elemStep]
    · rw [if_neg hdot]
      by_cases hdd : c = '.' ∧ (s ++ rest).head? = some '.' ∧
          ((s ++ rest).tail = [] ∨ (s ++ rest).tail.head? = some '/')
      · rw [if_pos hdd]
        have hs2 : s = ['.'] := by
          cases s with
          | nil =>
            exfalso
            have h := hdd.2.1
            simp only [List.nil_append] at h
            rcases hrest with h' | h'
            · rw [h'] at h; simp at h
            · rw [h'] at h; simp at h
          | cons x s' =>
            have hx : x = '.' := by
              have h := hdd.2.1
              simpa using h
            cases s' with
            | nil => rw [hx]
            | cons y s'' =>
              exfalso
              rcases hdd.2.2 with h | h
              · simp at h
              · simp at h
                exact hs (by rw [h]; simp)
        subst hs2
        rw [hdd.1]
        have htail : (['.'] ++ rest).tail = rest := rfl
        rw [htail]
        have hle : rest.length ≤ (['.'] ++ rest).length := by simp
        by_cases hw : out.length > dd
        · rw [if_pos hw, cleanLoop_eq_run rooted _ rest _ dd hle]
          simp [elemStep, hw]
        · rw [if_neg hw]
          by_cases hr : rooted = false
          · rw [if_pos hr, cleanLoop_eq_run rooted _ rest _ _ hle]
            simp [elemStep, hw, hr]
          · rw [if_neg hr, cleanLoop_eq_run rooted _ rest _ _ hle]
            simp [elemStep, hw, hr]
      · rw [if_neg hdd]
        have hle : rest.length ≤ (s ++ rest).length := by simp
        rw [cleanLoop_eq_run rooted _ rest _ dd hle]
        have hne1 : ¬ (c :: s = ['.']) := by
          intro h
          injection h with h1 h2
          apply hdot
          refine ⟨h1, ?_⟩
          subst h2
          simpa [AtBoundary] using hrest
        have hne2 : ¬ (c :: s = ['.', '.']) := by
          intro h
          injection h with h1 h2
          apply hdd
          refine ⟨h1, ?_⟩
          subst h2
          simpa [AtBoundary] using hrest
        simp [elemStep, hne1, hne2]

theorem cleanRun_slash (rooted : Bool) (rest : Str) (st : Str × Nat) :
    cleanRun rooted ('/' :: rest) st = cleanRun rooted rest st := by
  obtain ⟨out, dd⟩ := st
  show cleanLoop rooted (rest.length + 1) ('/' :: rest) out dd = _
  simp only [cleanLoop, if_true]
  rfl

theorem segsOf_ne_nil (x : Str) : segsOf x ≠ [] := by
  induction x with
  | nil => simp [segsOf]
  | cons c s ih =>
    simp only [segsOf]
    split_ifs
    · simp
    · split <;> simp

theorem segsOf_slashfree (x : Str) : ∀ s ∈ segsOf x, '/' ∉ s := by
  induction x with
  | nil => simp [segsOf]
  | cons c x ih =>
    simp only [segsOf]
    by_cases hc : c = '/'
    · rw [if_pos hc]
      intro s hs
      rcases List.mem_cons.mp hs with h | h
      · rw [h]; simp
      · exact ih s h
    · rw [if_neg hc]
      cases hsx : segsOf x with
      | nil => exact absurd hsx (segsOf_ne_nil x)
      | cons h t =>
        simp only
        rw [hsx] at ih
        intro s hs
        rcases List.mem_cons.mp hs with h' | h'
        · rw [h']
          intro hmem
          rcases List.mem_cons.mp hmem with h1 | h1
          · exact hc h1.symm
          · exact ih h (List.mem_cons_self _ _) h1
        · exact ih s (List.mem_cons_of_mem _ h')

theorem joinSegs_cons (s : Str) (t : List Str) (ht : t ≠ []) :
    joinSegs (s :: t) = s ++ '/' :: joinSegs t := by
  cases t with
  | nil => exact absurd rfl ht
  | cons a b => rfl

theorem joinSegs_segsOf (x : Str) : joinSegs (segsOf x) = x := by
  induction x with
  | nil => rfl
  | cons c x ih =>
    simp only [segsOf]
    by_cases hc : c = '/'
    · rw [if_pos hc, joinSegs_cons _ _ (segsOf_ne_nil x), ih, hc]; rfl
    · rw [if_neg hc]
      cases hsx : segsOf x with
      | nil => exact absurd hsx (segsOf_ne_nil x)
      | cons h t =>
        simp only
        rw [hsx] at ih
        cases t with
        | nil =>
          simp only [joinSegs] at ih ⊢
          rw [ih]
        | cons a b =>
          simp only [joinSegs] at ih ⊢
          rw [← ih]; rfl

theorem segsOf_cons_slash (s : Str) : segsOf ('/' :: s) = [] :: segsOf s := by
  simp [segsOf]

theorem segsOf_cons_ne (c : Char) (s : Str) (hc : c ≠ '/') :
    segsOf (c :: s) = (c :: (segsOf s).headD []) :: (segsOf s).tail := by
  simp only [segsOf, if_neg hc]
  cases hsx : segsOf s with
  | nil => exact absurd hsx (segsOf_ne_nil s)
  | cons h t => rfl

theorem segsOf_slashfree_self (s : Str) (hs : '/' ∉ s) : segsOf s = [s] := by
  induction s with
  | nil => rfl
  | cons c s ih =>
    have hc : c ≠ '/' := fun h => hs (by rw [h]; exact List.mem_cons_self _ _)
    have hs' : '/' ∉ s := fun h => hs (List.mem_cons_of_mem _ h)
    rw [segsOf_cons_ne c s hc, ih hs']; rfl

theorem segsOf_append_slash (s rest : Str) (hs : '/' ∉ s) :
    segsOf (s ++ '/' :: rest) = s :: segsOf rest := by
  induction s with
  | nil => exact segsOf_cons_slash rest
  | cons c s ih =>
    have hc : c ≠ '/' := fun h => hs (by rw [h]; exact List.mem_cons_self _ _)
    have hs' : '/' ∉ s := fun h => hs (List.mem_cons_of_mem _ h)
    rw [List.cons_append, segsOf_cons_ne c _ hc, ih hs']; rfl

theorem segsOf_joinSegs (segs : List Str) (hne : segs ≠ []) (hs : ∀ s ∈ segs, '/' ∉ s) :
    segsOf (joinSegs segs) = segs := by
  induction segs with
  | nil => exact absurd rfl hne
  | cons s t ih =>
    cases t with
    | nil => exact segsOf_slashfree_self s (hs s (List.mem_cons_self _ _))
    | cons a b =>
      rw [joinSegs_cons _ _ (by simp), segsOf_append_slash _ _ (hs s (List.mem_cons_self _ _)),
        ih (by simp) (fun x hx => hs x (List.mem_cons_of_mem _ hx))]

/-- Two paths glued with a slash have the elements of both. -/
theorem segsOf_append (x y : Str) : segsOf (x ++ '/' :: y) = segsOf x ++ segsOf y := by
  induction x with
  | nil => exact segsOf_cons_slash y
  | cons c x ih =>
    rw [List.cons_append]
    by_cases hc : c = '/'
    · rw [hc, segsOf_cons_slash, segsOf_cons_slash, ih]; rfl
    · rw [segsOf_cons_ne c _ hc, segsOf_cons_ne c _ hc, ih]
      cases hsx : segsOf x with
      | nil => exact absurd hsx (segsOf_ne_nil x)
      | cons h t => rfl

/-- The loop applied to a path is a fold of `elemStep` over its elements. -/
theorem cleanRun_joinSegs (rooted : Bool) (segs : List Str) (hs : ∀ s ∈ segs, '/' ∉ s)
    (st : Str × Nat) :
    cleanRun rooted (joinSegs segs) st = segs.foldl (fun st seg => elemStep rooted seg st) st := by
  induction segs generalizing st with
  | nil => simp [joinSegs, cleanRun_nil]
  | cons s t ih =>
    cases t with
    | nil =>
      have h := cleanRun_elem rooted s [] st (hs s (List.mem_cons_self _ _)) (Or.inl rfl)
      simp only [List.append_nil] at h
      simp [joinSegs, h, cleanRun_nil]
    | cons a b =>
      rw [joinSegs_cons _ _ (by simp),
        cleanRun_elem rooted s _ st (hs s (List.mem_cons_self _ _)) (Or.inr (by rfl)),
        cleanRun_slash, ih (fun x hx => hs x (List.mem_cons_of_mem _ hx))]
      rfl

theorem cleanRun_eq_fold (rooted : Bool) (x : Str) (st : Str × Nat) :
    cleanRun rooted x st = (segsOf x).foldl (fun st seg => elemStep rooted seg st) st := by
  have h := cleanRun_joinSegs rooted (segsOf x) (segsOf_slashfree x) st
  rw [joinSegs_segsOf] at h
  exact h

theorem Clean_eq (path : Str) (h : path ≠ []) :
    Clean path = if (cleanState path).1.length = 0 then ['.'] else (cleanState path).1.reverse := by
  have hlen : path.tail.length ≤ path.length := by
    have := List.length_tail path; omega
  unfold Clean cleanState
  rw [if_neg h]
  by_cases hr : path.head? = some '/'
  · simp only [hr, decide_True, if_true]
    rw [cleanLoop_eq_run true _ _ _ _ hlen, cleanRun_eq_fold]
  · simp only [hr, decide_False, if_false]
    rw [cleanLoop_eq_run false _ _ _ _ (Nat.le_refl _), cleanRun_eq_fold]
    simp

/-! ## Normal forms of `path.Clean` -/

theorem elemStep_proper (rooted : Bool) (n : Str) (st : Str × Nat) (h : ProperName n) :
    elemStep rooted n st = (pushSeg rooted st.1 n, st.2) := by
  obtain ⟨h1, _, h3, h4⟩ := h
  simp [elemStep, pushSeg, h1, h3, h4]

theorem elemStep_nil (rooted : Bool) (st : Str × Nat) : elemStep rooted [] st = st := by
  simp [elemStep]

theorem elemStep_dot (rooted : Bool) (st : Str × Nat) : elemStep rooted ['.'] st = st := by
  simp [elemStep]

theorem elemStep_dotdot (rooted : Bool) (st : Str × Nat) :
    elemStep rooted ['.', '.'] st =
      if st.1.length > st.2 then (backtrack st.2 st.1, st.2)
      else if rooted = false then (pushDots st.1, (pushDots st.1).length)
      else st := by
  simp [elemStep, pushDots]

theorem length_pushSeg (rooted : Bool) (out n : Str) :
    out.length + n.length ≤ (pushSeg rooted out n).length := by
  unfold pushSeg
  split_ifs <;> simp <;> omega

theorem length_foldl_pushSeg (rooted : Bool) (segs : List Str) (base : Str) :
    base.length ≤ (segs.foldl (pushSeg rooted) base).length := by
  induction segs generalizing base with
  | nil => exact Nat.le_refl _
  | cons s t ih =>
    have h1 := length_pushSeg rooted base s
    have h2 := ih (pushSeg rooted base s)
    simp only [List.foldl_cons]
    omega

theorem backtrack_append (dd : Nat) (l tl : Str) (hl : '/' ∉ l) (hne : l ≠ [])
    (htl : dd ≤ tl.length) :
    backtrack dd (l ++ tl) = if tl.length > dd then backtrack dd tl else tl := by
  induction l with
  | nil => exact absurd rfl hne
  | cons c l ih =>
    have hc : c ≠ '/' := fun h => hl (by rw [h]; exact List.mem_cons_self _ _)
    have hl' : '/' ∉ l := fun h => hl (List.mem_cons_of_mem _ h)
    cases l with
    | nil =>
      simp [backtrack, hc]
    | cons c2 l2 =>
      have hlen : ((c2 :: l2) ++ tl).length > dd := by simp; omega
      rw [List.cons_append]
      simp only [backtrack]
      rw [if_pos ⟨hlen, hc⟩]
      exact ih hl' (by simp)

theorem backtrack_pushSeg (rooted : Bool) (dd : Nat) (out n : Str) (hn : '/' ∉ n) (hne : n ≠ [])
    (hdd : dd ≤ out.length) (hr : rooted = true → dd = 1) :
    backtrack dd (pushSeg rooted out n) = out := by
  have hn' : '/' ∉ n.reverse := by simpa using hn
  have hne' : n.reverse ≠ [] := by simpa using hne
  unfold pushSeg
  by_cases hsep : (rooted = true ∧ out.length ≠ 1) ∨ (rooted = false ∧ out.length ≠ 0)
  · rw [if_pos hsep, backtrack_append dd _ _ hn' hne' (by simp; omega)]
    have : ('/' :: out).length > dd := by simp; omega
    rw [if_pos this]
    simp [backtrack]
  · rw [if_neg hsep, backtrack_append dd _ _ hn' hne' hdd]
    have : ¬ out.length > dd := by
      cases rooted with
      | true =>
        have h1 := hr rfl
        have h2 : out.length = 1 := by simpa using hsep
        omega
      | false =>
        have h2 : out.length = 0 := by simpa using hsep
        omega
    rw [if_neg this]

theorem length_baseBuf_le (rooted : Bool) (k : Nat) (segs : List Str) :
    (baseBuf rooted k).length ≤ (nfState rooted k segs).1.length :=
  length_foldl_pushSeg rooted segs _

theorem length_nfState_snoc (rooted : Bool) (k : Nat) (segs : List Str) (n : Str) (hn : n ≠ []) :
    (baseBuf rooted k).length < (nfState rooted k (segs ++ [n])).1.length := by
  have h1 := length_baseBuf_le rooted k segs
  have h2 := length_pushSeg rooted (nfState rooted k segs).1 n
  have h3 : 0 < n.length := List.length_pos.mpr hn
  simp only [nfState, List.foldl_append, List.foldl_cons, List.foldl_nil] at h1 h2 ⊢
  omega

theorem baseBuf_rooted (k : Nat) : baseBuf true k = ['/'] := rfl

theorem elemStep_nfState (rooted : Bool) (seg : Str) (k : Nat) (segs : List Str)
    (hseg : '/' ∉ seg) (hsegs : ∀ s ∈ segs, ProperName s) (hk : rooted = true → k = 0) :
    elemStep rooted seg (nfState rooted k segs)
        = nfState rooted (absStep rooted seg (k, segs)).1 (absStep rooted seg (k, segs)).2
      ∧ (∀ s ∈ (absStep rooted seg (k, segs)).2, ProperName s)
      ∧ (rooted = true → (absStep rooted seg (k, segs)).1 = 0) := by
  by_cases h0 : seg = [] ∨ seg = ['.']
  · have hstep : absStep rooted seg (k, segs) = (k, segs) := by simp [absStep, h0]
    rw [hstep]
    refine ⟨?_, hsegs, hk⟩
    simp [elemStep, h0]
  · by_cases h2 : seg = ['.', '.']
    · subst h2
      rw [elemStep_dotdot]
      rcases List.eq_nil_or_concat segs with hnil | ⟨segs', n, hsn⟩
      · subst hnil
        have hlen : ¬ (nfState rooted k []).1.length > (nfState rooted k []).2 := by
          simp [nfState]
        rw [if_neg hlen]
        cases rooted with
        | true =>
          simp [absStep, hk rfl]
        | false =>
          simp [absStep, nfState, baseBuf, dotsBuf]
      · rw [List.concat_eq_append] at hsn
        subst hsn
        have hnp : ProperName n := hsegs n (by simp)
        have hlen : (nfState rooted k (segs' ++ [n])).1.length > (nfState rooted k (segs' ++ [n])).2 :=
          length_nfState_snoc rooted k segs' n hnp.1
        rw [if_pos hlen]
        have hstep : absStep rooted ['.', '.'] (k, segs' ++ [n]) = (k, segs') := by
          simp [absStep]
        rw [hstep]
        refine ⟨?_, fun s hs => hsegs s (by simp [hs]), hk⟩
        have hbt := backtrack_pushSeg rooted (baseBuf rooted k).length
          (nfState rooted k segs').1 n hnp.2.1 hnp.1 (length_baseBuf_le rooted k segs')
          (by intro hr; rw [hr]; rfl)
        simp only [nfState, List.foldl_append, List.foldl_cons, List.foldl_nil] at hbt ⊢
        rw [hbt]
    · have hp : ProperName seg := ⟨fun h => h0 (Or.inl h), hseg, fun h => h0 (Or.inr h), h2⟩
      have hstep : absStep rooted seg (k, segs) = (k, segs ++ [seg]) := by
        simp [absStep, h0, h2]
      rw [hstep, elemStep_proper rooted seg _ hp]
      refine ⟨?_, ?_, hk⟩
      · simp [nfState, List.foldl_append]
      · intro s hs
        rcases List.mem_append.mp hs with h | h
        · exact hsegs s h
        · simp at h; rw [h]; exact hp

theorem foldl_elemStep_nfState (rooted : Bool) (l : List Str) (hl : ∀ s ∈ l, '/' ∉ s) :
    ∀ (k : Nat) (segs : List Str), (∀ s ∈ segs, ProperName s) → (rooted = true → k = 0) →
      ∃ k' segs', (∀ s ∈ segs', ProperName s) ∧ (rooted = true → k' = 0) ∧
        l.foldl (fun st seg => elemStep rooted seg st) (nfState rooted k segs)
          = nfState rooted k' segs' := by
  induction l with
  | nil =>
    intro k segs hs hk
    exact ⟨k, segs, hs, hk, rfl⟩
  | cons s t ih =>
    intro k segs hs hk
    obtain ⟨h1, h2, h3⟩ := elemStep_nfState rooted s k segs (hl s (List.mem_cons_self _ _)) hs hk
    obtain ⟨k', segs', h4, h5, h6⟩ :=
      ih (fun x hx => hl x (List.mem_cons_of_mem _ hx)) _ _ h2 h3
    refine ⟨k', segs', h4, h5, ?_⟩
    rw [List.foldl_cons, h1, h6]

/-- The loop of `path.Clean` always ends in a normal-form state. -/
theorem cleanState_nf (path : Str) :
    ∃ k segs, (∀ s ∈ segs, ProperName s) ∧
      cleanState path = nfState (decide (path.head? = some '/')) k segs
      ∧ ((path.head? = some '/') → k = 0) := by
  unfold cleanState
  by_cases hr : path.head? = some '/'
  · obtain ⟨k', segs', h1, h2, h3⟩ := foldl_elemStep_nfState true (segsOf path.tail)
      (segsOf_slashfree _) 0 [] (by simp) (fun _ => rfl)
    refine ⟨k', segs', h1, ?_, fun _ => h2 rfl⟩
    simp only [hr, if_true, decide_True]
    exact h3
  · obtain ⟨k', segs', h1, _, h3⟩ := foldl_elemStep_nfState false (segsOf path)
      (segsOf_slashfree _) 0 [] (by simp) (by simp)
    refine ⟨k', segs', h1, ?_, fun h => absurd h hr⟩
    simp only [hr, if_false, decide_False]
    exact h3

/-! ## Rooted clean paths -/

theorem joinSegs_snoc (l : List Str) (n : Str) :
    joinSegs (l ++ [n]) = if l = [] then n else joinSegs l ++ '/' :: n := by
  induction l with
  | nil => rfl
  | cons s t ih =>
    cases t with
    | nil => rfl
    | cons a b =>
      have h1 : (s :: a :: b) ++ [n] = s :: ((a :: b) ++ [n]) := rfl
      have h2 : (a :: b) ++ [n] ≠ [] := by simp
      rw [h1, joinSegs_cons _ _ h2, ih]
      simp [joinSegs_cons]

theorem joinSegs_eq_nil (l : List Str) (hl : ∀ s ∈ l, s ≠ []) : joinSegs l = [] ↔ l = [] := by
  cases l with
  | nil => simp [joinSegs]
  | cons s t =>
    cases t with
    | nil =>
      have := hl s (List.mem_cons_self _ _)
      simp [joinSegs, this]
    | cons a b => simp [joinSegs]

theorem absPath_snoc (l : List Str) (n : Str) :
    absPath (l ++ [n]) = if l = [] then '/' :: n else absPath l ++ '/' :: n := by
  unfold absPath
  rw [joinSegs_snoc]
  split_ifs <;> simp

theorem nfState_rooted_reverse (k : Nat) (segs : List Str) (hl : ∀ s ∈ segs, s ≠ []) :
    (nfState true k segs).1.reverse = absPath segs := by
  induction segs using List.reverseRecOn with
  | nil => rfl
  | append_singleton l n ih =>
    have hl' : ∀ s ∈ l, s ≠ [] := fun s hs => hl s (by simp [hs])
    have ih' := ih hl'
    simp only [nfState, List.foldl_append, List.foldl_cons, List.foldl_nil] at ih' ⊢
    generalize List.foldl (pushSeg true) (baseBuf true k) l = prev at ih' ⊢
    have hlen : prev.length = (absPath l).length := by
      rw [← ih', List.length_reverse]
    rw [absPath_snoc l n]
    by_cases hnil : l = []
    · subst hnil
      have hp : prev = ['/'] := by
        have := congrArg List.reverse ih'
        simpa [absPath, joinSegs] using this
      subst hp
      simp [pushSeg]
    · have hne : joinSegs l ≠ [] := fun h => hnil ((joinSegs_eq_nil l hl').mp h)
      have hlen1 : prev.length ≠ 1 := by
        rw [hlen]
        simp [absPath]
        exact hne
      simp [pushSeg, hlen1, hnil, ih']

theorem properName_ne_nil {l : List Str} (hl : ∀ s ∈ l, ProperName s) : ∀ s ∈ l, s ≠ [] :=
  fun s hs => (hl s hs).1

theorem properName_slashfree {l : List Str} (hl : ∀ s ∈ l, ProperName s) : ∀ s ∈ l, '/' ∉ s :=
  fun s hs => (hl s hs).2.1

theorem nfState_rooted_length_pos (k : Nat) (segs : List Str) :
    (nfState true k segs).1.length ≠ 0 := by
  have := length_baseBuf_le true k segs
  simp [baseBuf] at this
  omega

/-- A rooted path is cleaned to a rooted path of proper elements. -/
theorem Clean_rooted (path : Str) (hr : path.head? = some '/') :
    ∃ segs, (∀ s ∈ segs, ProperName s) ∧ cleanState path = nfState true 0 segs
      ∧ Clean path = absPath segs := by
  obtain ⟨k, segs, h1, h2, h3⟩ := cleanState_nf path
  have hk : k = 0 := h3 hr
  subst hk
  simp only [hr, decide_True] at h2
  refine ⟨segs, h1, h2, ?_⟩
  have hne : path ≠ [] := by
    intro h; rw [h] at hr; simp at hr
  rw [Clean_eq path hne, h2, if_neg (nfState_rooted_length_pos 0 segs),
    nfState_rooted_reverse 0 segs (properName_ne_nil h1)]

theorem CleanAbs_form (p : Str) (h : CleanAbs p) :
    ∃ segs, (∀ s ∈ segs, ProperName s) ∧ p = absPath segs ∧ cleanState p = nfState true 0 segs := by
  obtain ⟨segs, h1, h2, h3⟩ := Clean_rooted p h.1
  exact ⟨segs, h1, by rw [← h3, h.2], h2⟩

/-- Elements that are empty or proper names only add the proper names. -/
theorem foldl_elemStep_loose (rooted : Bool) (l : List Str)
    (hl : ∀ s ∈ l, s = [] ∨ ProperName s) (k : Nat) (segs : List Str) :
    l.foldl (fun st seg => elemStep rooted seg st) (nfState rooted k segs)
      = nfState rooted k (segs ++ l.filter (fun s => decide (s ≠ []))) := by
  induction l generalizing segs with
  | nil => simp
  | cons s t ih =>
    rw [List.foldl_cons]
    rcases hl s (List.mem_cons_self _ _) with h | h
    · subst h
      rw [elemStep_nil, ih (fun x hx => hl x (List.mem_cons_of_mem _ hx))]
      simp
    · have hstep : elemStep rooted s (nfState rooted k segs) = nfState rooted k (segs ++ [s]) := by
        rw [elemStep_proper rooted s _ h]
        simp [nfState, List.foldl_append]
      rw [hstep, ih (fun x hx => hl x (List.mem_cons_of_mem _ hx))]
      simp [List.filter_cons, h.1]

/-- The state after a non-empty path, a slash and a second path. -/
theorem cleanState_append (a y : Str) (ha : a ≠ []) :
    cleanState (a ++ '/' :: y)
      = (segsOf y).foldl (fun st seg => elemStep (decide (a.head? = some '/')) seg st)
          (cleanState a) := by
  cases a with
  | nil => exact absurd rfl ha
  | cons c a =>
    unfold cleanState
    by_cases hc : c = '/'
    · subst hc
      simp only [List.cons_append, List.head?_cons, if_true, List.tail_cons, decide_True]
      rw [segsOf_append, List.foldl_append]
    · have hh : ¬ ((c :: a).head? = some '/') := by simpa using hc
      have hh' : ¬ ((c :: a ++ '/' :: y).head? = some '/') := by simpa using hc
      simp only [hh, hh', if_false, decide_False]
      rw [segsOf_append, List.foldl_append]

theorem joinBuf_pair (a y : Str) (ha : a ≠ []) : joinBuf [] [a, y] = a ++ '/' :: y := by
  have hlen : a.length > 0 := List.length_pos.mpr ha
  simp [joinBuf, ha, hlen]

theorem Join_pair (a y : Str) (ha : a ≠ []) : Join [a, y] = Clean (a ++ '/' :: y) := by
  have hlen : a.length > 0 := List.length_pos.mpr ha
  unfold Join
  rw [joinBuf_pair a y ha]
  have : ¬ (List.map List.length [a, y]).sum = 0 := by simp [ha]
  rw [if_neg this]

theorem Join_nil_left (y : Str) (hy : y ≠ []) : Join [[], y] = Clean y := by
  have hlen : y.length > 0 := List.length_pos.mpr hy
  unfold Join
  have : ¬ (List.map List.length [[], y]).sum = 0 := by simp [hy]
  rw [if_neg this]
  simp [joinBuf, hy]

theorem filter_ne_nil_of_proper (l : List Str) (hl : ∀ s ∈ l, ProperName s) :
    l.filter (fun s => decide (s ≠ [])) = l := by
  apply List.filter_eq_self.mpr
  intro s hs
  simpa using (hl s hs).1

theorem cleanState_absPath (segs : List Str) (hl : ∀ s ∈ segs, ProperName s) :
    cleanState (absPath segs) = nfState true 0 segs := by
  have hinit : (['/'], 1) = nfState true 0 [] := rfl
  unfold cleanState absPath
  simp only [List.head?_cons, if_true, List.tail_cons]
  rw [hinit]
  by_cases hnil : segs = []
  · subst hnil
    simp [joinSegs, segsOf, elemStep_nil]
  · rw [segsOf_joinSegs segs hnil (properName_slashfree hl),
      foldl_elemStep_loose true segs (fun s hs => Or.inr (hl s hs)),
      filter_ne_nil_of_proper segs hl]
    simp

theorem Clean_of_cleanState_rooted (p : Str) (segs : List Str) (hne : p ≠ [])
    (hl : ∀ s ∈ segs, ProperName s) (hst : cleanState p = nfState true 0 segs) :
    Clean p = absPath segs := by
  rw [Clean_eq p hne, hst, if_neg (nfState_rooted_length_pos 0 segs),
    nfState_rooted_reverse 0 segs (properName_ne_nil hl)]

theorem CleanAbs_absPath (segs : List Str) (hl : ∀ s ∈ segs, ProperName s) :
    CleanAbs (absPath segs) :=
  ⟨rfl, Clean_of_cleanState_rooted _ segs (by simp [absPath]) hl (cleanState_absPath segs hl)⟩

theorem namesIn_proper (y : Str) (hy : Loose y) : ∀ s ∈ namesIn y, ProperName s := by
  intro s hs
  have hmem := List.mem_filter.mp hs
  rcases hy s hmem.1 with h | h
  · have := hmem.2
    simp [h] at this
  · exact h

/-- Joining a clean absolute path with a loosely written relative path appends
the names of the latter. -/
theorem Join_absPath (asegs : List Str) (y : Str) (ha : ∀ s ∈ asegs, ProperName s)
    (hy : Loose y) :
    Join [absPath asegs, y] = absPath (asegs ++ namesIn y)
      ∧ CleanAbs (absPath (asegs ++ namesIn y)) := by
  have hall : ∀ s ∈ asegs ++ namesIn y, ProperName s := by
    intro s hs
    rcases List.mem_append.mp hs with h | h
    · exact ha s h
    · exact namesIn_proper y hy s h
  refine ⟨?_, CleanAbs_absPath _ hall⟩
  have hne : absPath asegs ≠ [] := by simp [absPath]
  rw [Join_pair _ _ hne]
  apply Clean_of_cleanState_rooted _ _ (by simp [absPath]) hall
  rw [cleanState_append _ _ hne, cleanState_absPath asegs ha]
  have hhead : decide ((absPath asegs).head? = some '/') = true := by simp [absPath]
  rw [hhead, foldl_elemStep_loose true _ hy]
  rfl

/-! ## Prefixes and splits of rooted clean paths -/

theorem HasPrefix_append (a x : Str) : HasPrefix (a ++ x) a = true := by
  simp [HasPrefix]

theorem TrimPrefix_append (a x : Str) : TrimPrefix (a ++ x) a = x := by
  simp [TrimPrefix, HasPrefix_append]

theorem HasPrefix_iff (s pre : Str) : HasPrefix s pre = true ↔ pre <+: s := by
  unfold HasPrefix
  constructor
  · intro h
    simp only [Bool.and_eq_true, decide_eq_true_eq] at h
    have h3 := List.take_append_drop pre.length s
    rw [h.2] at h3
    exact ⟨s.drop pre.length, h3⟩
  · rintro ⟨t, ht⟩
    subst ht
    simp

theorem lastIndexLoop_skip (pre f : Str) (c : Char) (hf : c ∉ f) :
    ∀ j, j ≤ f.length →
      lastIndexLoop (pre ++ f) c (pre.length + j) = lastIndexLoop (pre ++ f) c pre.length := by
  intro j
  induction j with
  | zero => intro _; rfl
  | succ j ih =>
    intro hj
    have hget : (pre ++ f).get? (pre.length + j) ≠ some c := by
      intro h
      rw [List.get?_eq_getElem?, List.getElem?_append_right (by omega)] at h
      exact hf (List.getElem?_mem h)
    have : pre.length + (j + 1) = (pre.length + j) + 1 := by omega
    rw [this]
    simp only [lastIndexLoop]
    rw [if_neg hget]
    exact ih (by omega)

theorem lastIndexLoop_absent (s : Str) (c : Char) (hs : c ∉ s) :
    ∀ j, j ≤ s.length → lastIndexLoop s c j = -1 := by
  intro j
  induction j with
  | zero => intro _; rfl
  | succ j ih =>
    intro hj
    have hget : s.get? j ≠ some c := by
      intro h
      rw [List.get?_eq_getElem?] at h
      exact hs (List.getElem?_mem h)
    simp only [lastIndexLoop]
    rw [if_neg hget]
    exact ih (by omega)

/-- The behaviour of `path.Split` on a directory part followed by a slash-free
leaf name. -/
theorem Split_spec (pre f : Str) (hf : '/' ∉ f) (hpre : pre = [] ∨ pre.getLast? = some '/') :
    Split (pre ++ f) = (pre, f) := by
  have hidx : LastIndexByte (pre ++ f) '/' + 1 = (pre.length : Int) := by
    unfold LastIndexByte
    rw [List.length_append, lastIndexLoop_skip pre f '/' hf f.length (Nat.le_refl _)]
    rcases hpre with h | h
    · subst h
      simp [lastIndexLoop]
    · rcases List.eq_nil_or_concat pre with hnil | ⟨pre', c, hc⟩
      · subst hnil; simp at h
      · rw [List.concat_eq_append] at hc
        subst hc
        have hcs : c = '/' := by simpa using h
        subst hcs
        have hlen : (pre' ++ ['/']).length = pre'.length + 1 := by simp
        rw [hlen]
        simp only [lastIndexLoop]
        have hget : (pre' ++ ['/'] ++ f).get? pre'.length = some '/' := by
          rw [List.get?_eq_getElem?, List.append_assoc, List.getElem?_append_right (Nat.le_refl _)]
          simp
        rw [if_pos hget]
        push_cast
        rfl
  unfold Split
  simp only [hidx, Int.toNat_ofNat]
  simp

theorem joinSegs_append (a b : List Str) (ha : a ≠ []) (hb : b ≠ []) :
    joinSegs (a ++ b) = joinSegs a ++ '/' :: joinSegs b := by
  induction a with
  | nil => exact absurd rfl ha
  | cons s t ih =>
    cases t with
    | nil =>
      simp only [List.singleton_append, joinSegs]
      exact joinSegs_cons s b hb
    | cons x y =>
      have h1 : (s :: x :: y) ++ b = s :: ((x :: y) ++ b) := rfl
      have h2 : (x :: y) ++ b ≠ [] := by simp
      have h3 : joinSegs (s :: x :: y) = s ++ '/' :: joinSegs (x :: y) := rfl
      rw [h1, joinSegs_cons s _ h2, ih (by simp), h3]
      simp

theorem absPath_append (a b : List Str) : absPath (a ++ b) = absPath a ++ relTail a b := by
  unfold absPath relTail
  by_cases hb : b = []
  · subst hb; simp
  · by_cases ha : a = []
    · subst ha; simp [hb, joinSegs]
    · rw [joinSegs_append a b ha hb]
      simp [ha, hb]

theorem segsOf_nil : segsOf [] = [[]] := rfl

theorem relTail_loose (a b : List Str) (hb : ∀ s ∈ b, ProperName s) :
    Loose (relTail a b) ∧ namesIn (relTail a b) = b := by
  unfold Loose namesIn relTail
  by_cases hnil : b = []
  · subst hnil
    simp [segsOf_nil]
  · rw [if_neg hnil]
    by_cases ha : a = []
    · rw [if_pos ha, segsOf_joinSegs b hnil (properName_slashfree hb)]
      exact ⟨fun s hs => Or.inr (hb s hs), filter_ne_nil_of_proper b hb⟩
    · rw [if_neg ha, segsOf_cons_slash, segsOf_joinSegs b hnil (properName_slashfree hb)]
      refine ⟨?_, ?_⟩
      · intro s hs
        rcases List.mem_cons.mp hs with h | h
        · exact Or.inl h
        · exact Or.inr (hb s h)
      · rw [List.filter_cons]
        simp only [ne_eq, not_true_eq_false, decide_False]
        exact filter_ne_nil_of_proper b hb

/-- Namespace translation of a rooted clean path: the elements below the one
root are moved below the other. -/
theorem translate_absPath (asegs csegs rsegs : List Str)
    (hc : ∀ s ∈ csegs, ProperName s) (hr : ∀ s ∈ rsegs, ProperName s) :
    Join [absPath csegs, TrimPrefix (absPath (asegs ++ rsegs)) (absPath asegs)]
      = absPath (csegs ++ rsegs) := by
  rw [absPath_append, TrimPrefix_append]
  obtain ⟨h1, h2⟩ := relTail_loose asegs rsegs hr
  rw [(Join_absPath csegs _ hc h1).1, h2]

theorem relTail_snoc (a names : List Str) (f : Str) :
    relTail a (names ++ [f]) = dirPart a names ++ f := by
  unfold relTail dirPart
  rw [if_neg (by simp), joinSegs_snoc]
  by_cases ha : a = [] <;> by_cases hn : names = [] <;> simp [ha, hn]

theorem dirPart_boundary (a names : List Str) :
    dirPart a names = [] ∨ (dirPart a names).getLast? = some '/' := by
  unfold dirPart
  by_cases ha : a = []
  · by_cases hn : names = []
    · simp [ha, hn]
    · right
      simp only [ha, hn, if_true, if_false, List.nil_append]
      exact List.getLast?_concat _
  · by_cases hn : names = []
    · simp [ha, hn]
    · right
      simp only [ha, hn, if_false]
      rw [← List.append_assoc]
      exact List.getLast?_concat _

theorem dirPart_loose (a names : List Str) (hn : ∀ s ∈ names, ProperName s) :
    Loose (dirPart a names) ∧ namesIn (dirPart a names) = names := by
  have key : ∀ (y : Str) (l : List Str), segsOf y = l →
      (∀ s ∈ l, s = [] ∨ ProperName s) → l.filter (fun s => decide (s ≠ [])) = names →
      Loose y ∧ namesIn y = names := by
    intro y l h1 h2 h3
    unfold Loose namesIn
    rw [h1]
    exact ⟨h2, h3⟩
  have hfl := filter_ne_nil_of_proper names hn
  have hpl : ∀ s ∈ names, s = [] ∨ ProperName s := fun s hs => Or.inr (hn s hs)
  by_cases ha : a = []
  · by_cases hnil : names = []
    · apply key _ [[]]
      · simp [dirPart, ha, hnil, segsOf_nil]
      · simp
      · simp [hnil]
    · apply key _ (names ++ [[]])
      · simp only [dirPart, ha, hnil, if_true, if_false, List.nil_append]
        rw [segsOf_append, segsOf_joinSegs names hnil (properName_slashfree hn), segsOf_nil]
      · intro s hs
        rcases List.mem_append.mp hs with h | h
        · exact hpl s h
        · left; simpa using h
      · rw [List.filter_append, hfl]; simp
  · by_cases hnil : names = []
    · apply key _ [[], []]
      · simp [dirPart, ha, hnil, segsOf_cons_slash, segsOf_nil]
      · simp
      · simp [hnil]
    · apply key _ ([] :: (names ++ [[]]))
      · simp only [dirPart, ha, hnil, if_false, List.singleton_append]
        rw [segsOf_cons_slash, segsOf_append, segsOf_joinSegs names hnil (properName_slashfree hn),
          segsOf_nil]
      · intro s hs
        rcases List.mem_cons.mp hs with h | h
        · exact Or.inl h
        · rcases List.mem_append.mp h with h | h
          · exact hpl s h
          · left; simpa using h
      · rw [List.filter_cons]
        simp only [ne_eq, not_true_eq_false, decide_False]
        rw [List.filter_append, hfl]; simp

/-! ## Unrooted normal forms and idempotence of `path.Clean` -/

theorem dotsBuf_reverse (k : Nat) :
    (dotsBuf k).reverse = joinSegs (List.replicate k dotdotSeg) := by
  induction k with
  | zero => rfl
  | succ k ih =>
    rw [List.replicate_succ', joinSegs_snoc]
    by_cases hk : k = 0
    · subst hk
      simp [dotsBuf, pushDots, dotdotSeg]
    · have hne : List.replicate k dotdotSeg ≠ [] := by
        intro h
        have := congrArg List.length h
        simp at this
        exact hk this
      have hlen : (dotsBuf k).length > 0 := by
        have h1 : (dotsBuf k).reverse ≠ [] := by
          rw [ih]
          intro h
          exact hne ((joinSegs_eq_nil _ (by
            intro s hs
            rw [List.eq_of_mem_replicate hs]
            simp [dotdotSeg])).mp h)
        have h2 : dotsBuf k ≠ [] := by simpa using h1
        exact List.length_pos.mpr h2
      simp only [dotsBuf, pushDots, if_pos hlen, if_neg hne]
      simp [ih, dotdotSeg]

theorem nfState_unrooted_reverse (k : Nat) (segs : List Str) (hl : ∀ s ∈ segs, s ≠ []) :
    (nfState false k segs).1.reverse = joinSegs (List.replicate k dotdotSeg ++ segs) := by
  induction segs using List.reverseRecOn with
  | nil => simp [nfState, baseBuf, dotsBuf_reverse]
  | append_singleton l n ih =>
    have hl' : ∀ s ∈ l, s ≠ [] := fun s hs => hl s (by simp [hs])
    have ih' := ih hl'
    simp only [nfState, List.foldl_append, List.foldl_cons, List.foldl_nil] at ih' ⊢
    generalize List.foldl (pushSeg false) (baseBuf false k) l = prev at ih' ⊢
    rw [← List.append_assoc, joinSegs_snoc]
    have hne : ∀ s ∈ List.replicate k dotdotSeg ++ l, s ≠ [] := by
      intro s hs
      rcases List.mem_append.mp hs with h | h
      · rw [List.eq_of_mem_replicate h]; simp [dotdotSeg]
      · exact hl' s h
    by_cases hnil : List.replicate k dotdotSeg ++ l = []
    · rw [hnil] at ih'
      have hp : prev = [] := by simpa [joinSegs] using ih'
      subst hp
      simp [pushSeg, hnil]
    · have hj : joinSegs (List.replicate k dotdotSeg ++ l) ≠ [] :=
        fun h => hnil ((joinSegs_eq_nil _ hne).mp h)
      have hp : prev.length ≠ 0 := by
        intro h
        have : prev = [] := List.eq_nil_of_length_eq_zero h
        rw [this] at ih'
        exact hj ih'.symm
      simp [pushSeg, hp, hnil, ih']

theorem foldl_elemStep_dots (k j : Nat) :
    (List.replicate k dotdotSeg).foldl (fun st seg => elemStep false seg st) (nfState false j [])
      = nfState false (j + k) [] := by
  induction k generalizing j with
  | zero => rfl
  | succ k ih =>
    rw [List.replicate_succ, List.foldl_cons]
    have h := (elemStep_nfState false dotdotSeg j [] (by simp [dotdotSeg]) (by simp) (by simp)).1
    have hs : absStep false dotdotSeg (j, []) = (j + 1, []) := by
      simp [absStep, dotdotSeg]
    rw [hs] at h
    rw [h, ih]
    congr 1
    omega

theorem head_joinSegs_ne_slash (l : List Str) (hl : ∀ s ∈ l, s ≠ [] ∧ '/' ∉ s) :
    (joinSegs l).head? ≠ some '/' := by
  cases l with
  | nil => simp [joinSegs]
  | cons s t =>
    obtain ⟨h1, h2⟩ := hl s (List.mem_cons_self _ _)
    cases s with
    | nil => exact absurd rfl h1
    | cons c s' =>
      have hc : c ≠ '/' := fun h => h2 (by rw [h]; exact List.mem_cons_self _ _)
      cases t with
      | nil => simpa [joinSegs] using hc
      | cons a b => simpa [joinSegs] using hc

theorem cleanState_relPath (k : Nat) (segs : List Str) (hl : ∀ s ∈ segs, ProperName s)
    (hne : List.replicate k dotdotSeg ++ segs ≠ []) :
    cleanState (joinSegs (List.replicate k dotdotSeg ++ segs)) = nfState false k segs := by
  have hall : ∀ s ∈ List.replicate k dotdotSeg ++ segs, s ≠ [] ∧ '/' ∉ s := by
    intro s hs
    rcases List.mem_append.mp hs with h | h
    · rw [List.eq_of_mem_replicate h]; simp [dotdotSeg]
    · exact ⟨(hl s h).1, (hl s h).2.1⟩
  have hhead := head_joinSegs_ne_slash _ hall
  unfold cleanState
  rw [if_neg hhead, segsOf_joinSegs _ hne (fun s hs => (hall s hs).2), List.foldl_append]
  have hinit : (([] : Str), 0) = nfState false 0 [] := rfl
  rw [hinit, foldl_elemStep_dots, foldl_elemStep_loose false segs (fun s hs => Or.inr (hl s hs)),
    filter_ne_nil_of_proper segs hl]
  simp

/-- Cleaning a cleaned path changes nothing, and the loop ends with the same
buffer. -/
theorem cleanState_Clean (y : Str) (hy : y ≠ []) (hbuf : (cleanState y).1 ≠ []) :
    Clean y = (cleanState y).1.reverse
      ∧ ((Clean y).head? = some '/' ↔ y.head? = some '/')
      ∧ (cleanState (Clean y)).1 = (cleanState y).1 := by
  have hlen : ¬ (cleanState y).1.length = 0 := fun h => hbuf (List.eq_nil_of_length_eq_zero h)
  have hC : Clean y = (cleanState y).1.reverse := by rw [Clean_eq y hy, if_neg hlen]
  obtain ⟨k, segs, h1, h2, h3⟩ := cleanState_nf y
  by_cases hr : y.head? = some '/'
  · have hk : k = 0 := h3 hr
    subst hk
    simp only [hr, decide_True] at h2
    have hform : Clean y = absPath segs := by
      rw [hC, h2, nfState_rooted_reverse 0 segs (properName_ne_nil h1)]
    refine ⟨hC, ?_, ?_⟩
    · rw [hform]; simp [absPath, hr]
    · rw [hform, cleanState_absPath segs h1, h2]
  · simp only [hr, decide_False] at h2
    have hform : Clean y = joinSegs (List.replicate k dotdotSeg ++ segs) := by
      rw [hC, h2, nfState_unrooted_reverse k segs (properName_ne_nil h1)]
    have hne : List.replicate k dotdotSeg ++ segs ≠ [] := by
      intro h
      rw [h] at hform
      rw [hC] at hform
      have : (cleanState y).1 = [] := by simpa [joinSegs] using hform
      exact hbuf this
    have hall : ∀ s ∈ List.replicate k dotdotSeg ++ segs, s ≠ [] ∧ '/' ∉ s := by
      intro s hs
      rcases List.mem_append.mp hs with h | h
      · rw [List.eq_of_mem_replicate h]; simp [dotdotSeg]
      · exact ⟨(h1 s h).1, (h1 s h).2.1⟩
    refine ⟨hC, ?_, ?_⟩
    · rw [hform]
      constructor
      · intro h; exact absurd h (head_joinSegs_ne_slash _ hall)
      · intro h; exact absurd h hr
    · rw [hform, cleanState_relPath k segs h1 hne, h2]

theorem buf_pushSeg_ne_nil (rooted : Bool) (out n : Str) (hn : n ≠ []) :
    pushSeg rooted out n ≠ [] := by
  have h := length_pushSeg rooted out n
  have h2 : 0 < n.length := List.length_pos.mpr hn
  intro h3
  have h4 : (pushSeg rooted out n).length = 0 := by rw [h3]; rfl
  omega

/-- The value of `path.Join(d, n)` for a non-empty `d` and a proper name `n`,
through the state of the loop after `d`. -/
theorem Join_name (d n : Str) (hd : d ≠ []) (hn : ProperName n) :
    Join [d, n] = (pushSeg (decide (d.head? = some '/')) (cleanState d).1 n).reverse
      ∧ (cleanState (d ++ '/' :: n)).1 = pushSeg (decide (d.head? = some '/')) (cleanState d).1 n := by
  have hst : cleanState (d ++ '/' :: n)
      = (pushSeg (decide (d.head? = some '/')) (cleanState d).1 n, (cleanState d).2) := by
    rw [cleanState_append d n hd, segsOf_slashfree_self n hn.2.1]
    simp only [List.foldl_cons, List.foldl_nil]
    exact elemStep_proper _ n _ hn
  have hne : d ++ '/' :: n ≠ [] := by simp
  have hb : (cleanState (d ++ '/' :: n)).1 ≠ [] := by
    rw [hst]; exact buf_pushSeg_ne_nil _ _ _ hn.1
  refine ⟨?_, by rw [hst]⟩
  rw [Join_pair d n hd, (cleanState_Clean _ hne hb).1, hst]

/-! ## Iterated and variadic `path.Join` -/

theorem Clean_idem (y : Str) : Clean (Clean y) = Clean y := by
  by_cases hy : y = []
  · subst hy; decide
  · by_cases hb : (cleanState y).1 = []
    · have : Clean y = ['.'] := by
        rw [Clean_eq y hy, hb]; rfl
      rw [this]; decide
    · obtain ⟨h1, _, h3⟩ := cleanState_Clean y hy hb
      have hne : Clean y ≠ [] := by
        rw [h1]; simpa using hb
      have hb' : (cleanState (Clean y)).1 ≠ [] := by rw [h3]; exact hb
      rw [(cleanState_Clean (Clean y) hne hb').1, h3, ← h1]

theorem joinBuf_nonempty (buf : Str) (ns : List Str) (hbuf : buf ≠ []) :
    joinBuf buf ns = if ns = [] then buf else buf ++ '/' :: joinSegs ns := by
  induction ns generalizing buf with
  | nil => rfl
  | cons n t ih =>
    have hlen : buf.length > 0 := List.length_pos.mpr hbuf
    simp only [joinBuf, hlen, true_or, if_true]
    rw [ih _ (by simp)]
    cases t with
    | nil => simp [joinSegs]
    | cons a b => simp [joinSegs]

theorem joinBuf_nil (ns : List Str) (hns : ∀ s ∈ ns, s ≠ []) : joinBuf [] ns = joinSegs ns := by
  cases ns with
  | nil => rfl
  | cons n t =>
    have hn : n ≠ [] := hns n (List.mem_cons_self _ _)
    simp only [joinBuf, List.length_nil, gt_iff_lt, Nat.lt_irrefl, false_or, hn, ne_eq,
      not_false_eq_true, if_true, if_false, List.nil_append]
    rw [joinBuf_nonempty n t hn]
    cases t with
    | nil => simp [joinSegs]
    | cons a b => simp [joinSegs]

theorem joinArg_eq (root : Str) (ns : List Str) (hns : ∀ s ∈ ns, s ≠ []) :
    joinArg root ns = if root = [] then joinSegs ns
      else if ns = [] then root else root ++ '/' :: joinSegs ns := by
  unfold joinArg
  by_cases hr : root = []
  · subst hr
    simp only [joinBuf, List.length_nil, gt_iff_lt, Nat.lt_irrefl, ne_eq, not_true_eq_false,
      or_self, if_false, if_true]
    exact joinBuf_nil ns hns
  · have hlen : root.length > 0 := List.length_pos.mpr hr
    simp only [joinBuf, List.length_nil, gt_iff_lt, Nat.lt_irrefl, false_or, hr, ne_eq,
      not_false_eq_true, if_true, if_false, List.nil_append]
    exact joinBuf_nonempty root ns hr

theorem joinArg_snoc (root : Str) (l : List Str) (n : Str) (hl : ∀ s ∈ l, s ≠ []) (hn : n ≠ [])
    (hne : root ≠ [] ∨ l ≠ []) :
    joinArg root (l ++ [n]) = joinArg root l ++ '/' :: n := by
  have hall : ∀ s ∈ l ++ [n], s ≠ [] := by
    intro s hs
    rcases List.mem_append.mp hs with h | h
    · exact hl s h
    · simp at h; rw [h]; exact hn
  rw [joinArg_eq root _ hall, joinArg_eq root l hl, joinSegs_snoc]
  by_cases hr : root = []
  · have hl' : l ≠ [] := by
      rcases hne with h | h
      · exact absurd hr h
      · exact h
    simp [hr, hl']
  · by_cases hl' : l = []
    · simp [hr, hl']
    · simp [hr, hl']

theorem Join_eq_Clean_joinArg (root : Str) (ns : List Str) (hns : ∀ s ∈ ns, s ≠ [])
    (hne : ns ≠ []) : Join (root :: ns) = Clean (joinArg root ns) := by
  unfold Join joinArg
  have : ¬ (List.map List.length (root :: ns)).sum = 0 := by
    cases ns with
    | nil => exact absurd rfl hne
    | cons n t =>
      have hn := hns n (List.mem_cons_self _ _)
      have : 0 < n.length := List.length_pos.mpr hn
      simp
      intro _ h
      exact absurd h hn
  rw [if_neg this]

theorem cleanState_name (n : Str) (hn : ProperName n) :
    (cleanState n).1 = pushSeg false [] n := by
  have hhead : ¬ (n.head? = some '/') := by
    intro h
    cases n with
    | nil => simp at h
    | cons c s =>
      simp at h
      exact hn.2.1 (by rw [h]; exact List.mem_cons_self _ _)
  unfold cleanState
  rw [if_neg hhead, segsOf_slashfree_self n hn.2.1]
  simp only [List.foldl_cons, List.foldl_nil]
  rw [elemStep_proper false n _ hn]

theorem joinArg_buffer (root : Str) (ns : List Str) (hns : ∀ s ∈ ns, ProperName s)
    (hne : ns ≠ []) :
    joinArg root ns ≠ [] ∧ (cleanState (joinArg root ns)).1 ≠ [] := by
  rcases List.eq_nil_or_concat ns with hnil | ⟨l, n, hln⟩
  · exact absurd hnil hne
  · rw [List.concat_eq_append] at hln
    subst hln
    have hl : ∀ s ∈ l, s ≠ [] := fun s hs => (hns s (by simp [hs])).1
    have hn : ProperName n := hns n (by simp)
    by_cases h0 : root ≠ [] ∨ l ≠ []
    · rw [joinArg_snoc root l n hl hn.1 h0]
      have hd : joinArg root l ≠ [] := by
        rw [joinArg_eq root l hl]
        by_cases hr : root = []
        · have hl' : l ≠ [] := by
            rcases h0 with h | h
            · exact absurd hr h
            · exact h
          simp only [hr, if_true]
          exact fun h => hl' ((joinSegs_eq_nil l hl).mp h)
        · by_cases hl' : l = [] <;> simp [hr, hl']
      refine ⟨by simp, ?_⟩
      rw [(Join_name _ n hd hn).2]
      exact buf_pushSeg_ne_nil _ _ _ hn.1
    · have hr : root = [] := by
        by_contra h; exact h0 (Or.inl h)
      have hl' : l = [] := by
        by_contra h; exact h0 (Or.inr h)
      subst hr; subst hl'
      have : joinArg [] ([] ++ [n]) = n := by
        rw [joinArg_eq [] _ (by simpa using hn.1)]
        simp [joinSegs]
      rw [this, cleanState_name n hn]
      exact ⟨hn.1, buf_pushSeg_ne_nil _ _ _ hn.1⟩

/-- Joining names one at a time, as `lookupFiles` does on its way down, gives the
same path as one call of `path.Join` with all of them. -/
theorem foldl_Join_eq_Join (root : Str) (ns : List Str) (hns : ∀ s ∈ ns, ProperName s)
    (hne : ns ≠ []) :
    ns.foldl (fun d n => Join [d, n]) root = Join (root :: ns) := by
  induction ns using List.reverseRecOn with
  | nil => exact absurd rfl hne
  | append_singleton l n ih =>
    have hl : ∀ s ∈ l, ProperName s := fun s hs => hns s (by simp [hs])
    have hn : ProperName n := hns n (by simp)
    rw [List.foldl_append]
    simp only [List.foldl_cons, List.foldl_nil]
    by_cases hnil : l = []
    · subst hnil; rfl
    · rw [ih hl hnil, Join_eq_Clean_joinArg root l (properName_ne_nil hl) hnil]
      obtain ⟨hx, hb⟩ := joinArg_buffer root l hl hnil
      obtain ⟨h1, h2, h3⟩ := cleanState_Clean _ hx hb
      have hcne : Clean (joinArg root l) ≠ [] := by
        rw [h1]; simpa using hb
      have hdec : decide ((Clean (joinArg root l)).head? = some '/')
          = decide ((joinArg root l).head? = some '/') := by
        simp only [h2]
      rw [(Join_name _ n hcne hn).1, h3, hdec, ← (Join_name _ n hx hn).1, Join_pair _ _ hx,
        Join_eq_Clean_joinArg root _ (properName_ne_nil hns) (by simp),
        joinArg_snoc root l n (properName_ne_nil hl) hn.1 (Or.inr hnil)]

theorem CleanRoot_ne_nil (d : Str) (h : CleanRoot d) : d ≠ [] := by
  intro h0
  rw [h0] at h
  exact absurd h.1 (by decide)

theorem CleanRoot_buffer (d : Str) (h : CleanRoot d) : (cleanState d).1 = d.reverse := by
  have hne := CleanRoot_ne_nil d h
  have h1 := h.1
  rw [Clean_eq d hne] at h1
  by_cases hl : (cleanState d).1.length = 0
  · rw [if_pos hl] at h1
    exact absurd h1.symm h.2
  · rw [if_neg hl] at h1
    have h2 := congrArg List.reverse h1
    simpa using h2

/-- Below a clean root, `path.Join(d, n)` appends the name after one slash. -/
theorem Join_CleanRoot (d n : Str) (h : CleanRoot d) (hn : ProperName n) :
    Join [d, n] = (if d = ['/'] then d else d ++ ['/']) ++ n ∧ CleanRoot (Join [d, n]) := by
  have hne := CleanRoot_ne_nil d h
  have hform : Join [d, n] = (if d = ['/'] then d else d ++ ['/']) ++ n := by
    rw [(Join_name d n hne hn).1, CleanRoot_buffer d h]
    unfold pushSeg
    by_cases hr : d.head? = some '/'
    · by_cases h1 : d = ['/']
      · subst h1; simp
      · have hlen : d.length ≠ 1 := by
          intro hl
          apply h1
          cases d with
          | nil => simp at hl
          | cons c t =>
            cases t with
            | nil => simp at hr; rw [hr]
            | cons a b => simp at hl
        simp [hr, h1, hlen]
    · have h1 : d ≠ ['/'] := by
        intro h1; rw [h1] at hr; simp at hr
      have hlen : d.length ≠ 0 := fun hl => hne (List.eq_nil_of_length_eq_zero hl)
      have hdne : ¬ d = [] := hne
      simp [hr, h1, hdne]
  refine ⟨hform, ?_, ?_⟩
  · rw [Join_pair d n hne, Clean_idem]
  · rw [hform]
    intro h2
    have h3 := congrArg List.length h2
    have h4 : 0 < n.length := List.length_pos.mpr hn.1
    have h5 : 0 < d.length := List.length_pos.mpr hne
    split_ifs at h3 <;> simp at h3 <;> omega

theorem Join_CleanRoot_extends (d n : Str) (h : CleanRoot d) (hn : ProperName n) :
    d <+: Join [d, n] := by
  rw [(Join_CleanRoot d n h hn).1]
  by_cases h1 : d = ['/']
  · rw [if_pos h1]; exact List.prefix_append _ _
  · rw [if_neg h1, List.append_assoc]; exact List.prefix_append _ _

/-! ## Trees served by the listing call -/

theorem GoodTree.toListed {FSList : Lister} {dir : Str} (h : GoodTree FSList dir) :
    ListedTree FSList dir := by
  induction h with
  | listed dir content h1 _ _ ih => exact ListedTree.listed dir content h1 ih

theorem ListedTree.toFinite {FSList : Lister} {dir : Str} (h : ListedTree FSList dir) :
    FiniteTree FSList dir := by
  induction h with
  | listed dir content h1 _ ih => exact FiniteTree.listed dir content h1 ih

/-! ## Maps -/

theorem keys_nil : keys [] = [] := rfl

theorem mem_keys_setKey (m : FilesMap) (k : Str) (v : FSListContentItem) (p : Str) :
    p ∈ keys (setKey m k v) ↔ p = k ∨ p ∈ keys m := by
  induction m with
  | nil => simp [setKey, keys]
  | cons e m ih =>
    by_cases he : e.1 = k
    · simp only [setKey, if_pos he, keys_cons, List.mem_cons]
      rw [he]; tauto
    · simp only [setKey, if_neg he, keys_cons, List.mem_cons, ih]
      tauto

theorem mem_setKey (m : FilesMap) (k : Str) (v : FSListContentItem) (e : Str × FSListContentItem)
    (h : e ∈ setKey m k v) : e = (k, v) ∨ e ∈ m := by
  induction m with
  | nil => left; simpa [setKey] using h
  | cons a m ih =>
    by_cases he : a.1 = k
    · simp only [setKey, if_pos he, List.mem_cons] at h
      rcases h with h | h
      · exact Or.inl h
      · exact Or.inr (List.mem_cons_of_mem _ h)
    · simp only [setKey, if_neg he, List.mem_cons] at h
      rcases h with h | h
      · right; rw [h]; exact List.mem_cons_self _ _
      · rcases ih h with h' | h'
        · exact Or.inl h'
        · exact Or.inr (List.mem_cons_of_mem _ h')

theorem nodup_keys_setKey (m : FilesMap) (k : Str) (v : FSListContentItem)
    (h : (keys m).Nodup) : (keys (setKey m k v)).Nodup := by
  induction m with
  | nil => exact List.nodup_singleton k
  | cons e m ih =>
    rw [keys_cons] at h
    have hnd := List.nodup_cons.mp h
    by_cases he : e.1 = k
    · simp only [setKey, if_pos he, keys_cons]
      rw [← he]; exact h
    · simp only [setKey, if_neg he, keys_cons]
      refine List.nodup_cons.mpr ⟨?_, ih hnd.2⟩
      intro hmem
      rcases (mem_keys_setKey m k v e.1).mp hmem with h1 | h1
      · exact he h1
      · exact hnd.1 h1

theorem mem_keys_mergeInto (m sub : FilesMap) (p : Str) :
    p ∈ keys (mergeInto m sub) ↔ p ∈ keys m ∨ p ∈ keys sub := by
  unfold mergeInto
  induction sub generalizing m with
  | nil =>
    rw [keys_nil]
    simp
  | cons e sub ih =>
    rw [List.foldl_cons, ih, mem_keys_setKey, keys_cons, List.mem_cons]
    tauto

theorem mem_mergeInto (m sub : FilesMap) (e : Str × FSListContentItem)
    (h : e ∈ mergeInto m sub) : e ∈ m ∨ e ∈ sub := by
  unfold mergeInto at h
  induction sub generalizing m with
  | nil => exact Or.inl h
  | cons a sub ih =>
    rw [List.foldl_cons] at h
    rcases ih _ h with h1 | h1
    · rcases mem_setKey m a.1 a.2 e h1 with h2 | h2
      · right; rw [h2]; exact List.mem_cons_self _ _
      · exact Or.inl h2
    · exact Or.inr (List.mem_cons_of_mem _ h1)

theorem nodup_keys_mergeInto (m sub : FilesMap) (h : (keys m).Nodup) :
    (keys (mergeInto m sub)).Nodup := by
  unfold mergeInto
  induction sub generalizing m with
  | nil => exact h
  | cons e sub ih =>
    rw [List.foldl_cons]
    exact ih _ (nodup_keys_setKey m e.1 e.2 h)

/-! ## `lookupFiles`: termination and result -/

theorem lookupLoop_file (lookup : Str → Option LookupResult) (dir : Str)
    (item : FSListContentItem) (content : List FSListContentItem) (m : FilesMap)
    (calls : List Str) (hd : item.IsDir = false) :
    lookupLoop lookup dir (item :: content) m calls
      = lookupLoop lookup dir content (setKey m (Join [dir, item.Name]) item) calls := by
  simp [lookupLoop, hd]

theorem lookupLoop_dir_none (lookup : Str → Option LookupResult) (dir : Str)
    (item : FSListContentItem) (content : List FSListContentItem) (m : FilesMap)
    (calls : List Str) (hd : item.IsDir = true) (hs : lookup (Join [dir, item.Name]) = none) :
    lookupLoop lookup dir (item :: content) m calls = none := by
  simp [lookupLoop, hd, hs]

theorem lookupLoop_dir_err (lookup : Str → Option LookupResult) (dir : Str)
    (item : FSListContentItem) (content : List FSListContentItem) (m : FilesMap)
    (calls : List Str) (sub : LookupResult) (err : Error) (hd : item.IsDir = true)
    (hs : lookup (Join [dir, item.Name]) = some sub) (he : sub.err = some err) :
    lookupLoop lookup dir (item :: content) m calls
      = some ⟨m, some err, calls ++ sub.calls⟩ := by
  simp [lookupLoop, hd, hs, he]

theorem lookupLoop_dir_ok (lookup : Str → Option LookupResult) (dir : Str)
    (item : FSListContentItem) (content : List FSListContentItem) (m : FilesMap)
    (calls : List Str) (sub : LookupResult) (hd : item.IsDir = true)
    (hs : lookup (Join [dir, item.Name]) = some sub) (he : sub.err = none) :
    lookupLoop lookup dir (item :: content) m calls
      = lookupLoop lookup dir content (mergeInto m sub.filesMap) (calls ++ sub.calls) := by
  simp [lookupLoop, hd, hs, he]

theorem lookupFiles_error (FSList : Lister) (fuel : Nat) (dir : Str) (err : Error)
    (h : FSList dir = .error err) :
    lookupFiles FSList (fuel + 1) dir = some ⟨[], some err, [dir]⟩ := by
  rw [lookupFiles, h]

theorem lookupFiles_ok (FSList : Lister) (fuel : Nat) (dir : Str)
    (content : List FSListContentItem) (h : FSList dir = .ok content) :
    lookupFiles FSList (fuel + 1) dir
      = lookupLoop (lookupFiles FSList fuel) dir content [] [dir] := by
  rw [lookupFiles, h]

theorem lookupLoop_mono (f g : Str → Option LookupResult)
    (hfg : ∀ d r, f d = some r → g d = some r) (dir : Str) (content : List FSListContentItem) :
    ∀ (m : FilesMap) (calls : List Str) (r : LookupResult),
      lookupLoop f dir content m calls = some r → lookupLoop g dir content m calls = some r := by
  induction content with
  | nil => intro m calls r h; exact h
  | cons item content ih =>
    intro m calls r h
    by_cases hd : item.IsDir = true
    · cases hf : f (Join [dir, item.Name]) with
      | none => rw [lookupLoop_dir_none f dir item content m calls hd hf] at h; simp at h
      | some sub =>
        cases he : sub.err with
        | some err =>
          rw [lookupLoop_dir_err f dir item content m calls sub err hd hf he] at h
          rw [lookupLoop_dir_err g dir item content m calls sub err hd (hfg _ _ hf) he]
          exact h
        | none =>
          rw [lookupLoop_dir_ok f dir item content m calls sub hd hf he] at h
          rw [lookupLoop_dir_ok g dir item content m calls sub hd (hfg _ _ hf) he]
          exact ih _ _ _ h
    · have hd' : item.IsDir = false := by simpa using hd
      rw [lookupLoop_file f dir item content m calls hd'] at h
      rw [lookupLoop_file g dir item content m calls hd']
      exact ih _ _ _ h

theorem lookupFiles_succ (FSList : Lister) (fuel : Nat) :
    ∀ (dir : Str) (r : LookupResult),
      lookupFiles FSList fuel dir = some r → lookupFiles FSList (fuel + 1) dir = some r := by
  induction fuel with
  | zero => intro dir r h; simp [lookupFiles] at h
  | succ fuel ih =>
    intro dir r h
    cases hl : FSList dir with
    | error err =>
      rw [lookupFiles_error FSList _ dir err hl] at h ⊢
      exact h
    | ok content =>
      rw [lookupFiles_ok FSList _ dir content hl] at h ⊢
      exact lookupLoop_mono _ _ ih dir content _ _ _ h

theorem lookupFiles_mono (FSList : Lister) (fuel fuel' : Nat) (hle : fuel ≤ fuel') (dir : Str)
    (r : LookupResult) (h : lookupFiles FSList fuel dir = some r) :
    lookupFiles FSList fuel' dir = some r := by
  induction hle with
  | refl => exact h
  | step _ ih => exact lookupFiles_succ FSList _ dir r ih

/-- A bound that serves every element of a list. -/
theorem exists_uniform_bound {α : Type} (l : List α) (P : α → Nat → Prop)
    (hmono : ∀ a n n', n ≤ n' → P a n → P a n')
    (h : ∀ a ∈ l, ∃ n, P a n) : ∃ n, ∀ a ∈ l, P a n := by
  induction l with
  | nil => exact ⟨0, fun a ha => absurd ha (List.not_mem_nil _)⟩
  | cons x l ih =>
    obtain ⟨n1, h1⟩ := h x (List.mem_cons_self _ _)
    obtain ⟨n2, h2⟩ := ih (fun a ha => h a (List.mem_cons_of_mem _ ha))
    refine ⟨max n1 n2, ?_⟩
    intro a ha
    rcases List.mem_cons.mp ha with h3 | h3
    · rw [h3]; exact hmono x n1 _ (Nat.le_max_left _ _) h1
    · exact hmono a n2 _ (Nat.le_max_right _ _) (h2 a h3)

theorem lookupLoop_lists (FSList : Lister) (lookup : Str → Option LookupResult) (dir : Str)
    (content : List FSListContentItem)
    (hsub : ∀ item ∈ content, item.IsDir = true →
      ∃ r, lookup (Join [dir, item.Name]) = some r ∧ ListsFiles FSList (Join [dir, item.Name]) r) :
    ∀ (m : FilesMap) (calls : List Str), (keys m).Nodup → (∀ e ∈ m, e.2.IsDir = false) →
      ∃ r, lookupLoop lookup dir content m calls = some r ∧ r.err = none
        ∧ (∀ p, p ∈ keys r.filesMap ↔ p ∈ keys m
            ∨ (∃ item ∈ content, item.IsDir = false ∧ p = Join [dir, item.Name])
            ∨ (∃ item ∈ content, item.IsDir = true ∧ FilePath FSList (Join [dir, item.Name]) p))
        ∧ (∀ e ∈ r.filesMap, e.2.IsDir = false) ∧ (keys r.filesMap).Nodup := by
  induction content with
  | nil =>
    intro m calls hnd hval
    refine ⟨⟨m, none, calls⟩, rfl, rfl, ?_, hval, hnd⟩
    intro p
    constructor
    · intro h; exact Or.inl h
    · rintro (h | ⟨it, hit, _⟩ | ⟨it, hit, _⟩)
      · exact h
      · exact absurd hit (List.not_mem_nil _)
      · exact absurd hit (List.not_mem_nil _)
  | cons item content ih =>
    intro m calls hnd hval
    have hsub' : ∀ it ∈ content, it.IsDir = true →
        ∃ r, lookup (Join [dir, it.Name]) = some r ∧ ListsFiles FSList (Join [dir, it.Name]) r :=
      fun it hit => hsub it (List.mem_cons_of_mem _ hit)
    by_cases hd : item.IsDir = true
    · obtain ⟨sub, hs1, hs2, hs3, hs4, hs5⟩ := hsub item (List.mem_cons_self _ _) hd
      have hval' : ∀ e ∈ mergeInto m sub.filesMap, e.2.IsDir = false := by
        intro e he
        rcases mem_mergeInto m sub.filesMap e he with h | h
        · exact hval e h
        · exact hs4 e h
      obtain ⟨r, hr1, hr2, hr3, hr4, hr5⟩ := ih hsub' (mergeInto m sub.filesMap)
        (calls ++ sub.calls) (nodup_keys_mergeInto m sub.filesMap hnd) hval'
      refine ⟨r, ?_, hr2, ?_, hr4, hr5⟩
      · rw [lookupLoop_dir_ok lookup dir item content m calls sub hd hs1 hs2]
        exact hr1
      · intro p
        rw [hr3, mem_keys_mergeInto, hs3]
        constructor
        · rintro ((h | h) | ⟨it, hit, h1, h2⟩ | ⟨it, hit, h1, h2⟩)
          · exact Or.inl h
          · exact Or.inr (Or.inr ⟨item, List.mem_cons_self _ _, hd, h⟩)
          · exact Or.inr (Or.inl ⟨it, List.mem_cons_of_mem _ hit, h1, h2⟩)
          · exact Or.inr (Or.inr ⟨it, List.mem_cons_of_mem _ hit, h1, h2⟩)
        · rintro (h | ⟨it, hit, h1, h2⟩ | ⟨it, hit, h1, h2⟩)
          · exact Or.inl (Or.inl h)
          · rcases List.mem_cons.mp hit with h3 | h3
            · rw [h3, hd] at h1; exact absurd h1 (by simp)
            · exact Or.inr (Or.inl ⟨it, h3, h1, h2⟩)
          · rcases List.mem_cons.mp hit with h3 | h3
            · rw [h3] at h2; exact Or.inl (Or.inr h2)
            · exact Or.inr (Or.inr ⟨it, h3, h1, h2⟩)
    · have hd' : item.IsDir = false := by simpa using hd
      have hval' : ∀ e ∈ setKey m (Join [dir, item.Name]) item, e.2.IsDir = false := by
        intro e he
        rcases mem_setKey m _ _ e he with h | h
        · rw [h]; exact hd'
        · exact hval e h
      obtain ⟨r, hr1, hr2, hr3, hr4, hr5⟩ := ih hsub' (setKey m (Join [dir, item.Name]) item)
        calls (nodup_keys_setKey m _ _ hnd) hval'
      refine ⟨r, ?_, hr2, ?_, hr4, hr5⟩
      · rw [lookupLoop_file lookup dir item content m calls hd']
        exact hr1
      · intro p
        rw [hr3, mem_keys_setKey]
        constructor
        · rintro ((h | h) | ⟨it, hit, h1, h2⟩ | ⟨it, hit, h1, h2⟩)
          · exact Or.inr (Or.inl ⟨item, List.mem_cons_self _ _, hd', h⟩)
          · exact Or.inl h
          · exact Or.inr (Or.inl ⟨it, List.mem_cons_of_mem _ hit, h1, h2⟩)
          · exact Or.inr (Or.inr ⟨it, List.mem_cons_of_mem _ hit, h1, h2⟩)
        · rintro (h | ⟨it, hit, h1, h2⟩ | ⟨it, hit, h1, h2⟩)
          · exact Or.inl (Or.inr h)
          · rcases List.mem_cons.mp hit with h3 | h3
            · rw [h3] at h2; exact Or.inl (Or.inl h2)
            · exact Or.inr (Or.inl ⟨it, h3, h1, h2⟩)
          · rcases List.mem_cons.mp hit with h3 | h3
            · rw [h3, hd'] at h1; exact absurd h1 (by simp)
            · exact Or.inr (Or.inr ⟨it, h3, h1, h2⟩)

/-- On a finite tree whose listing calls all succeed, `lookupFiles` returns
without error (for every large enough recursion bound) the map of the files of
the tree. -/
theorem lookupFiles_lists (FSList : Lister) (root : Str) (h : ListedTree FSList root) :
    ∃ N r, lookupFiles FSList N root = some r ∧ ListsFiles FSList root r := by
  induction h with
  | listed dir content hl _ ih =>
    have hb := exists_uniform_bound (content.filter (fun item => item.IsDir))
      (fun item n => ∃ r, lookupFiles FSList n (Join [dir, item.Name]) = some r
        ∧ ListsFiles FSList (Join [dir, item.Name]) r)
      (by
        rintro a n n' hle ⟨r, h1, h2⟩
        exact ⟨r, lookupFiles_mono FSList n n' hle _ r h1, h2⟩)
      (by
        intro a ha
        have ha' := List.mem_filter.mp ha
        obtain ⟨N, r, h1, h2⟩ := ih a ha'.1 ha'.2
        exact ⟨N, r, h1, h2⟩)
    obtain ⟨N, hN⟩ := hb
    have hsub : ∀ item ∈ content, item.IsDir = true →
        ∃ r, lookupFiles FSList N (Join [dir, item.Name]) = some r
          ∧ ListsFiles FSList (Join [dir, item.Name]) r :=
      fun item hi hd => hN item (List.mem_filter.mpr ⟨hi, hd⟩)
    obtain ⟨r, hr1, hr2, hr3, hr4, hr5⟩ := lookupLoop_lists FSList (lookupFiles FSList N) dir
      content hsub [] [dir] (by rw [keys_nil]; exact List.nodup_nil) (by simp)
    refine ⟨N + 1, r, ?_, hr2, ?_, hr4, hr5⟩
    · rw [lookupFiles_ok FSList N dir content hl]
      exact hr1
    · intro p
      rw [hr3]
      constructor
      · rintro (h | ⟨it, hit, h1, h2⟩ | ⟨it, hit, h1, h2⟩)
        · rw [keys_nil] at h; exact absurd h (List.not_mem_nil _)
        · rw [h2]; exact FilePath.file dir content it hl hit h1
        · exact FilePath.sub dir content it p hl hit h1 h2
      · intro hp
        cases hp with
        | file _ content' it hl' hit h1 =>
          rw [hl] at hl'
          injection hl' with hc
          subst hc
          exact Or.inr (Or.inl ⟨it, hit, h1, rfl⟩)
        | sub _ content' it _ hl' hit h1 h2 =>
          rw [hl] at hl'
          injection hl' with hc
          subst hc
          exact Or.inr (Or.inr ⟨it, hit, h1, h2⟩)

/-! ## The files of a tree, by chains of nested directory entries -/

theorem dirPath_eq_foldl (root : Str) (ds : List Str) (hds : ∀ s ∈ ds, ProperName s) :
    dirPath root ds = ds.foldl (fun d n => Join [d, n]) root := by
  unfold dirPath
  by_cases h : ds = []
  · subst h; rfl
  · rw [if_neg h, foldl_Join_eq_Join root ds hds h]

theorem dirPath_snoc (root : Str) (ds : List Str) (n : Str) (hds : ∀ s ∈ ds, ProperName s)
    (hn : ProperName n) : dirPath root (ds ++ [n]) = Join [dirPath root ds, n] := by
  have hall : ∀ s ∈ ds ++ [n], ProperName s := by
    intro s hs
    rcases List.mem_append.mp hs with h | h
    · exact hds s h
    · simp at h; rw [h]; exact hn
  rw [dirPath_eq_foldl root _ hall, dirPath_eq_foldl root ds hds, List.foldl_append]
  rfl

theorem Join_dirPath_name (root : Str) (ds : List Str) (n : Str) (hds : ∀ s ∈ ds, ProperName s)
    (hn : ProperName n) : Join [dirPath root ds, n] = Join (root :: (ds ++ [n])) := by
  rw [← dirPath_snoc root ds n hds hn]
  unfold dirPath
  rw [if_neg (by simp)]

theorem GoodTree.content {FSList : Lister} {dir : Str} (h : GoodTree FSList dir)
    {content : List FSListContentItem} (hl : FSList dir = .ok content) :
    (∀ item ∈ content, ProperName item.Name)
      ∧ (∀ item ∈ content, item.IsDir = true → GoodTree FSList (Join [dir, item.Name])) := by
  cases h with
  | listed _ content' hl' h1 h2 =>
    rw [hl] at hl'
    injection hl' with hc
    subst hc
    exact ⟨h1, h2⟩

theorem DirChain.good {FSList : Lister} {root : Str} (hg : GoodTree FSList root)
    {ds : List Str} (h : DirChain FSList root ds) :
    GoodTree FSList (dirPath root ds) ∧ ∀ s ∈ ds, ProperName s := by
  induction h with
  | root => exact ⟨hg, by simp⟩
  | down ds content item _ hl hi hd ih =>
    obtain ⟨h1, h2⟩ := ih
    obtain ⟨h3, h4⟩ := h1.content hl
    refine ⟨?_, ?_⟩
    · rw [dirPath_snoc root ds item.Name h2 (h3 item hi)]
      exact h4 item hi hd
    · intro s hs
      rcases List.mem_append.mp hs with h | h
      · exact h2 s h
      · simp at h; rw [h]; exact h3 item hi

theorem FilePath.isFileOf {FSList : Lister} {root : Str} (hg : GoodTree FSList root)
    {dir p : Str} (h : FilePath FSList dir p) :
    ∀ ds, DirChain FSList root ds → dir = dirPath root ds → IsFileOf FSList root p := by
  induction h with
  | file dir content item hl hi hd =>
    intro ds hc hdir
    subst hdir
    obtain ⟨h1, h2⟩ := hc.good hg
    obtain ⟨h3, _⟩ := h1.content hl
    exact ⟨ds, content, item, hc, hl, hi, hd, Join_dirPath_name root ds _ h2 (h3 item hi)⟩
  | sub dir content item p hl hi hd _ ih =>
    intro ds hc hdir
    subst hdir
    obtain ⟨h1, h2⟩ := hc.good hg
    obtain ⟨h3, _⟩ := h1.content hl
    exact ih (ds ++ [item.Name]) (DirChain.down ds content item hc hl hi hd)
      (dirPath_snoc root ds _ h2 (h3 item hi)).symm

theorem DirChain.lift {FSList : Lister} {root : Str} (hg : GoodTree FSList root)
    {ds : List Str} (h : DirChain FSList root ds) :
    ∀ p, FilePath FSList (dirPath root ds) p → FilePath FSList root p := by
  induction h with
  | root => intro p hp; exact hp
  | down ds content item hc hl hi hd ih =>
    intro p hp
    obtain ⟨h1, h2⟩ := hc.good hg
    obtain ⟨h3, _⟩ := h1.content hl
    rw [dirPath_snoc root ds _ h2 (h3 item hi)] at hp
    exact ih p (FilePath.sub _ content item p hl hi hd hp)

/-- Under proper names, the keys produced on the way down are the paths joined
in one call from the root. -/
theorem filePath_iff_isFileOf (FSList : Lister) (root : Str) (hg : GoodTree FSList root)
    (p : Str) : FilePath FSList root p ↔ IsFileOf FSList root p := by
  constructor
  · intro h
    exact h.isFileOf hg [] DirChain.root rfl
  · rintro ⟨ds, content, item, hc, hl, hi, hd, hp⟩
    obtain ⟨h1, h2⟩ := hc.good hg
    obtain ⟨h3, _⟩ := h1.content hl
    rw [hp, ← Join_dirPath_name root ds _ h2 (h3 item hi)]
    exact hc.lift hg _ (FilePath.file _ content item hl hi hd)

/-! ## Listed paths below a clean root -/

theorem FilePath.hasRoot {FSList : Lister} {dir p : Str} (h : FilePath FSList dir p) :
    CleanRoot dir → GoodTree FSList dir → dir <+: p := by
  induction h with
  | file dir content item hl hi hd =>
    intro hc hg
    obtain ⟨h3, _⟩ := hg.content hl
    exact Join_CleanRoot_extends dir _ hc (h3 item hi)
  | sub dir content item p hl hi hd _ ih =>
    intro hc hg
    obtain ⟨h3, h4⟩ := hg.content hl
    have h5 := ih (Join_CleanRoot dir _ hc (h3 item hi)).2 (h4 item hi hd)
    exact List.IsPrefix.trans (Join_CleanRoot_extends dir _ hc (h3 item hi)) h5

theorem segsOf_proper (n : Str) (hn : ProperName n) : Loose n ∧ namesIn n = [n] := by
  unfold Loose namesIn
  rw [segsOf_slashfree_self n hn.2.1]
  refine ⟨?_, ?_⟩
  · intro s hs
    simp at hs
    rw [hs]; exact Or.inr hn
  · simp [hn.1]

theorem Join_absPath_name (dsegs : List Str) (n : Str) (hd : ∀ s ∈ dsegs, ProperName s)
    (hn : ProperName n) : Join [absPath dsegs, n] = absPath (dsegs ++ [n]) := by
  obtain ⟨h1, h2⟩ := segsOf_proper n hn
  rw [(Join_absPath dsegs n hd h1).1, h2]

/-- Below a clean absolute root, every listed key is the root followed by proper
names. -/
theorem FilePath.absForm {FSList : Lister} {dir p : Str} (h : FilePath FSList dir p) :
    ∀ dsegs, dir = absPath dsegs → (∀ s ∈ dsegs, ProperName s) → GoodTree FSList dir →
      ∃ names f, (∀ s ∈ names, ProperName s) ∧ ProperName f
        ∧ p = absPath (dsegs ++ (names ++ [f])) := by
  induction h with
  | file dir content item hl hi hd =>
    intro dsegs hdir hds hg
    subst hdir
    obtain ⟨h3, _⟩ := hg.content hl
    refine ⟨[], item.Name, by simp, h3 item hi, ?_⟩
    rw [Join_absPath_name dsegs _ hds (h3 item hi)]
    rfl
  | sub dir content item p hl hi hd _ ih =>
    intro dsegs hdir hds hg
    subst hdir
    obtain ⟨h3, h4⟩ := hg.content hl
    have hall : ∀ s ∈ dsegs ++ [item.Name], ProperName s := by
      intro s hs
      rcases List.mem_append.mp hs with h | h
      · exact hds s h
      · simp at h; rw [h]; exact h3 item hi
    obtain ⟨names, f, h5, h6, h7⟩ := ih (dsegs ++ [item.Name])
      (Join_absPath_name dsegs _ hds (h3 item hi)) hall (h4 item hi hd)
    refine ⟨item.Name :: names, f, ?_, h6, ?_⟩
    · intro s hs
      rcases List.mem_cons.mp hs with h | h
      · rw [h]; exact h3 item hi
      · exact h5 s h
    · rw [h7]; simp

/-! ## Depth-first order and listing failures -/

theorem firstError_append (FSList : Lister) (a b : List Str) :
    firstError FSList (a ++ b)
      = match firstError FSList a with
        | some err => some err
        | none => firstError FSList b := by
  induction a with
  | nil => rfl
  | cons c a ih =>
    simp only [List.cons_append, firstError]
    cases listingError FSList c with
    | some err => rfl
    | none => exact ih

theorem untilFirstFailure_append_of_error (FSList : Lister) (a b : List Str) (err : Error)
    (h : firstError FSList a = some err) :
    untilFirstFailure FSList (a ++ b) = untilFirstFailure FSList a := by
  induction a with
  | nil => simp [firstError] at h
  | cons c a ih =>
    simp only [List.cons_append, untilFirstFailure, firstError] at h ⊢
    cases hc : listingError FSList c with
    | some e => rfl
    | none =>
      rw [hc] at h
      simp only at h ⊢
      exact congrArg (fun l => c :: l) (ih h)

theorem untilFirstFailure_append_of_none (FSList : Lister) (a b : List Str)
    (h : firstError FSList a = none) :
    untilFirstFailure FSList (a ++ b) = a ++ untilFirstFailure FSList b := by
  induction a with
  | nil => rfl
  | cons c a ih =>
    simp only [List.cons_append, untilFirstFailure, firstError] at h ⊢
    cases hc : listingError FSList c with
    | some e => rw [hc] at h; simp at h
    | none =>
      rw [hc] at h
      simp only at h ⊢
      exact congrArg (fun l => c :: l) (ih h)

theorem firstError_ne_none_iff (FSList : Lister) (l : List Str) :
    firstError FSList l ≠ none ↔ ∃ c ∈ l, listingError FSList c ≠ none := by
  induction l with
  | nil => simp [firstError]
  | cons c l ih =>
    simp only [firstError]
    cases hc : listingError FSList c with
    | some e =>
      simp only [ne_eq, not_false_eq_true, true_iff, reduceCtorEq]
      exact ⟨c, List.mem_cons_self _ _, by rw [hc]; simp⟩
    | none =>
      simp only
      rw [ih]
      constructor
      · rintro ⟨x, hx, h⟩
        exact ⟨x, List.mem_cons_of_mem _ hx, h⟩
      · rintro ⟨x, hx, h⟩
        rcases List.mem_cons.mp hx with h1 | h1
        · rw [h1, hc] at h; exact absurd rfl h
        · exact ⟨x, h1, h⟩

theorem firstError_some (FSList : Lister) (l : List Str) (err : Error)
    (h : firstError FSList l = some err) :
    ∃ pre c post, l = pre ++ c :: post ∧ (∀ x ∈ pre, listingError FSList x = none)
      ∧ listingError FSList c = some err ∧ untilFirstFailure FSList l = pre ++ [c] := by
  induction l with
  | nil => simp [firstError] at h
  | cons c l ih =>
    simp only [firstError] at h
    cases hc : listingError FSList c with
    | some e =>
      rw [hc] at h
      simp only [Option.some.injEq] at h
      subst h
      refine ⟨[], c, l, rfl, by simp, hc, ?_⟩
      simp [untilFirstFailure, hc]
    | none =>
      rw [hc] at h
      simp only at h
      obtain ⟨pre, x, post, h1, h2, h3, h4⟩ := ih h
      refine ⟨c :: pre, x, post, by rw [h1]; rfl, ?_, h3, ?_⟩
      · intro y hy
        rcases List.mem_cons.mp hy with h5 | h5
        · rw [h5]; exact hc
        · exact h2 y h5
      · simp [untilFirstFailure, hc, h4]

theorem dfsLoop_file (dfs : Str → Option (List Str)) (dir : Str) (item : FSListContentItem)
    (content : List FSListContentItem) (hd : item.IsDir = false) :
    dfsLoop dfs dir (item :: content) = dfsLoop dfs dir content := by
  simp [dfsLoop, hd]

theorem dfsLoop_dir (dfs : Str → Option (List Str)) (dir : Str) (item : FSListContentItem)
    (content : List FSListContentItem) (a b : List Str) (hd : item.IsDir = true)
    (ha : dfs (Join [dir, item.Name]) = some a) (hb : dfsLoop dfs dir content = some b) :
    dfsLoop dfs dir (item :: content) = some (a ++ b) := by
  simp [dfsLoop, hd, ha, hb]

theorem dfsLoop_mono (f g : Str → Option (List Str))
    (hfg : ∀ d o, f d = some o → g d = some o) (dir : Str) (content : List FSListContentItem) :
    ∀ o, dfsLoop f dir content = some o → dfsLoop g dir content = some o := by
  induction content with
  | nil => intro o h; exact h
  | cons item content ih =>
    intro o h
    by_cases hd : item.IsDir = true
    · cases ha : f (Join [dir, item.Name]) with
      | none => simp [dfsLoop, hd, ha] at h
      | some a =>
        cases hb : dfsLoop f dir content with
        | none => simp [dfsLoop, hd, ha, hb] at h
        | some b =>
          rw [dfsLoop_dir f dir item content a b hd ha hb] at h
          rw [dfsLoop_dir g dir item content a b hd (hfg _ _ ha) (ih _ hb)]
          exact h
    · have hd' : item.IsDir = false := by simpa using hd
      rw [dfsLoop_file f dir item content hd'] at h
      rw [dfsLoop_file g dir item content hd']
      exact ih _ h

theorem dfsOrder_error (FSList : Lister) (fuel : Nat) (dir : Str) (err : Error)
    (h : FSList dir = .error err) : dfsOrder FSList (fuel + 1) dir = some [dir] := by
  rw [dfsOrder, h]

theorem dfsOrder_ok (FSList : Lister) (fuel : Nat) (dir : Str)
    (content : List FSListContentItem) (h : FSList dir = .ok content) :
    dfsOrder FSList (fuel + 1) dir
      = (dfsLoop (dfsOrder FSList fuel) dir content).map (fun o => dir :: o) := by
  rw [dfsOrder, h]

theorem dfsOrder_succ (FSList : Lister) (fuel : Nat) :
    ∀ (dir : Str) (o : List Str),
      dfsOrder FSList fuel dir = some o → dfsOrder FSList (fuel + 1) dir = some o := by
  induction fuel with
  | zero => intro dir o h; simp [dfsOrder] at h
  | succ fuel ih =>
    intro dir o h
    cases hl : FSList dir with
    | error err =>
      rw [dfsOrder_error FSList _ dir err hl] at h ⊢
      exact h
    | ok content =>
      rw [dfsOrder_ok FSList _ dir content hl] at h ⊢
      cases hb : dfsLoop (dfsOrder FSList fuel) dir content with
      | none => rw [hb] at h; simp at h
      | some b =>
        rw [hb] at h
        rw [dfsLoop_mono _ _ ih dir content b hb]
        exact h

theorem dfsOrder_mono (FSList : Lister) (fuel fuel' : Nat) (hle : fuel ≤ fuel') (dir : Str)
    (o : List Str) (h : dfsOrder FSList fuel dir = some o) :
    dfsOrder FSList fuel' dir = some o := by
  induction hle with
  | refl => exact h
  | step _ ih => exact dfsOrder_succ FSList _ dir o ih

theorem lookupLoop_traces (FSList : Lister) (lookup : Str → Option LookupResult)
    (dfs : Str → Option (List Str)) (dir : Str) (content : List FSListContentItem)
    (hsub : ∀ item ∈ content, item.IsDir = true →
      ∃ r o, lookup (Join [dir, item.Name]) = some r ∧ dfs (Join [dir, item.Name]) = some o
        ∧ Traces FSList r o) :
    ∀ (m : FilesMap) (calls : List Str),
      ∃ r o, lookupLoop lookup dir content m calls = some r ∧ dfsLoop dfs dir content = some o
        ∧ r.calls = calls ++ untilFirstFailure FSList o ∧ r.err = firstError FSList o := by
  induction content with
  | nil =>
    intro m calls
    exact ⟨⟨m, none, calls⟩, [], rfl, rfl, by simp [untilFirstFailure], rfl⟩
  | cons item content ih =>
    intro m calls
    have hsub' : ∀ it ∈ content, it.IsDir = true →
        ∃ r o, lookup (Join [dir, it.Name]) = some r ∧ dfs (Join [dir, it.Name]) = some o
          ∧ Traces FSList r o :=
      fun it hit => hsub it (List.mem_cons_of_mem _ hit)
    by_cases hd : item.IsDir = true
    · obtain ⟨sub, a, hs1, hs2, hs3, hs4⟩ := hsub item (List.mem_cons_self _ _) hd
      cases he : sub.err with
      | some err =>
        obtain ⟨_, b, _, hb, _, _⟩ := ih hsub' m calls
        refine ⟨⟨m, some err, calls ++ sub.calls⟩, a ++ b,
          lookupLoop_dir_err lookup dir item content m calls sub err hd hs1 he,
          dfsLoop_dir dfs dir item content a b hd hs2 hb, ?_, ?_⟩
        · have ha : firstError FSList a = some err := by rw [← hs4, he]
          show calls ++ sub.calls = _
          rw [untilFirstFailure_append_of_error FSList a b err ha, hs3]
        · have ha : firstError FSList a = some err := by rw [← hs4, he]
          show some err = _
          rw [firstError_append, ha]
      | none =>
        have ha : firstError FSList a = none := by rw [← hs4, he]
        obtain ⟨r, b, hr1, hb, hr2, hr3⟩ := ih hsub' (mergeInto m sub.filesMap)
          (calls ++ sub.calls)
        refine ⟨r, a ++ b, ?_, dfsLoop_dir dfs dir item content a b hd hs2 hb, ?_, ?_⟩
        · rw [lookupLoop_dir_ok lookup dir item content m calls sub hd hs1 he]
          exact hr1
        · have hua : untilFirstFailure FSList a = a := by
            have := untilFirstFailure_append_of_none FSList a [] ha
            simpa [untilFirstFailure] using this
          rw [hr2, untilFirstFailure_append_of_none FSList a b ha, hs3, hua, List.append_assoc]
        · rw [hr3, firstError_append, ha]
    · have hd' : item.IsDir = false := by simpa using hd
      obtain ⟨r, b, hr1, hb, hr2, hr3⟩ := ih hsub' (setKey m (Join [dir, item.Name]) item) calls
      refine ⟨r, b, ?_, ?_, hr2, hr3⟩
      · rw [lookupLoop_file lookup dir item content m calls hd']
        exact hr1
      · rw [dfsLoop_file dfs dir item content hd']
        exact hb

/-- On a finite tree `lookupFiles` returns, and its calls and its error are
those of the depth-first order cut after the first failing listing. -/
theorem lookupFiles_traces (FSList : Lister) (root : Str) (h : FiniteTree FSList root) :
    ∃ N r order, lookupFiles FSList N root = some r ∧ dfsOrder FSList N root = some order
      ∧ Traces FSList r order := by
  induction h with
  | failed dir err hl =>
    refine ⟨1, ⟨[], some err, [dir]⟩, [dir], lookupFiles_error FSList 0 dir err hl,
      dfsOrder_error FSList 0 dir err hl, ?_, ?_⟩
    · simp [untilFirstFailure, listingError, hl]
    · simp [firstError, listingError, hl]
  | listed dir content hl _ ih =>
    have hb := exists_uniform_bound (content.filter (fun item => item.IsDir))
      (fun item n => ∃ r o, lookupFiles FSList n (Join [dir, item.Name]) = some r
        ∧ dfsOrder FSList n (Join [dir, item.Name]) = some o ∧ Traces FSList r o)
      (by
        rintro a n n' hle ⟨r, o, h1, h2, h3⟩
        exact ⟨r, o, lookupFiles_mono FSList n n' hle _ r h1,
          dfsOrder_mono FSList n n' hle _ o h2, h3⟩)
      (by
        intro a ha
        have ha' := List.mem_filter.mp ha
        obtain ⟨N, r, o, h1, h2, h3⟩ := ih a ha'.1 ha'.2
        exact ⟨N, r, o, h1, h2, h3⟩)
    obtain ⟨N, hN⟩ := hb
    have hsub : ∀ item ∈ content, item.IsDir = true →
        ∃ r o, lookupFiles FSList N (Join [dir, item.Name]) = some r
          ∧ dfsOrder FSList N (Join [dir, item.Name]) = some o ∧ Traces FSList r o :=
      fun item hi hd => hN item (List.mem_filter.mpr ⟨hi, hd⟩)
    obtain ⟨r, o, hr1, hr2, hr3, hr4⟩ := lookupLoop_traces FSList (lookupFiles FSList N)
      (dfsOrder FSList N) dir content hsub [] [dir]
    have hle : listingError FSList dir = none := by simp [listingError, hl]
    refine ⟨N + 1, r, dir :: o, ?_, ?_, ?_, ?_⟩
    · rw [lookupFiles_ok FSList N dir content hl]; exact hr1
    · rw [dfsOrder_ok FSList N dir content hl, hr2]; rfl
    · rw [hr3]; simp [untilFirstFailure, hle]
    · rw [hr4]; simp [firstError, hle]

/-! ## Groups as maps -/

theorem listed_appendName (g : Groups) (d n d' n' : Str) :
    Listed (appendName g d n) d' n' ↔ (d' = d ∧ n' = n) ∨ Listed g d' n' := by
  induction g with
  | nil =>
    simp only [appendName, Listed, List.mem_singleton, Prod.mk.injEq, List.not_mem_nil,
      false_and, exists_false, or_false]
    constructor
    · rintro ⟨names, ⟨h1, h2⟩, h3⟩
      rw [h2] at h3
      exact ⟨h1, by simpa using h3⟩
    · rintro ⟨h1, h2⟩
      exact ⟨[n], ⟨h1, rfl⟩, by simp [h2]⟩
  | cons e g ih =>
    by_cases he : e.1 = d
    · simp only [appendName, if_pos he]
      constructor
      · rintro ⟨names, h1, h2⟩
        rcases List.mem_cons.mp h1 with h3 | h3
        · injection h3 with h4 h5
          rw [h5] at h2
          rcases List.mem_append.mp h2 with h6 | h6
          · right
            exact ⟨e.2, by rw [h4, ← he]; exact List.mem_cons_self _ _, h6⟩
          · left
            exact ⟨h4, by simpa using h6⟩
        · right
          exact ⟨names, List.mem_cons_of_mem _ h3, h2⟩
      · rintro (⟨h1, h2⟩ | ⟨names, h1, h2⟩)
        · exact ⟨e.2 ++ [n], by rw [h1]; exact List.mem_cons_self _ _, by simp [h2]⟩
        · rcases List.mem_cons.mp h1 with h3 | h3
          · refine ⟨e.2 ++ [n], ?_, List.mem_append_left _ (by rw [← h3]; exact h2)⟩
            have h4 : d' = d := by rw [← he, ← h3]
            rw [h4]; exact List.mem_cons_self _ _
          · exact ⟨names, List.mem_cons_of_mem _ h3, h2⟩
    · simp only [appendName, if_neg he]
      constructor
      · rintro ⟨names, h1, h2⟩
        rcases List.mem_cons.mp h1 with h3 | h3
        · right
          exact ⟨names, by rw [h3]; exact List.mem_cons_self _ _, h2⟩
        · rcases (ih).mp ⟨names, h3, h2⟩ with h4 | ⟨names', h4, h5⟩
          · exact Or.inl h4
          · exact Or.inr ⟨names', List.mem_cons_of_mem _ h4, h5⟩
      · rintro (h | ⟨names, h1, h2⟩)
        · obtain ⟨names', h3, h4⟩ := (ih).mpr (Or.inl h)
          exact ⟨names', List.mem_cons_of_mem _ h3, h4⟩
        · rcases List.mem_cons.mp h1 with h3 | h3
          · exact ⟨names, by rw [h3]; exact List.mem_cons_self _ _, h2⟩
          · obtain ⟨names', h4, h5⟩ := (ih).mpr (Or.inr ⟨names, h3, h2⟩)
            exact ⟨names', List.mem_cons_of_mem _ h4, h5⟩

theorem listed_groupLoop (skip : Str → Bool) (pr : Str → Str × Str) (m : FilesMap)
    (acc : Groups) (d n : Str) :
    Listed (groupLoop skip pr m acc) d n
      ↔ Listed acc d n ∨ ∃ p ∈ keys m, pr p = (d, n) ∧ skip p = false := by
  induction m generalizing acc with
  | nil =>
    rw [keys_nil]
    simp [groupLoop]
  | cons e m ih =>
    have step : groupLoop skip pr (e :: m) acc
        = groupLoop skip pr m (if skip e.1 then acc else appendName acc (pr e.1).1 (pr e.1).2) := rfl
    rw [step, ih, keys_cons]
    by_cases hs : skip e.1 = true
    · rw [if_pos hs]
      constructor
      · rintro (h | ⟨p, hp, h1, h2⟩)
        · exact Or.inl h
        · exact Or.inr ⟨p, List.mem_cons_of_mem _ hp, h1, h2⟩
      · rintro (h | ⟨p, hp, h1, h2⟩)
        · exact Or.inl h
        · rcases List.mem_cons.mp hp with h3 | h3
          · rw [h3, hs] at h2; exact absurd h2 (by simp)
          · exact Or.inr ⟨p, h3, h1, h2⟩
    · have hs' : skip e.1 = false := by simpa using hs
      rw [if_neg hs, listed_appendName]
      constructor
      · rintro ((⟨h1, h2⟩ | h) | ⟨p, hp, h1, h2⟩)
        · exact Or.inr ⟨e.1, List.mem_cons_self _ _, Prod.ext h1.symm h2.symm, hs'⟩
        · exact Or.inl h
        · exact Or.inr ⟨p, List.mem_cons_of_mem _ hp, h1, h2⟩
      · rintro (h | ⟨p, hp, h1, h2⟩)
        · exact Or.inl (Or.inr h)
        · rcases List.mem_cons.mp hp with h3 | h3
          · rw [h3] at h1
            exact Or.inl (Or.inl ⟨by rw [h1], by rw [h1]⟩)
          · exact Or.inr ⟨p, h3, h1, h2⟩

theorem nodup_keys_appendName (g : Groups) (d n : Str) (h : (g.map Prod.fst).Nodup) :
    ((appendName g d n).map Prod.fst).Nodup ∧
      ∀ x, x ∈ (appendName g d n).map Prod.fst ↔ x = d ∨ x ∈ g.map Prod.fst := by
  induction g with
  | nil => simp [appendName]
  | cons e g ih =>
    rw [List.map_cons] at h
    have hnd := List.nodup_cons.mp h
    obtain ⟨ih1, ih2⟩ := ih hnd.2
    by_cases he : e.1 = d
    · simp only [appendName, if_pos he, List.map_cons]
      refine ⟨by rw [← he]; exact h, ?_⟩
      intro x
      rw [← he]
      simp
    · simp only [appendName, if_neg he, List.map_cons]
      refine ⟨List.nodup_cons.mpr ⟨?_, ih1⟩, ?_⟩
      · intro hmem
        rcases (ih2 e.1).mp hmem with h1 | h1
        · exact he h1
        · exact hnd.1 h1
      · intro x
        rw [List.mem_cons, List.mem_cons, ih2]
        tauto

theorem nodup_keys_groupLoop (skip : Str → Bool) (pr : Str → Str × Str) (m : FilesMap)
    (acc : Groups) (h : (acc.map Prod.fst).Nodup) :
    ((groupLoop skip pr m acc).map Prod.fst).Nodup := by
  induction m generalizing acc with
  | nil => exact h
  | cons e m ih =>
    have step : groupLoop skip pr (e :: m) acc
        = groupLoop skip pr m (if skip e.1 then acc else appendName acc (pr e.1).1 (pr e.1).2) := rfl
    rw [step]
    apply ih
    split_ifs
    · exact h
    · exact (nodup_keys_appendName acc _ _ h).1

theorem hasKey_eq_false (m : FilesMap) (k : Str) : hasKey m k = false ↔ k ∉ keys m := by
  simp [hasKey]

theorem hasKey_eq_true (m : FilesMap) (k : Str) : hasKey m k = true ↔ k ∈ keys m := by
  simp [hasKey]

/-! ## Worked scenario data -/

theorem groupLoop_keys_congr (skip skip' : Str → Bool) (pr : Str → Str × Str) :
    ∀ (m m' : FilesMap) (acc : Groups), keys m = keys m' → (∀ p, skip p = skip' p) →
      groupLoop skip pr m acc = groupLoop skip' pr m' acc := by
  intro m
  induction m with
  | nil =>
    intro m' acc hk _
    cases m' with
    | nil => rfl
    | cons e m' => rw [keys_nil, keys_cons] at hk; exact absurd hk (by simp)
  | cons e m ih =>
    intro m' acc hk hs
    cases m' with
    | nil => rw [keys_nil, keys_cons] at hk; exact absurd hk (by simp)
    | cons e' m' =>
      rw [keys_cons, keys_cons] at hk
      injection hk with h1 h2
      have step1 : groupLoop skip pr (e :: m) acc
          = groupLoop skip pr m (if skip e.1 then acc else appendName acc (pr e.1).1 (pr e.1).2) :=
        rfl
      have step2 : groupLoop skip' pr (e' :: m') acc
          = groupLoop skip' pr m'
              (if skip' e'.1 then acc else appendName acc (pr e'.1).1 (pr e'.1).2) := rfl
      rw [step1, step2, ← h1, ← hs e.1]
      exact ih m' _ h2 hs

theorem perm_pair {α : Type} (l : List α) (a b : α) (h : l.Perm [a, b]) :
    l = [a, b] ∨ l = [b, a] := by
  have hlen := h.length_eq
  match l, hlen with
  | [x, y], _ =>
    have hx : x ∈ [a, b] := h.subset (List.mem_cons_self _ _)
    rcases List.mem_cons.mp hx with h1 | h1
    · subst h1
      have h2 := (List.perm_cons x).mp h
      have h3 := List.perm_singleton.mp h2
      left; rw [List.singleton_inj.mp h3]
    · have h1' : x = b := by simpa using h1
      subst h1'
      have h2 : [x, y].Perm [x, a] := h.trans (List.Perm.swap x a [])
      have h3 := (List.perm_cons x).mp h2
      have h4 := List.perm_singleton.mp h3
      right; rw [List.singleton_inj.mp h4]

theorem hasKey_congr (B B' : FilesMap) (h : (keys B).Perm (keys B')) (k : Str) :
    hasKey B k = hasKey B' k := by
  unfold hasKey
  exact decide_eq_decide.mpr h.mem_iff

/-! ## Claims on the reconciliation -/

/-- C1: deletion selection is exact.  For every source root, destination root,
destination tree `A` (a map: pairwise distinct keys) and source tree `B`, the
map built by the first loop of `deleteRemoteFiles` lists the leaf name `n`
under the key `d` exactly when some key `p` of `A` splits into `(d, n)` and its
translated path is not a key of `B`; the number of occurrences is the number of
such keys, which is one for each destination-only key, so the total number of
listed names is the number of destination-only keys; a destination path whose
translated path is a key of `B` is never listed; and when no translated path is
in `B`, every key of `A` is listed under its parent directory. -/
theorem deleteRemoteFiles_selection_exact (srcDir dstDir : Str) (A B : FilesMap)
    (hA : (keys A).Nodup) :
    (∀ d n, n ∈ namesOf (needDeleteFiles srcDir dstDir A B) d ↔
        ∃ p ∈ keys A, Split p = (d, n) ∧ localFilePath srcDir dstDir p ∉ keys B)
    ∧ (∀ p ∈ keys A, localFilePath srcDir dstDir p ∉ keys B →
        (namesOf (needDeleteFiles srcDir dstDir A B) (Split p).1).count (Split p).2 = 1)
    ∧ totalNames (needDeleteFiles srcDir dstDir A B)
        = ((keys A).filter (fun p => decide (localFilePath srcDir dstDir p ∉ keys B))).length
    ∧ ((needDeleteFiles srcDir dstDir A B).map Prod.fst).Nodup
    ∧ (∀ p ∈ keys A, localFilePath srcDir dstDir p ∈ keys B →
        (Split p).2 ∉ namesOf (needDeleteFiles srcDir dstDir A B) (Split p).1)
    ∧ ((∀ p ∈ keys A, localFilePath srcDir dstDir p ∉ keys B) →
        ∀ p ∈ keys A, (Split p).2 ∈ namesOf (needDeleteFiles srcDir dstDir A B) (Split p).1) := by
  have hmem : ∀ d n, n ∈ namesOf (needDeleteFiles srcDir dstDir A B) d ↔
      ∃ p ∈ keys A, Split p = (d, n) ∧ localFilePath srcDir dstDir p ∉ keys B := by
    intro d n
    rw [needDeleteFiles_eq, groupLoop_mem]
    simp only [hasKey_eq_false]
  refine ⟨hmem, ?_, ?_, ?_, ?_, ?_⟩
  · intro p hp hpB
    rw [needDeleteFiles_eq, groupLoop_count]
    apply countP_eq_one_of_nodup (keys A) hA _ p hp
    intro x _
    simp only [Bool.and_eq_true, Bool.not_eq_true', decide_eq_true_eq, hasKey_eq_false]
    constructor
    · rintro ⟨_, h2⟩
      exact Split_inj h2
    · intro h
      subst h
      exact ⟨hpB, rfl⟩
  · rw [needDeleteFiles_eq, groupLoop_total]
    simp only [totalNames, List.map_nil, List.sum_nil, Nat.zero_add]
    congr 1
    apply List.filter_congr
    intro x _
    simp [hasKey]
  · rw [needDeleteFiles_eq]
    exact nodup_keys_groupLoop _ _ _ _ List.nodup_nil
  · intro p _ hpB hlisted
    obtain ⟨p', _, h2, h3⟩ := (hmem _ _).mp hlisted
    have : p' = p := Split_inj h2
    subst this
    exact h3 hpB
  · intro hall p hp
    exact (hmem _ _).mpr ⟨p, hp, rfl, hall p hp⟩

/-- Witness of C1 on the trees of the worked scenario. -/
theorem deleteRemoteFiles_selection_exact_witness :
    (keys exRemote).Nodup ∧
      totalNames (needDeleteFiles exSrcDir exDstDir exRemote exLocal)
        = ((keys exRemote).filter
            (fun p => decide (localFilePath exSrcDir exDstDir p ∉ keys exLocal))).length :=
  ⟨by decide, (deleteRemoteFiles_selection_exact exSrcDir exDstDir exRemote exLocal
    (by decide)).2.2.1⟩

/-- C2: upload selection is exact and grouped by the root-relative directory.
For every source root, destination root, destination tree `A` and source tree
`B`, the map built by the first loop of `uploadLocalFiles` lists the leaf name
`n` under the key `d` exactly when some key `q` of `B` has its root-relative
path split into `(d, n)` and its translated path is not a key of `A`; every
such `q` contributes one occurrence; an empty `B` gives empty groups; and when
no translated path of `B` is in `A`, every key of `B` is listed under its
root-relative parent. -/
theorem uploadLocalFiles_selection_exact (srcDir dstDir : Str) (A B : FilesMap) :
    (∀ d n, n ∈ namesOf (needUploadFiles srcDir dstDir A B) d ↔
        ∃ q ∈ keys B, Split (pureFilePath srcDir q) = (d, n)
          ∧ remoteFilePath srcDir dstDir q ∉ keys A)
    ∧ (∀ d n, (namesOf (needUploadFiles srcDir dstDir A B) d).count n
        = (keys B).countP (fun q => decide (remoteFilePath srcDir dstDir q ∉ keys A)
            && decide (Split (pureFilePath srcDir q) = (d, n))))
    ∧ totalNames (needUploadFiles srcDir dstDir A B)
        = ((keys B).filter (fun q => decide (remoteFilePath srcDir dstDir q ∉ keys A))).length
    ∧ ((needUploadFiles srcDir dstDir A B).map Prod.fst).Nodup
    ∧ needUploadFiles srcDir dstDir A [] = []
    ∧ ((∀ q ∈ keys B, remoteFilePath srcDir dstDir q ∉ keys A) →
        ∀ q ∈ keys B, (Split (pureFilePath srcDir q)).2
          ∈ namesOf (needUploadFiles srcDir dstDir A B) (Split (pureFilePath srcDir q)).1) := by
  have hmem : ∀ d n, n ∈ namesOf (needUploadFiles srcDir dstDir A B) d ↔
      ∃ q ∈ keys B, Split (pureFilePath srcDir q) = (d, n)
        ∧ remoteFilePath srcDir dstDir q ∉ keys A := by
    intro d n
    rw [needUploadFiles_eq, groupLoop_mem]
    simp only [hasKey_eq_false]
  refine ⟨hmem, ?_, ?_, ?_, rfl, ?_⟩
  · intro d n
    rw [needUploadFiles_eq, groupLoop_count]
    apply List.countP_congr
    intro x _
    simp [hasKey]
  · rw [needUploadFiles_eq, groupLoop_total]
    simp only [totalNames, List.map_nil, List.sum_nil, Nat.zero_add]
    congr 1
    apply List.filter_congr
    intro x _
    simp [hasKey]
  · rw [needUploadFiles_eq]
    exact nodup_keys_groupLoop _ _ _ _ List.nodup_nil
  · intro hall q hq
    exact (hmem _ _).mpr ⟨q, hq, rfl, hall q hq⟩

/-- C3, as the code behaves: with source root `/data`, destination root
`/remote`, source keys `/data/a.txt`, `/data/sub/b.txt` and destination keys
`/remote/a.txt`, `/remote/old.txt` (in any iteration order, with any records),
the deletion groups are exactly `/remote/` with `old.txt`, the upload groups are
exactly `/sub/` (with its leading slash) with `b.txt`, and `a.txt` is listed in
neither. -/
theorem worked_scenario_groups (A B : FilesMap)
    (hA : (keys A).Perm (keys exRemote)) (hB : (keys B).Perm (keys exLocal)) :
    needDeleteFiles exSrcDir exDstDir A B = [("/remote/".toList, ["old.txt".toList])]
    ∧ needUploadFiles exSrcDir exDstDir A B = [("/sub/".toList, ["b.txt".toList])]
    ∧ (∀ d, "a.txt".toList ∉ namesOf (needDeleteFiles exSrcDir exDstDir A B) d)
    ∧ (∀ d, "a.txt".toList ∉ namesOf (needUploadFiles exSrcDir exDstDir A B) d) := by
  have hdel : needDeleteFiles exSrcDir exDstDir A B
      = [("/remote/".toList, ["old.txt".toList])] := by
    rw [needDeleteFiles_eq]
    rcases perm_pair _ _ _ hA with h | h
    · rw [groupLoop_keys_congr _ (fun p => hasKey exLocal (localFilePath exSrcDir exDstDir p))
        Split A exRemote [] h (fun p => hasKey_congr B exLocal hB _)]
      decide
    · rw [groupLoop_keys_congr _ (fun p => hasKey exLocal (localFilePath exSrcDir exDstDir p))
        Split A exRemote.reverse [] h (fun p => hasKey_congr B exLocal hB _)]
      decide
  have hup : needUploadFiles exSrcDir exDstDir A B = [("/sub/".toList, ["b.txt".toList])] := by
    rw [needUploadFiles_eq]
    rcases perm_pair _ _ _ hB with h | h
    · rw [groupLoop_keys_congr _ (fun q => hasKey exRemote (remoteFilePath exSrcDir exDstDir q))
        (fun q => Split (pureFilePath exSrcDir q)) B exLocal [] h
        (fun p => hasKey_congr A exRemote hA _)]
      decide
    · rw [groupLoop_keys_congr _ (fun q => hasKey exRemote (remoteFilePath exSrcDir exDstDir q))
        (fun q => Split (pureFilePath exSrcDir q)) B exLocal.reverse [] h
        (fun p => hasKey_congr A exRemote hA _)]
      decide
  refine ⟨hdel, hup, ?_, ?_⟩
  · intro d
    rw [hdel]
    simp only [namesOf]
    split_ifs <;> decide
  · intro d
    rw [hup]
    simp only [namesOf]
    split_ifs <;> decide

/-- Witness of the worked scenario on the trees in the order written. -/
theorem worked_scenario_groups_witness :
    (keys exRemote).Perm (keys exRemote) ∧ (keys exLocal).Perm (keys exLocal)
      ∧ needUploadFiles exSrcDir exDstDir exRemote exLocal
          = [("/sub/".toList, ["b.txt".toList])] :=
  ⟨List.Perm.refl _, List.Perm.refl _,
    (worked_scenario_groups exRemote exLocal (List.Perm.refl _) (List.Perm.refl _)).2.1⟩

/-- C3 as stated fails: in the worked scenario the upload groups are not
`sub/` with `b.txt`; nothing is stored under the key `sub/`, and `b.txt` is
stored under `/sub/`. -/
theorem worked_scenario_upload_key_counterexample :
    needUploadFiles exSrcDir exDstDir exRemote exLocal ≠ [("sub/".toList, ["b.txt".toList])]
      ∧ namesOf (needUploadFiles exSrcDir exDstDir exRemote exLocal) "sub/".toList = []
      ∧ namesOf (needUploadFiles exSrcDir exDstDir exRemote exLocal) "/sub/".toList
          = ["b.txt".toList] := by
  decide

/-! ## Namespace translation between clean absolute roots -/

theorem joinSegs_inj (a b : List Str) (ha : ∀ s ∈ a, ProperName s) (hb : ∀ s ∈ b, ProperName s)
    (h : joinSegs a = joinSegs b) : a = b := by
  by_cases ha0 : a = []
  · subst ha0
    have : joinSegs b = [] := by rw [← h]; rfl
    exact ((joinSegs_eq_nil b (properName_ne_nil hb)).mp this).symm
  · have hb0 : b ≠ [] := by
      intro hb0
      subst hb0
      have : joinSegs a = [] := by rw [h]; rfl
      exact ha0 ((joinSegs_eq_nil a (properName_ne_nil ha)).mp this)
    rw [← segsOf_joinSegs a ha0 (properName_slashfree ha),
      ← segsOf_joinSegs b hb0 (properName_slashfree hb), h]

theorem absPath_decompose (psegs ssegs : List Str) (r : Str)
    (hp : ∀ s ∈ psegs, ProperName s) (hs : ∀ s ∈ ssegs, ProperName s)
    (h : absPath psegs = absPath ssegs ++ r)
    (hr : r = [] ∨ r.head? = some '/' ∨ absPath ssegs = ['/']) :
    ∃ rsegs, psegs = ssegs ++ rsegs := by
  by_cases hs0 : ssegs = []
  · exact ⟨psegs, by rw [hs0]; rfl⟩
  · have hj : joinSegs psegs = joinSegs ssegs ++ r := by
      unfold absPath at h
      simpa using h
    have hjs : joinSegs ssegs ≠ [] := fun h0 => hs0 ((joinSegs_eq_nil _ (properName_ne_nil hs)).mp h0)
    rcases hr with h1 | h1 | h1
    · subst h1
      rw [List.append_nil] at hj
      exact ⟨[], by rw [List.append_nil]; exact joinSegs_inj _ _ hp hs hj⟩
    · cases r with
      | nil => simp at h1
      | cons c r' =>
        have hc : c = '/' := by simpa using h1
        subst hc
        have hp0 : psegs ≠ [] := by
          intro h0
          rw [h0] at hj
          have := congrArg List.length hj
          simp [joinSegs] at this
          omega
        have h2 := congrArg segsOf hj
        rw [segsOf_joinSegs psegs hp0 (properName_slashfree hp), segsOf_append,
          segsOf_joinSegs ssegs hs0 (properName_slashfree hs)] at h2
        exact ⟨segsOf r', h2⟩
    · exfalso
      unfold absPath at h1
      have : joinSegs ssegs = [] := by simpa using h1
      exact hjs this

theorem under_root_form (root p : Str) (rsegs : List Str) (hr : ∀ s ∈ rsegs, ProperName s)
    (hroot : root = absPath rsegs) (hp : Clean p = p) (hb : AtElemBoundary root p) :
    ∃ rs, (∀ s ∈ rs, ProperName s) ∧ p = absPath (rsegs ++ rs) := by
  obtain ⟨r, h1, h2⟩ := hb
  have hhead : p.head? = some '/' := by
    rw [h1, hroot]; rfl
  obtain ⟨psegs, h3, h4, _⟩ := CleanAbs_form p ⟨hhead, hp⟩
  have h5 : absPath psegs = absPath rsegs ++ r := by rw [← h4, h1, hroot]
  obtain ⟨rs, h6⟩ := absPath_decompose psegs rsegs r h3 hr h5 (by rw [← hroot]; exact h2)
  refine ⟨rs, ?_, by rw [h4, h6]⟩
  intro s hs
  exact h3 s (by rw [h6]; exact List.mem_append_right _ hs)

theorem localFilePath_absPath (ssegs tsegs rs : List Str) (hs : ∀ s ∈ ssegs, ProperName s)
    (hrs : ∀ s ∈ rs, ProperName s) :
    localFilePath (absPath ssegs) (absPath tsegs) (absPath (tsegs ++ rs))
      = absPath (ssegs ++ rs) :=
  translate_absPath tsegs ssegs rs hs hrs

theorem remoteFilePath_absPath (ssegs tsegs rs : List Str) (ht : ∀ s ∈ tsegs, ProperName s)
    (hrs : ∀ s ∈ rs, ProperName s) :
    remoteFilePath (absPath ssegs) (absPath tsegs) (absPath (ssegs ++ rs))
      = absPath (tsegs ++ rs) :=
  translate_absPath ssegs tsegs rs ht hrs

/-- The group of a listed source file, and the paths the copy call acts on. -/
theorem upload_group_absPath (ssegs xsegs names : List Str) (f : Str)
    (hx : ∀ s ∈ xsegs, ProperName s) (hn : ∀ s ∈ names, ProperName s) (hf : ProperName f) :
    Split (pureFilePath (absPath ssegs) (absPath (ssegs ++ (names ++ [f]))))
        = (dirPart ssegs names, f)
      ∧ Join [Join [absPath xsegs, dirPart ssegs names], f] = absPath (xsegs ++ (names ++ [f])) := by
  refine ⟨?_, ?_⟩
  · unfold pureFilePath
    rw [absPath_append, TrimPrefix_append, relTail_snoc]
    exact Split_spec _ f hf.2.1 (dirPart_boundary ssegs names)
  · obtain ⟨h1, h2⟩ := dirPart_loose ssegs names hn
    have hall : ∀ s ∈ xsegs ++ names, ProperName s := by
      intro s hs
      rcases List.mem_append.mp hs with h | h
      · exact hx s h
      · exact hn s h
    rw [(Join_absPath xsegs _ hx h1).1, h2, Join_absPath_name _ f hall hf, List.append_assoc]

/-! ## `lookupFiles` is a function of the tree -/

theorem lookupFiles_result (FSList : Lister) (root : Str) (h : ListedTree FSList root)
    (fuel : Nat) (r : LookupResult) (hr : lookupFiles FSList fuel root = some r) :
    ListsFiles FSList root r := by
  obtain ⟨N, r', h1, h2⟩ := lookupFiles_lists FSList root h
  have h3 := lookupFiles_mono FSList fuel (max fuel N) (Nat.le_max_left _ _) root r hr
  have h4 := lookupFiles_mono FSList N (max fuel N) (Nat.le_max_right _ _) root r' h1
  rw [h3] at h4
  injection h4 with h5
  rw [h5]; exact h2

theorem listed_key_form (FSList : Lister) (root : Str) (rsegs : List Str)
    (hroot : root = absPath rsegs) (hr : ∀ s ∈ rsegs, ProperName s)
    (hg : GoodTree FSList root) (fuel : Nat) (r : LookupResult)
    (hl : lookupFiles FSList fuel root = some r) (p : Str) (hp : p ∈ keys r.filesMap) :
    ∃ names f, (∀ s ∈ names, ProperName s) ∧ ProperName f
      ∧ p = absPath (rsegs ++ (names ++ [f])) := by
  have h1 := lookupFiles_result FSList root hg.toListed fuel r hl
  exact ((h1.2.1 p).mp hp).absForm rsegs hroot hr hg

/-! ## Claims on namespace translation -/

/-- C5, as the code behaves: for clean absolute roots, and every clean path `p`
that has the source root as a prefix ending at an element boundary, translating
`p` to the destination namespace and back gives `p`. -/
theorem pathMapper_round_trip (srcDir dstDir p : Str) (hs : CleanAbs srcDir)
    (ht : CleanAbs dstDir) (hp : Clean p = p) (hb : AtElemBoundary srcDir p) :
    localFilePath srcDir dstDir (remoteFilePath srcDir dstDir p) = p := by
  obtain ⟨ssegs, hs1, hs2, _⟩ := CleanAbs_form srcDir hs
  obtain ⟨tsegs, ht1, ht2, _⟩ := CleanAbs_form dstDir ht
  obtain ⟨rs, hr1, hr2⟩ := under_root_form srcDir p ssegs hs1 hs2 hp hb
  rw [hr2, hs2, ht2, remoteFilePath_absPath ssegs tsegs rs ht1 hr1,
    localFilePath_absPath ssegs tsegs rs hs1 hr1]

/-- Witness of the round trip on `/data/sub/b.txt` of the worked scenario. -/
theorem pathMapper_round_trip_witness :
    CleanAbs exSrcDir ∧ CleanAbs exDstDir ∧
      localFilePath exSrcDir exDstDir
        (remoteFilePath exSrcDir exDstDir "/data/sub/b.txt".toList) = "/data/sub/b.txt".toList :=
  ⟨by decide, by decide,
    pathMapper_round_trip exSrcDir exDstDir "/data/sub/b.txt".toList (by decide) (by decide)
      (by decide) ⟨"/sub/b.txt".toList, by decide, Or.inr (Or.inl (by decide))⟩⟩

/-- C5 as stated fails.  Each of these paths has the source root as a literal
string prefix and is changed by the round trip: `/data/a` under the roots `/da`
and `/remote` (the prefix ends inside an element) comes back as `/da/ta/a`;
`/data/a` under the roots `/data` and `./remote` (a root that is not clean)
comes back as `/data/remote/a`; `/data//a` (a path that is not clean) comes
back as `/data/a`; and `../../a` under the relative roots `..` and `remote`
comes back as `../a`. -/
theorem pathMapper_round_trip_counterexample :
    (HasPrefix "/data/a".toList "/da".toList = true
      ∧ localFilePath "/da".toList "/remote".toList
          (remoteFilePath "/da".toList "/remote".toList "/data/a".toList) = "/da/ta/a".toList
      ∧ localFilePath "/da".toList "/remote".toList
          (remoteFilePath "/da".toList "/remote".toList "/data/a".toList) ≠ "/data/a".toList)
    ∧ (HasPrefix "/data/a".toList "/data".toList = true
      ∧ localFilePath "/data".toList "./remote".toList
          (remoteFilePath "/data".toList "./remote".toList "/data/a".toList)
            ≠ "/data/a".toList)
    ∧ (HasPrefix "/data//a".toList "/data".toList = true
      ∧ localFilePath "/data".toList "/remote".toList
          (remoteFilePath "/data".toList "/remote".toList "/data//a".toList)
            ≠ "/data//a".toList)
    ∧ (HasPrefix "../../a".toList "..".toList = true
      ∧ localFilePath "..".toList "remote".toList
          (remoteFilePath "..".toList "remote".toList "../../a".toList) ≠ "../../a".toList) := by
  decide

/-- C6, as the code behaves: for clean absolute roots, a destination tree `A`
whose keys are clean paths at or below the destination root, and a source tree
`B` whose key set is the set of translated keys of `A`, the deletion groups and
the upload groups are both empty. -/
theorem agreeing_trees_need_no_operations (srcDir dstDir : Str) (A B : FilesMap)
    (hs : CleanAbs srcDir) (ht : CleanAbs dstDir)
    (hA : ∀ p ∈ keys A, Clean p = p ∧ AtElemBoundary dstDir p)
    (hAB : ∀ q, q ∈ keys B ↔ ∃ p ∈ keys A, q = localFilePath srcDir dstDir p) :
    needDeleteFiles srcDir dstDir A B = [] ∧ needUploadFiles srcDir dstDir A B = [] := by
  obtain ⟨ssegs, hs1, hs2, _⟩ := CleanAbs_form srcDir hs
  obtain ⟨tsegs, ht1, ht2, _⟩ := CleanAbs_form dstDir ht
  refine ⟨?_, ?_⟩
  · rw [needDeleteFiles_eq]
    apply groupLoop_nil_of_all_skipped
    intro p hp
    exact (hasKey_eq_true _ _).mpr ((hAB _).mpr ⟨p, hp, rfl⟩)
  · rw [needUploadFiles_eq]
    apply groupLoop_nil_of_all_skipped
    intro q hq
    obtain ⟨p, hp, hqp⟩ := (hAB q).mp hq
    obtain ⟨rs, hr1, hr2⟩ := under_root_form dstDir p tsegs ht1 ht2 (hA p hp).1 (hA p hp).2
    apply (hasKey_eq_true _ _).mpr
    rw [hqp, hr2, hs2, ht2, localFilePath_absPath ssegs tsegs rs hs1 hr1,
      remoteFilePath_absPath ssegs tsegs rs ht1 hr1, ← hr2]
    exact hp

/-- Witness of C6: the destination tree `/remote/a.txt` against the source tree
`/data/a.txt`. -/
theorem agreeing_trees_need_no_operations_witness :
    CleanAbs exSrcDir ∧ CleanAbs exDstDir ∧
      needDeleteFiles exSrcDir exDstDir [("/remote/a.txt".toList, fileItem "a.txt")]
          [("/data/a.txt".toList, fileItem "a.txt")] = []
      ∧ needUploadFiles exSrcDir exDstDir [("/remote/a.txt".toList, fileItem "a.txt")]
          [("/data/a.txt".toList, fileItem "a.txt")] = [] :=
  ⟨by decide, by decide,
    agreeing_trees_need_no_operations exSrcDir exDstDir
      [("/remote/a.txt".toList, fileItem "a.txt")] [("/data/a.txt".toList, fileItem "a.txt")]
      (by decide) (by decide)
      (by
        intro p hp
        have hp' : p = "/remote/a.txt".toList := by simpa [keys] using hp
        subst hp'
        exact ⟨by decide, ⟨"/a.txt".toList, by decide, Or.inr (Or.inl (by decide))⟩⟩)
      (by
        intro q
        constructor
        · intro hq
          have hq' : q = "/data/a.txt".toList := by simpa [keys] using hq
          subst hq'
          exact ⟨"/remote/a.txt".toList, by decide, by decide⟩
        · rintro ⟨p, hp, hq⟩
          have hp' : p = "/remote/a.txt".toList := by simpa [keys] using hp
          subst hp'
          rw [hq]
          decide)⟩

/-- C6 as stated fails: with source root `/data` and destination root
`./remote`, the destination tree listed by `lookupFiles` has the one key
`remote/x`, its translated path `/data/remote/x` is the one key of the source
tree, and yet the upload groups are not empty. -/
theorem agreeing_trees_counterexample :
    lookupFiles cexRemoteFS 1 "./remote".toList
        = some ⟨[("remote/x".toList, fileItem "x")], none, ["./remote".toList]⟩
    ∧ (keys [("remote/x".toList, fileItem "x")]).map
          (localFilePath "/data".toList "./remote".toList)
        = keys [("/data/remote/x".toList, fileItem "x")]
    ∧ needUploadFiles "/data".toList "./remote".toList [("remote/x".toList, fileItem "x")]
          [("/data/remote/x".toList, fileItem "x")] = [("/remote/".toList, ["x".toList])] := by
  decide

/-! ## The copy call of an upload group -/

theorem exFS_good : GoodTree exFS exSrcDir := by
  refine GoodTree.listed _ [fileItem "a.txt", dirItem "sub"] rfl (by decide) ?_
  intro item hi hd
  have h1 : item = dirItem "sub" := by
    rcases List.mem_cons.mp hi with h | h
    · rw [h] at hd; exact absurd hd (by decide)
    · simpa using h
  subst h1
  refine GoodTree.listed _ [fileItem "b.txt"] rfl (by decide) ?_
  intro item hi hd
  have h2 : item = fileItem "b.txt" := by simpa using hi
  rw [h2] at hd
  exact absurd hd (by decide)

theorem mem_uploadLocalFiles (srcDir dstDir : Str) (A B : FilesMap) (d : Str)
    (names : List Str) (h : (d, names) ∈ needUploadFiles srcDir dstDir A B) :
    ClientCall.FSCopy (Join [srcDir, d]) (Join [dstDir, d]) names
      ∈ uploadLocalFiles srcDir dstDir A B := by
  unfold uploadLocalFiles
  rw [List.mem_flatMap]
  exact ⟨(d, names), h, by simp⟩

/-- C10: the copy call of an upload group acts on exactly the file that was
found missing.  For clean absolute roots and a source file `q` listed by
`lookupFiles(srcDir)` over a tree with proper entry names (in any iteration
order `B` of the listed map), if the translated path of `q` is not a key of the
destination tree, then with `(d, n)` the split of the root-relative path of `q`,
`uploadLocalFiles` issues `FSCopy(path.Join(srcDir, d), path.Join(dstDir, d),
names)` with `n` among the names, the copied source `path.Join(path.Join(srcDir,
d), n)` is `q`, and the written destination `path.Join(path.Join(dstDir, d), n)`
is the translated path of `q`. -/
theorem upload_copy_acts_on_missing_file (srcDir dstDir : Str) (hs : CleanAbs srcDir)
    (ht : CleanAbs dstDir) (FSList : Lister) (hg : GoodTree FSList srcDir) (fuel : Nat)
    (r : LookupResult) (hr : lookupFiles FSList fuel srcDir = some r)
    (A B : FilesMap) (hB : B.Perm r.filesMap) (q : Str) (hq : q ∈ keys B)
    (hsel : remoteFilePath srcDir dstDir q ∉ keys A) :
    (∃ names, ClientCall.FSCopy (Join [srcDir, (Split (pureFilePath srcDir q)).1])
          (Join [dstDir, (Split (pureFilePath srcDir q)).1]) names
            ∈ uploadLocalFiles srcDir dstDir A B
        ∧ (Split (pureFilePath srcDir q)).2 ∈ names)
      ∧ Join [Join [srcDir, (Split (pureFilePath srcDir q)).1], (Split (pureFilePath srcDir q)).2]
          = q
      ∧ Join [Join [dstDir, (Split (pureFilePath srcDir q)).1], (Split (pureFilePath srcDir q)).2]
          = remoteFilePath srcDir dstDir q := by
  obtain ⟨ssegs, hs1, hs2, _⟩ := CleanAbs_form srcDir hs
  obtain ⟨tsegs, ht1, ht2, _⟩ := CleanAbs_form dstDir ht
  have hq' : q ∈ keys r.filesMap := by
    unfold keys at hq ⊢
    exact (hB.map Prod.fst).mem_iff.mp hq
  obtain ⟨names, f, hn, hf, hform⟩ := listed_key_form FSList srcDir ssegs hs2 hs1 hg fuel r hr q hq'
  have hall : ∀ s ∈ names ++ [f], ProperName s := by
    intro s hs
    rcases List.mem_append.mp hs with h | h
    · exact hn s h
    · simp at h; rw [h]; exact hf
  refine ⟨?_, ?_, ?_⟩
  · have hl : Listed (needUploadFiles srcDir dstDir A B) (Split (pureFilePath srcDir q)).1
        (Split (pureFilePath srcDir q)).2 := by
      rw [needUploadFiles_eq, listed_groupLoop]
      exact Or.inr ⟨q, hq, rfl, (hasKey_eq_false _ _).mpr hsel⟩
    obtain ⟨nms, h1, h2⟩ := hl
    exact ⟨nms, mem_uploadLocalFiles srcDir dstDir A B _ nms h1, h2⟩
  · rw [hform, hs2, (upload_group_absPath ssegs ssegs names f hs1 hn hf).1]
    exact (upload_group_absPath ssegs ssegs names f hs1 hn hf).2
  · rw [hform, hs2, ht2, (upload_group_absPath ssegs tsegs names f ht1 hn hf).1,
      remoteFilePath_absPath ssegs tsegs _ ht1 hall]
    exact (upload_group_absPath ssegs tsegs names f ht1 hn hf).2

/-- Witness of C10: the file `/data/sub/b.txt` of the worked scenario. -/
theorem upload_copy_acts_on_missing_file_witness :
    CleanAbs exSrcDir ∧ CleanAbs exDstDir ∧ GoodTree exFS exSrcDir
      ∧ lookupFiles exFS 2 exSrcDir = some ⟨exLocal, none, [exSrcDir, "/data/sub".toList]⟩
      ∧ Join [Join [exSrcDir, "/sub/".toList], "b.txt".toList] = "/data/sub/b.txt".toList :=
  ⟨by decide, by decide, exFS_good, by decide,
    (upload_copy_acts_on_missing_file exSrcDir exDstDir (by decide) (by decide) exFS exFS_good 2
      ⟨exLocal, none, [exSrcDir, "/data/sub".toList]⟩ (by decide) exRemote exLocal
      (List.Perm.refl _) "/data/sub/b.txt".toList (by decide) (by decide)).2.1⟩

/-! ## A second run after a successful first run -/

theorem mem_removedKeys (del : Groups) (k : Str) :
    k ∈ removedKeys del ↔ ∃ d n, Listed del d n ∧ k = d ++ n := by
  unfold removedKeys Listed
  rw [List.mem_flatMap]
  constructor
  · rintro ⟨g, hg, hk⟩
    obtain ⟨n, hn, hkn⟩ := List.mem_map.mp hk
    exact ⟨g.1, n, ⟨g.2, hg, hn⟩, hkn.symm⟩
  · rintro ⟨d, n, ⟨names, h1, h2⟩, hk⟩
    exact ⟨(d, names), h1, List.mem_map.mpr ⟨n, h2, hk.symm⟩⟩

theorem mem_addedKeys (dstDir : Str) (up : Groups) (k : Str) :
    k ∈ addedKeys dstDir up ↔ ∃ d n, Listed up d n ∧ k = Join [Join [dstDir, d], n] := by
  unfold addedKeys Listed
  rw [List.mem_flatMap]
  constructor
  · rintro ⟨g, hg, hk⟩
    obtain ⟨n, hn, hkn⟩ := List.mem_map.mp hk
    exact ⟨g.1, n, ⟨g.2, hg, hn⟩, hkn.symm⟩
  · rintro ⟨d, n, ⟨names, h1, h2⟩, hk⟩
    exact ⟨(d, names), h1, List.mem_map.mpr ⟨n, h2, hk.symm⟩⟩

theorem mem_keys_afterFirstRun (dstDir : Str) (A : FilesMap) (del up : Groups) (k : Str) :
    k ∈ keys (afterFirstRun dstDir A del up)
      ↔ (k ∈ keys A ∧ k ∉ removedKeys del) ∨ k ∈ addedKeys dstDir up := by
  unfold afterFirstRun keys
  rw [List.map_append, List.mem_append, List.map_map]
  have h1 : (Prod.fst ∘ fun k => (k, (⟨(Split k).2, false⟩ : FSListContentItem))) = id := rfl
  rw [h1, List.map_id]
  have h2 : k ∈ List.map Prod.fst (List.filter (fun e => decide (e.1 ∉ removedKeys del)) A)
      ↔ k ∈ List.map Prod.fst A ∧ k ∉ removedKeys del := by
    constructor
    · intro h
      obtain ⟨e, he, hk⟩ := List.mem_map.mp h
      obtain ⟨he1, he2⟩ := List.mem_filter.mp he
      rw [← hk]
      exact ⟨List.mem_map.mpr ⟨e, he1, rfl⟩, by simpa using he2⟩
    · rintro ⟨h, hk⟩
      obtain ⟨e, he, hek⟩ := List.mem_map.mp h
      exact List.mem_map.mpr ⟨e, List.mem_filter.mpr ⟨he, by rw [hek]; simpa using hk⟩, hek⟩
  rw [h2]

/-- C4, as the code behaves: idempotence of a full sync between clean absolute
roots when the source tree has proper entry names.  Let `B` be the flat tree
listed from the source root (in any iteration order), `A` any destination tree
(in particular the one listed from the destination root), and `A'` the
destination tree after a first run in which every remove and copy call
succeeds; then the deletion groups and the upload groups computed from
`(A', B)` are both empty. -/
theorem sync_twice_is_idempotent (srcDir dstDir : Str) (hs : CleanAbs srcDir)
    (ht : CleanAbs dstDir) (FSsrc : Lister) (hgs : GoodTree FSsrc srcDir) (fuelB : Nat)
    (rB : LookupResult) (hrB : lookupFiles FSsrc fuelB srcDir = some rB)
    (A B : FilesMap) (hB : B.Perm rB.filesMap) :
    needDeleteFiles srcDir dstDir
        (afterFirstRun dstDir A (needDeleteFiles srcDir dstDir A B)
          (needUploadFiles srcDir dstDir A B)) B = []
    ∧ needUploadFiles srcDir dstDir
        (afterFirstRun dstDir A (needDeleteFiles srcDir dstDir A B)
          (needUploadFiles srcDir dstDir A B)) B = [] := by
  obtain ⟨ssegs, hs1, hs2, _⟩ := CleanAbs_form srcDir hs
  obtain ⟨tsegs, ht1, ht2, _⟩ := CleanAbs_form dstDir ht
  have hkB : ∀ q, q ∈ keys B → ∃ names f, (∀ s ∈ names, ProperName s) ∧ ProperName f
      ∧ q = absPath (ssegs ++ (names ++ [f])) := by
    intro q hq
    have hq' : q ∈ keys rB.filesMap := by
      unfold keys at hq ⊢
      exact (hB.map Prod.fst).mem_iff.mp hq
    exact listed_key_form FSsrc srcDir ssegs hs2 hs1 hgs fuelB rB hrB q hq'
  have hsnoc : ∀ (names : List Str) (f : Str), (∀ s ∈ names, ProperName s) → ProperName f →
      ∀ s ∈ names ++ [f], ProperName s := by
    intro names f hn hf s hs
    rcases List.mem_append.mp hs with h | h
    · exact hn s h
    · simp at h; rw [h]; exact hf
  -- every uploaded key is the translated path of a source key missing in `A`
  have hadded : ∀ k, k ∈ addedKeys dstDir (needUploadFiles srcDir dstDir A B) ↔
      ∃ q ∈ keys B, remoteFilePath srcDir dstDir q ∉ keys A
        ∧ k = remoteFilePath srcDir dstDir q := by
    intro k
    rw [mem_addedKeys]
    constructor
    · rintro ⟨d, n, hl, hk⟩
      rw [needUploadFiles_eq, listed_groupLoop] at hl
      rcases hl with ⟨_, h, _⟩ | ⟨q, hq, hsplit, hskip⟩
      · exact absurd h (List.not_mem_nil _)
      · obtain ⟨names, f, hn, hf, hform⟩ := hkB q hq
        refine ⟨q, hq, (hasKey_eq_false _ _).mp hskip, ?_⟩
        have h1 := upload_group_absPath ssegs tsegs names f ht1 hn hf
        rw [hform, hs2, h1.1] at hsplit
        injection hsplit with hd hn'
        rw [hk, hform, hs2, ht2, remoteFilePath_absPath ssegs tsegs _ ht1 (hsnoc names f hn hf),
          ← hd, ← hn']
        exact h1.2
    · rintro ⟨q, hq, hsel, hk⟩
      obtain ⟨names, f, hn, hf, hform⟩ := hkB q hq
      refine ⟨(Split (pureFilePath srcDir q)).1, (Split (pureFilePath srcDir q)).2, ?_, ?_⟩
      · rw [needUploadFiles_eq, listed_groupLoop]
        exact Or.inr ⟨q, hq, rfl, (hasKey_eq_false _ _).mpr hsel⟩
      · have h1 := upload_group_absPath ssegs tsegs names f ht1 hn hf
        rw [hk, hform, hs2, ht2, h1.1,
          remoteFilePath_absPath ssegs tsegs _ ht1 (hsnoc names f hn hf)]
        exact h1.2.symm
  -- every removed key is a destination key whose translated path is missing in `B`
  have hremoved : ∀ k, k ∈ removedKeys (needDeleteFiles srcDir dstDir A B) ↔
      k ∈ keys A ∧ localFilePath srcDir dstDir k ∉ keys B := by
    intro k
    rw [mem_removedKeys]
    constructor
    · rintro ⟨d, n, hl, hk⟩
      rw [needDeleteFiles_eq, listed_groupLoop] at hl
      rcases hl with ⟨_, h, _⟩ | ⟨p, hp, hsplit, hskip⟩
      · exact absurd h (List.not_mem_nil _)
      · have hpk : p = k := by
          rw [hk, ← Split_append p, hsplit]
        rw [← hpk]
        exact ⟨hp, (hasKey_eq_false _ _).mp hskip⟩
    · rintro ⟨hk, hsel⟩
      refine ⟨(Split k).1, (Split k).2, ?_, (Split_append k).symm⟩
      rw [needDeleteFiles_eq, listed_groupLoop]
      exact Or.inr ⟨k, hk, rfl, (hasKey_eq_false _ _).mpr hsel⟩
  have hround : ∀ q ∈ keys B,
      localFilePath srcDir dstDir (remoteFilePath srcDir dstDir q) = q := by
    intro q hq
    obtain ⟨names, f, hn, hf, hform⟩ := hkB q hq
    rw [hform, hs2, ht2, remoteFilePath_absPath ssegs tsegs _ ht1 (hsnoc names f hn hf),
      localFilePath_absPath ssegs tsegs _ hs1 (hsnoc names f hn hf)]
  refine ⟨?_, ?_⟩
  · rw [needDeleteFiles_eq]
    apply groupLoop_nil_of_all_skipped
    intro k hk
    apply (hasKey_eq_true _ _).mpr
    rcases (mem_keys_afterFirstRun _ _ _ _ k).mp hk with ⟨h1, h2⟩ | h1
    · by_contra hnot
      exact h2 ((hremoved k).mpr ⟨h1, hnot⟩)
    · obtain ⟨q, hq, _, hkq⟩ := (hadded k).mp h1
      rw [hkq, hround q hq]
      exact hq
  · rw [needUploadFiles_eq]
    apply groupLoop_nil_of_all_skipped
    intro q hq
    apply (hasKey_eq_true _ _).mpr
    apply (mem_keys_afterFirstRun _ _ _ _ _).mpr
    by_cases hin : remoteFilePath srcDir dstDir q ∈ keys A
    · left
      refine ⟨hin, ?_⟩
      intro hrem
      have h1 := ((hremoved _).mp hrem).2
      rw [hround q hq] at h1
      exact h1 hq
    · right
      exact (hadded _).mpr ⟨q, hq, hin, rfl⟩

/-- Witness of C4 on the worked scenario: after the first run the destination
holds `/remote/a.txt` and `/remote/sub/b.txt`, and nothing is left to do. -/
theorem sync_twice_is_idempotent_witness :
    CleanAbs exSrcDir ∧ CleanAbs exDstDir ∧ GoodTree exFS exSrcDir
      ∧ lookupFiles exRemoteFS 1 exDstDir = some ⟨exRemote, none, [exDstDir]⟩
      ∧ lookupFiles exFS 2 exSrcDir = some ⟨exLocal, none, [exSrcDir, "/data/sub".toList]⟩
      ∧ keys (afterFirstRun exDstDir exRemote (needDeleteFiles exSrcDir exDstDir exRemote exLocal)
          (needUploadFiles exSrcDir exDstDir exRemote exLocal))
          = ["/remote/a.txt".toList, "/remote/sub/b.txt".toList]
      ∧ needDeleteFiles exSrcDir exDstDir
          (afterFirstRun exDstDir exRemote (needDeleteFiles exSrcDir exDstDir exRemote exLocal)
            (needUploadFiles exSrcDir exDstDir exRemote exLocal)) exLocal = []
      ∧ needUploadFiles exSrcDir exDstDir
          (afterFirstRun exDstDir exRemote (needDeleteFiles exSrcDir exDstDir exRemote exLocal)
            (needUploadFiles exSrcDir exDstDir exRemote exLocal)) exLocal = [] :=
  ⟨by decide, by decide, exFS_good, by decide, by decide, by decide,
    sync_twice_is_idempotent exSrcDir exDstDir (by decide) (by decide) exFS exFS_good 2
      ⟨exLocal, none, [exSrcDir, "/data/sub".toList]⟩ (by decide) exRemote exLocal
      (List.Perm.refl _)⟩

/-- C4 as stated fails: with source root `./data` holding one file `a.txt` and
an empty destination root `/remote`, the first run uploads into the group
`data/`, the destination tree afterwards has the key `/remote/data/a.txt`, and
the second run selects that key for deletion. -/
theorem sync_twice_counterexample :
    lookupFiles cexSrcFS 1 "./data".toList
        = some ⟨[("data/a.txt".toList, fileItem "a.txt")], none, ["./data".toList]⟩
    ∧ lookupFiles cexDstFS 1 "/remote".toList = some ⟨[], none, ["/remote".toList]⟩
    ∧ needDeleteFiles "./data".toList "/remote".toList []
        [("data/a.txt".toList, fileItem "a.txt")] = []
    ∧ needUploadFiles "./data".toList "/remote".toList []
        [("data/a.txt".toList, fileItem "a.txt")] = [("data/".toList, ["a.txt".toList])]
    ∧ keys (afterFirstRun "/remote".toList [] [] [("data/".toList, ["a.txt".toList])])
        = ["/remote/data/a.txt".toList]
    ∧ needDeleteFiles "./data".toList "/remote".toList
        (afterFirstRun "/remote".toList [] [] [("data/".toList, ["a.txt".toList])])
        [("data/a.txt".toList, fileItem "a.txt")]
        = [("/remote/data/".toList, ["a.txt".toList])] := by
  decide

/-! ## Claims on the recursive listing -/

/-- C7: recursive listing returns exactly the files of the tree.  For every root
and every finite tree served by the listing call in which all listing calls
succeed and every entry name is a proper name, `lookupFiles(root)` returns (for
every large enough recursion bound, with the same result) without error a map
whose key set is exactly the set of paths `path.Join(root, d1, ..., dk, f)` over
the chains of nested directory entries `d1..dk` followed by a non-directory
entry `f`; every stored record is a non-directory record, and the keys are
pairwise distinct. -/
theorem lookupFiles_lists_tree_files (FSList : Lister) (root : Str)
    (hg : GoodTree FSList root) :
    ∃ N r, (∀ fuel, N ≤ fuel → lookupFiles FSList fuel root = some r) ∧ r.err = none
      ∧ (∀ p, p ∈ keys r.filesMap ↔ IsFileOf FSList root p)
      ∧ (∀ e ∈ r.filesMap, e.2.IsDir = false) ∧ (keys r.filesMap).Nodup := by
  obtain ⟨N, r, h1, h2, h3, h4, h5⟩ := lookupFiles_lists FSList root hg.toListed
  refine ⟨N, r, fun fuel hle => lookupFiles_mono FSList N fuel hle root r h1, h2, ?_, h4, h5⟩
  intro p
  rw [h3, filePath_iff_isFileOf FSList root hg]

/-- Witness of C7 on the source tree of the worked scenario. -/
theorem lookupFiles_lists_tree_files_witness :
    GoodTree exFS exSrcDir
      ∧ lookupFiles exFS 2 exSrcDir = some ⟨exLocal, none, [exSrcDir, "/data/sub".toList]⟩
      ∧ ∃ N r, (∀ fuel, N ≤ fuel → lookupFiles exFS fuel exSrcDir = some r) ∧ r.err = none
        ∧ (∀ p, p ∈ keys r.filesMap ↔ IsFileOf exFS exSrcDir p)
        ∧ (∀ e ∈ r.filesMap, e.2.IsDir = false) ∧ (keys r.filesMap).Nodup :=
  ⟨exFS_good, by decide, lookupFiles_lists_tree_files exFS exSrcDir exFS_good⟩

theorem firstError_eq_none_iff (FSList : Lister) (l : List Str) :
    firstError FSList l = none ↔ ∀ c ∈ l, listingError FSList c = none := by
  have h := firstError_ne_none_iff FSList l
  constructor
  · intro h1 c hc
    by_contra h2
    exact (h.mpr ⟨c, hc, h2⟩) h1
  · intro h1
    by_contra h2
    obtain ⟨c, hc, h3⟩ := h.mp h2
    exact h3 (h1 c hc)

theorem dfsLoop_sub (dfs : Str → Option (List Str)) (dir : Str)
    (content : List FSListContentItem) :
    ∀ o, dfsLoop dfs dir content = some o → ∀ item ∈ content, item.IsDir = true →
      ∃ a, dfs (Join [dir, item.Name]) = some a ∧ ∀ c ∈ a, c ∈ o := by
  induction content with
  | nil => intro o _ item hi; exact absurd hi (List.not_mem_nil _)
  | cons it content ih =>
    intro o ho item hi hd
    by_cases hit : it.IsDir = true
    · cases ha : dfs (Join [dir, it.Name]) with
      | none => simp [dfsLoop, hit, ha] at ho
      | some a =>
        cases hb : dfsLoop dfs dir content with
        | none => simp [dfsLoop, hit, ha, hb] at ho
        | some b =>
          rw [dfsLoop_dir dfs dir it content a b hit ha hb] at ho
          injection ho with ho'
          rcases List.mem_cons.mp hi with h | h
          · rw [h]
            exact ⟨a, ha, fun c hc => by rw [← ho']; exact List.mem_append_left _ hc⟩
          · obtain ⟨a', h1, h2⟩ := ih b hb item h hd
            exact ⟨a', h1, fun c hc => by rw [← ho']; exact List.mem_append_right _ (h2 c hc)⟩
    · have hit' : it.IsDir = false := by simpa using hit
      rw [dfsLoop_file dfs dir it content hit'] at ho
      rcases List.mem_cons.mp hi with h | h
      · rw [h, hit'] at hd; exact absurd hd (by simp)
      · exact ih o ho item h hd

/-- A finite tree in whose depth-first order no listing fails is a tree whose
listing calls all succeed. -/
theorem listed_of_no_failure (FSList : Lister) (root : Str) (h : FiniteTree FSList root) :
    ∀ N order, dfsOrder FSList N root = some order → firstError FSList order = none →
      ListedTree FSList root := by
  induction h with
  | failed dir err hl =>
    intro N order ho hf
    cases N with
    | zero => simp [dfsOrder] at ho
    | succ n =>
      rw [dfsOrder_error FSList n dir err hl] at ho
      injection ho with ho'
      rw [← ho'] at hf
      simp [firstError, listingError, hl] at hf
  | listed dir content hl _ ih =>
    intro N order ho hf
    cases N with
    | zero => simp [dfsOrder] at ho
    | succ n =>
      rw [dfsOrder_ok FSList n dir content hl] at ho
      cases hb : dfsLoop (dfsOrder FSList n) dir content with
      | none => rw [hb] at ho; simp at ho
      | some o =>
        rw [hb] at ho
        simp only [Option.map_some', Option.some.injEq] at ho
        have hall := (firstError_eq_none_iff FSList order).mp hf
        refine ListedTree.listed dir content hl ?_
        intro item hi hd
        obtain ⟨a, h1, h2⟩ := dfsLoop_sub _ dir content o hb item hi hd
        apply ih item hi hd n a h1
        apply (firstError_eq_none_iff FSList a).mpr
        intro c hc
        exact hall c (by rw [← ho]; exact List.mem_cons_of_mem _ (h2 c hc))

theorem head_dfsOrder (FSList : Lister) (N : Nat) (root : Str) (order : List Str)
    (h : dfsOrder FSList N root = some order) : order.head? = some root := by
  cases N with
  | zero => simp [dfsOrder] at h
  | succ n =>
    cases hl : FSList root with
    | error err =>
      rw [dfsOrder_error FSList n root err hl] at h
      injection h with h'
      rw [← h']; rfl
    | ok content =>
      rw [dfsOrder_ok FSList n root content hl] at h
      cases hb : dfsLoop (dfsOrder FSList n) root content with
      | none => rw [hb] at h; simp at h
      | some o =>
        rw [hb] at h
        simp only [Option.map_some', Option.some.injEq] at h
        rw [← h]; rfl

/-- C8: listing failure propagates from any depth.  For every root and every
finite tree, `lookupFiles(root)` returns (for every large enough recursion
bound, with the same result); with `order` the directories of the tree in
depth-first order, entries in listing order, starting at the root: the result
carries an error exactly when the listing of some directory of `order` fails;
the error is that of the first failing directory of `order`, every listing
before it succeeded, and the listing calls issued are the directories up to and
including it, so none is issued after it; and a result without error has
issued all calls and is the complete map of the tree, never a partially built
one. -/
theorem lookupFiles_failure_propagates (FSList : Lister) (root : Str)
    (h : FiniteTree FSList root) :
    ∃ N r order,
      (∀ fuel, N ≤ fuel →
        lookupFiles FSList fuel root = some r ∧ dfsOrder FSList fuel root = some order)
      ∧ order.head? = some root
      ∧ (r.err ≠ none ↔ ∃ c ∈ order, listingError FSList c ≠ none)
      ∧ (∀ err, r.err = some err →
          ∃ pre c post, order = pre ++ c :: post ∧ (∀ x ∈ pre, listingError FSList x = none)
            ∧ listingError FSList c = some err ∧ r.calls = pre ++ [c])
      ∧ (r.err = none → r.calls = order ∧ ListsFiles FSList root r) := by
  obtain ⟨N, r, order, h1, h2, h3, h4⟩ := lookupFiles_traces FSList root h
  refine ⟨N, r, order, ?_, head_dfsOrder FSList N root order h2, ?_, ?_, ?_⟩
  · intro fuel hle
    exact ⟨lookupFiles_mono FSList N fuel hle root r h1,
      dfsOrder_mono FSList N fuel hle root order h2⟩
  · rw [h4]
    exact firstError_ne_none_iff FSList order
  · intro err he
    rw [h4] at he
    obtain ⟨pre, c, post, h5, h6, h7, h8⟩ := firstError_some FSList order err he
    exact ⟨pre, c, post, h5, h6, h7, by rw [h3, h8]⟩
  · intro he
    rw [h4] at he
    refine ⟨?_, ?_⟩
    · have := untilFirstFailure_append_of_none FSList order [] he
      rw [h3]
      simpa [untilFirstFailure] using this
    · exact lookupFiles_result FSList root (listed_of_no_failure FSList root h N order h2 he)
        N r h1

theorem failFS_finite : FiniteTree failFS "/data".toList := by
  refine FiniteTree.listed _ [dirItem "x", dirItem "y"] rfl ?_
  intro item hi _
  rcases List.mem_cons.mp hi with h | h
  · subst h
    refine FiniteTree.listed _ [fileItem "f", dirItem "deep"] rfl ?_
    intro item hi hd
    rcases List.mem_cons.mp hi with h | h
    · rw [h] at hd; exact absurd hd (by decide)
    · have h2 : item = dirItem "deep" := by simpa using h
      subst h2
      exact FiniteTree.failed _ "listing failed" rfl
  · have h2 : item = dirItem "y" := by simpa using h
    subst h2
    exact FiniteTree.listed _ [] rfl (fun item hi _ => absurd hi (List.not_mem_nil _))

/-- Witness of C8: the listing that fails on the third call; the call for
`/data/y` is never issued and the error is returned. -/
theorem lookupFiles_failure_propagates_witness :
    FiniteTree failFS "/data".toList
      ∧ lookupFiles failFS 3 "/data".toList
          = some ⟨[], some "listing failed",
              ["/data".toList, "/data/x".toList, "/data/x/deep".toList]⟩
      ∧ dfsOrder failFS 3 "/data".toList
          = some ["/data".toList, "/data/x".toList, "/data/x/deep".toList, "/data/y".toList]
      ∧ ∃ N r order,
          (∀ fuel, N ≤ fuel →
            lookupFiles failFS fuel "/data".toList = some r
              ∧ dfsOrder failFS fuel "/data".toList = some order)
          ∧ order.head? = some "/data".toList
          ∧ (r.err ≠ none ↔ ∃ c ∈ order, listingError failFS c ≠ none)
          ∧ (∀ err, r.err = some err →
              ∃ pre c post, order = pre ++ c :: post
                ∧ (∀ x ∈ pre, listingError failFS x = none)
                ∧ listingError failFS c = some err ∧ r.calls = pre ++ [c])
          ∧ (r.err = none → r.calls = order ∧ ListsFiles failFS "/data".toList r) :=
  ⟨failFS_finite, by decide, by decide,
    lookupFiles_failure_propagates failFS "/data".toList failFS_finite⟩

/-- C9, as the code behaves: for every root that is empty or a clean path other
than `.`, and every finite tree with successful listings and proper entry
names, every key of the flat tree returned by `lookupFiles(root)` begins with
the root as a literal string prefix. -/
theorem listed_paths_begin_with_root (FSList : Lister) (root : Str)
    (hroot : root = [] ∨ CleanRoot root) (hg : GoodTree FSList root) :
    ∃ N r, (∀ fuel, N ≤ fuel → lookupFiles FSList fuel root = some r) ∧ r.err = none
      ∧ ∀ p ∈ keys r.filesMap, HasPrefix p root = true := by
  obtain ⟨N, r, h1, h2, h3, _, _⟩ := lookupFiles_lists FSList root hg.toListed
  refine ⟨N, r, fun fuel hle => lookupFiles_mono FSList N fuel hle root r h1, h2, ?_⟩
  intro p hp
  rcases hroot with h | h
  · subst h
    simp [HasPrefix]
  · exact (HasPrefix_iff p root).mpr (((h3 p).mp hp).hasRoot h hg)

/-- Witness of C9 on the source tree of the worked scenario. -/
theorem listed_paths_begin_with_root_witness :
    CleanRoot exSrcDir ∧ GoodTree exFS exSrcDir ∧
      ∃ N r, (∀ fuel, N ≤ fuel → lookupFiles exFS fuel exSrcDir = some r) ∧ r.err = none
        ∧ ∀ p ∈ keys r.filesMap, HasPrefix p exSrcDir = true :=
  ⟨by decide, exFS_good,
    listed_paths_begin_with_root exFS exSrcDir (Or.inr (by decide)) exFS_good⟩

theorem oneFileFS_listed (dir name : String) : ListedTree (oneFileFS dir name) dir.toList := by
  refine ListedTree.listed _ [fileItem name] (by simp [oneFileFS]) ?_
  intro item hi hd
  have h : item = fileItem name := by simpa using hi
  rw [h] at hd
  exact absurd hd (by simp [fileItem])

/-- C9 as stated fails.  Listings that all succeed, and a key that does not begin
with the root: under the root `./data` (not clean) the file `a.txt` gets the key
`data/a.txt`; under the root `.` it gets the key `a.txt`; under the root `/data`
an entry named `..` gets the key `/`. -/
theorem listed_paths_prefix_counterexample :
    (ListedTree (oneFileFS "./data" "a.txt") "./data".toList
      ∧ lookupFiles (oneFileFS "./data" "a.txt") 1 "./data".toList
          = some ⟨[("data/a.txt".toList, fileItem "a.txt")], none, ["./data".toList]⟩
      ∧ HasPrefix "data/a.txt".toList "./data".toList = false)
    ∧ (ListedTree (oneFileFS "." "a.txt") ".".toList
      ∧ lookupFiles (oneFileFS "." "a.txt") 1 ".".toList
          = some ⟨[("a.txt".toList, fileItem "a.txt")], none, [".".toList]⟩
      ∧ HasPrefix "a.txt".toList ".".toList = false)
    ∧ (ListedTree (oneFileFS "/data" "..") "/data".toList
      ∧ lookupFiles (oneFileFS "/data" "..") 1 "/data".toList
          = some ⟨[("/".toList, fileItem "..")], none, ["/data".toList]⟩
      ∧ HasPrefix "/".toList "/data".toList = false) :=
  ⟨⟨oneFileFS_listed _ _, by decide, by decide⟩, ⟨oneFileFS_listed _ _, by decide, by decide⟩,
    ⟨oneFileFS_listed _ _, by decide, by decide⟩⟩

set_option maxRecDepth 100000 in

/-- The embedding of `path.Clean`, `path.Join` and `path.Split` agrees with the
test tables of Go's package `path`. -/
theorem path_functions_pass_go_tests :
    (cleantests.all (fun t => decide (Clean t.1.toList = t.2.toList))) = true
    ∧ (jointests.all (fun t => decide (Join (t.1.map String.toList) = t.2.toList))) = true
    ∧ (splittests.all
        (fun t => decide (Split t.1.toList = (t.2.1.toList, t.2.2.toList)))) = true := by
  decide

end LocaldataSyncer
